import Mathlib

/-!
# zksync-era-go-indexer: decoder, repository and dual-cursor engine

A shallow embedding of the Go sources

* `internal/models` (rows of `pools`, `swap_events`, `scan_progress`),
* `internal/repository/repository.go` (the persistence operations),
* `internal/scanner/abi_scanner.go` (event decoder, range scanner, stable worker),

followed by the properties established about them.

Conventions.  Go maps are association lists read with `List.lookup`, the newest
binding first.  A `uint64` is a `Nat` with explicit reduction modulo `2 ^ 64` where the
source can wrap.  Big integers are `Int`.  The database is an explicit value that every
operation takes and returns; whether the storage engine fails on a statement is an
input of the operation.  The goroutines of one range are replaced by the schedule in
which their blocks finish and in which the checkpoint ticker fires.
-/

namespace ZkIndexer

/-! ## Go runtime -/

/-- Outcome of a Go call that either returns a value or dies on an index out of range. -/
inductive Outcome (α : Type) where
  | ok (a : α)
  | panic
  deriving DecidableEq, Repr

/-- The lower case `unicode.ToLower` gives a letter of ASCII, of Latin-1, of the basic
Greek alphabet or of the basic Cyrillic alphabet; every other character is left as it is
(Go lowers the capital letters of the other scripts as well). -/
def lowerChar (c : Char) : Char :=
  if (0x41 ≤ c.toNat ∧ c.toNat ≤ 0x5A) ∨
      (0xC0 ≤ c.toNat ∧ c.toNat ≤ 0xDE ∧ c.toNat ≠ 0xD7) ∨
      (0x391 ≤ c.toNat ∧ c.toNat ≤ 0x3A9 ∧ c.toNat ≠ 0x3A2) ∨
      (0x410 ≤ c.toNat ∧ c.toNat ≤ 0x42F) then Char.ofNat (c.toNat + 32)
  else if 0x400 ≤ c.toNat ∧ c.toNat ≤ 0x40F then Char.ofNat (c.toNat + 80)
  else c

/-- The function `strings.ToLower`, exact on text in the letters `lowerChar` covers; the
addresses and map keys of the program are hexadecimal ASCII text. -/
def toLower (s : String) : String := String.mk (s.data.map lowerChar)

/-- The conversion `uint64(x)` of a Go `int`. -/
def toUint64 (x : Int) : Nat := (x % (2 ^ 64 : Int)).toNat

/-- Addition of two `uint64` values, wrapping as the machine does. -/
def addU64 (a b : Nat) : Nat := (a + b) % 2 ^ 64

/-- Subtraction of two `uint64` values, wrapping as the machine does. -/
def subU64 (a b : Nat) : Nat := (a + 2 ^ 64 - b % 2 ^ 64) % 2 ^ 64

/-! ## internal/models -/

/-- Row of `pools` (`models.Pool`); the id, the audit timestamps, the soft-delete mark and
the status flag are filled by the database and read by nothing in the scanner. -/
structure Pool where
  PoolAddress : String
  FactoryAddress : String
  PoolType : String
  Version : String
  Token0 : String
  Token1 : String
  FeeRate : Option Int
  CreatedTx : String
  CreatedBlock : Nat
  deriving DecidableEq, Repr

/-- Row of `swap_events` (`models.SwapEvent`); the auto-increment id and `created_at`
are filled by the database (the scanner always hands over a fresh struct with id 0). -/
structure SwapEvent where
  BlockNumber : Nat
  BlockTimeStamp : Int
  TxHash : String
  LogIndex : Nat
  PoolAddress : String
  Sender : String
  Recipient : String
  TokenIn : String
  TokenOut : String
  AmountIn : String
  AmountOut : String
  FinalityStatus : String
  deriving DecidableEq, Repr

/-- Row of `scan_progress` (`models.ScanProgress`). -/
structure ScanProgress where
  TaskName : String
  LastScannedBlock : Nat
  Status : String
  ErrorMessage : String
  deriving DecidableEq, Repr

/-! ## go-ethereum values the scanner handles -/

/-- One input of an ABI event (`abi.Argument`). -/
structure Argument where
  Name : String
  Indexed : Bool
  deriving DecidableEq, Repr

/-- An ABI event (`abi.Event`): its topic-0 identifier and its inputs. -/
structure Event where
  ID : Nat
  Inputs : List Argument
  deriving DecidableEq, Repr

/-- A parsed contract ABI (`abi.ABI`), reduced to its event table. -/
structure ABI where
  Events : List (String × Event)
  deriving DecidableEq, Repr

/-- A value `UnpackIntoMap` stores under a key: a `*big.Int`, an address, or a value of
another Go type (`uint8`, `bool`, `[]byte`, ...). -/
inductive Value where
  | bigInt (v : Int)
  | address (a : Nat)
  | other
  deriving DecidableEq, Repr

/-- The `map[string]interface{}` filled by `UnpackIntoMap`. -/
abbrev Fields := List (String × Value)

/-- A log of a receipt (`types.Log`): emitter (20 bytes as a number), topics (32 bytes
each as a number), payload bytes and index in the block. -/
structure Log where
  Address : Nat
  Topics : List Nat
  Data : List Nat
  Index : Nat
  deriving DecidableEq, Repr

/-- A transaction receipt, reduced to `TxHash.Hex()` and its logs. -/
structure Receipt where
  TxHash : String
  Logs : List Log
  deriving DecidableEq, Repr

/-- The go-ethereum functions the decoder calls: `common.Address.Hex` (the EIP-55 text
of an address) and `abi.ABI.UnpackIntoMap` (`none` when it returns an error). -/
structure EthLib where
  addressHex : Nat → String
  unpackIntoMap : ABI → String → List Nat → Option Fields

/-- The call `common.BytesToAddress(topic.Bytes())`: the low 20 bytes of a topic. -/
def bytesToAddress (topic : Nat) : Nat := topic % 2 ^ 160

/-- The type assertion `fields[k].(*big.Int)`: the integer, or nil when the key is absent
or holds a value of another type. -/
def bigIntField (fields : Fields) (k : String) : Option Int :=
  match fields.lookup k with
  | some (Value.bigInt v) => some v
  | _ => none

/-! ## internal/abi -/

/-- The function `abi.GetABI` over the global table `ABIs`. -/
def GetABI (abis : List (String × ABI)) (address : String) : Option ABI :=
  abis.lookup (toLower address)

/-! ## internal/config -/

/-- The section `scanner` of the configuration (`config.ScannerConfig`), Go `int`s. -/
structure ScannerConfig where
  StartBlock : Int
  BatchSize : Int
  BatchIntervarSize : Int
  Workers : Int
  deriving DecidableEq, Repr

/-! ## internal/repository -/

/-- Error of a database statement, split the way the repository splits it: its text
contains `Duplicate entry` (a unique index refused the row), or it does not. -/
inductive DBError where
  | duplicateEntry
  | other
  deriving DecidableEq, Repr

/-- The three tables the scanner reads and writes. -/
structure DB where
  pools : List Pool
  swapEvents : List SwapEvent
  scanProgress : List ScanProgress
  deriving DecidableEq, Repr

/-- Whether the storage engine fails, with an error other than a duplicate key, on the
INSERT and on the UPDATE of one repository call. -/
structure Fault where
  create : Bool
  update : Bool
  deriving DecidableEq, Repr

/-- The storage engine answers every statement. -/
def Fault.clean : Fault := ⟨false, false⟩

/-- The statement `DB.Create(row)` on a table whose unique indexes are `indexes` (each
tells whether two rows collide on it). -/
def createRow {α : Type} (indexes : List (α → α → Bool)) (fail : Bool) (rows : List α)
    (row : α) : Except DBError (List α) :=
  if fail then Except.error DBError.other
  else if indexes.any (fun collide => rows.any (collide row)) then
    Except.error DBError.duplicateEntry
  else Except.ok (rows ++ [row])

/-- Unique indexes of `pools` as `AutoMigrate` creates them from `models.Pool`:
`PoolAddress` carries `uniqueIndex`. -/
def poolIndexes : List (Pool → Pool → Bool) :=
  [fun a b => a.PoolAddress == b.PoolAddress]

/-- Unique indexes of `scan_progress` as `AutoMigrate` creates them from
`models.ScanProgress`: `TaskName` carries `uniqueIndex`. -/
def scanProgressIndexes : List (ScanProgress → ScanProgress → Bool) :=
  [fun a b => a.TaskName == b.TaskName]

/-- Unique indexes of `swap_events` as `AutoMigrate` creates them from
`models.SwapEvent`: no field carries `uniqueIndex` or `index`, the primary key `ID` is
the only key, and it is auto-incremented. -/
def swapEventIndexes : List (SwapEvent → SwapEvent → Bool) := []

/-- The row as `DB.Create` stores it: the column default `safe` of `finality_status`
replaces an empty value (tag `default:'safe'` of `models.SwapEvent`). -/
def SwapEvent.stored (e : SwapEvent) : SwapEvent :=
  if e.FinalityStatus = "" then { e with FinalityStatus := "safe" } else e

/-- The unique index on `(tx_hash, log_index)` that the model does not declare. -/
def txLogIndex : SwapEvent → SwapEvent → Bool :=
  fun a b => a.TxHash == b.TxHash && a.LogIndex == b.LogIndex

/-- The method `Repository.GetScanProgress`: the stored height, 0 when there is no row. -/
def GetScanProgress (fail : Bool) (db : DB) (taskName : String) : Except DBError Nat :=
  if fail then Except.error DBError.other
  else
    match db.scanProgress.find? (fun p => p.TaskName == taskName) with
    | none => Except.ok 0
    | some progress => Except.ok progress.LastScannedBlock

/-- The method `Repository.InitScanProgress`. -/
def InitScanProgress (fail : Bool) (db : DB) (taskName : String) (startBlock : Nat) :
    Option DBError × DB :=
  match createRow scanProgressIndexes fail db.scanProgress
      ⟨taskName, startBlock, "running", ""⟩ with
  | Except.ok rows => (none, { db with scanProgress := rows })
  | Except.error err => (some err, db)

/-- The method `Repository.UpdateScanProgress`: an unconditional overwrite. -/
def UpdateScanProgress (fail : Bool) (db : DB) (taskName : String) (blockNum : Nat) :
    Option DBError × DB :=
  if fail then (some DBError.other, db)
  else
    (none, { db with scanProgress := db.scanProgress.map (fun p =>
      if p.TaskName = taskName then { p with LastScannedBlock := blockNum } else p) })

/-- The method `Repository.SavePool`: a duplicate key is a silent no-op. -/
def SavePool (fail : Bool) (db : DB) (pool : Pool) : Option DBError × DB :=
  match createRow poolIndexes fail db.pools pool with
  | Except.ok rows => (none, { db with pools := rows })
  | Except.error err =>
    if err = DBError.duplicateEntry then (none, db) else (some err, db)

/-- The method `Repository.GetAllPools`. -/
def GetAllPools (fail : Bool) (db : DB) : Except DBError (List Pool) :=
  if fail then Except.error DBError.other else Except.ok db.pools

/-- The body of `Repository.SaveSwapEvent` against a `swap_events` table whose unique
indexes are `indexes`: insert; on a duplicate key rewrite the ten listed columns of the
rows with the same `(tx_hash, log_index)`; any other insert error is dropped.  `Create`
has by then written the column default into an empty `FinalityStatus` of the struct, so
the update carries the finality of `swapEvent.stored`. -/
def SaveSwapEventOn (indexes : List (SwapEvent → SwapEvent → Bool)) (fault : Fault)
    (db : DB) (swapEvent : SwapEvent) : Option DBError × DB :=
  match createRow indexes fault.create db.swapEvents swapEvent.stored with
  | Except.ok rows => (none, { db with swapEvents := rows })
  | Except.error err =>
    if err = DBError.duplicateEntry then
      if fault.update then (some DBError.other, db)
      else
        (none, { db with swapEvents := db.swapEvents.map (fun r =>
          if r.TxHash = swapEvent.TxHash ∧ r.LogIndex = swapEvent.LogIndex then
            { r with
              BlockNumber := swapEvent.BlockNumber
              BlockTimeStamp := swapEvent.BlockTimeStamp
              PoolAddress := swapEvent.PoolAddress
              Sender := swapEvent.Sender
              Recipient := swapEvent.Recipient
              TokenIn := swapEvent.TokenIn
              TokenOut := swapEvent.TokenOut
              AmountIn := swapEvent.AmountIn
              AmountOut := swapEvent.AmountOut
              FinalityStatus := swapEvent.stored.FinalityStatus }
          else r) })
    else (none, db)

/-- The method `Repository.SaveSwapEvent` on the table the startup migration creates. -/
def SaveSwapEvent (fault : Fault) (db : DB) (swapEvent : SwapEvent) : Option DBError × DB :=
  SaveSwapEventOn swapEventIndexes fault db swapEvent

/-- The method `Repository.DeletePendingAfter`:
`DELETE FROM swap_events WHERE block_number > safe AND finality_status = pending`
(column values are compared exactly; the scanner writes `safe` and `pending` only). -/
def DeletePendingAfter (fail : Bool) (db : DB) (safe : Nat) : Option DBError × DB :=
  if fail then (some DBError.other, db)
  else
    (none, { db with swapEvents := db.swapEvents.filter (fun r =>
      !(decide (r.BlockNumber > safe) && decide (r.FinalityStatus = "pending"))) })

/-! ## internal/scanner: the ABI-driven decoder -/

/-- The descriptor `factoryInfo` of a tracked factory. -/
structure factoryInfo where
  PoolType : String
  Version : String
  EventName : String
  FeeField : String
  deriving DecidableEq, Repr

/-- The struct `ABIScanner`: scanner configuration, pool cache and the two lookup maps. -/
structure ABIScanner where
  cfg : ScannerConfig
  poolCache : List (String × Pool)
  factoryInfoMap : List (String × factoryInfo)
  poolABIMap : List (String × String)
  deriving DecidableEq, Repr

/-- The method `ABIScanner.getABI`. -/
def getABI (abis : List (String × ABI)) (address : String) : Option ABI :=
  GetABI abis (toLower address)

/-- The `switch pool.PoolType` of `handleSwapLog`: `(tokenIn, tokenOut, amountIn,
amountOut)`, or nothing when a required amount is nil. -/
def swapDirection (pool : Pool) (fields : Fields) :
    Option (String × String × String × String) :=
  if pool.PoolType = "range" then
    match bigIntField fields "amount0", bigIntField fields "amount1" with
    | some amt0, some amt1 =>
      if amt0 < 0 then
        some (pool.Token1, pool.Token0, toString amt1.natAbs, toString amt0.natAbs)
      else
        some (pool.Token0, pool.Token1, toString amt0.natAbs, toString amt1.natAbs)
    | _, _ => none
  else
    match bigIntField fields "amount0In", bigIntField fields "amount1In",
        bigIntField fields "amount0Out", bigIntField fields "amount1Out" with
    | some amt0In, some amt1In, some amt0Out, some amt1Out =>
      if 0 < amt0In then
        some (pool.Token0, pool.Token1, toString amt0In, toString amt1Out)
      else
        some (pool.Token1, pool.Token0, toString amt1In, toString amt0Out)
    | _, _, _, _ => none

/-- The method `ABIScanner.handleSwapLog`: whether the log was handled as a swap, and the
database afterwards. -/
def handleSwapLog (lib : EthLib) (abis : List (String × ABI)) (s : ABIScanner) (db : DB)
    (fault : Fault) (blockNum : Nat) (blockTimestamp : Int) (txHash : String) (log : Log)
    (finality : String) : Outcome (Bool × DB) :=
  let poolAddress := toLower (lib.addressHex log.Address)
  match s.poolCache.lookup poolAddress with
  | none => Outcome.ok (false, db)
  | some pool =>
    let key := pool.PoolType ++ ":" ++ pool.Version
    match s.poolABIMap.lookup key with
    | none => Outcome.ok (false, db)
    | some masterAddr =>
      match getABI abis masterAddr with
      | none => Outcome.ok (false, db)
      | some contractABI =>
        match contractABI.Events.lookup "Swap" with
        | none => Outcome.ok (false, db)
        | some event =>
          match log.Topics with
          | [] => Outcome.panic
          | topic0 :: rest =>
            if topic0 ≠ event.ID then Outcome.ok (false, db)
            else
              match rest with
              | topic1 :: topic2 :: _ =>
                let sender := lib.addressHex (bytesToAddress topic1)
                let recipient := lib.addressHex (bytesToAddress topic2)
                match lib.unpackIntoMap contractABI "Swap" log.Data with
                | none => Outcome.ok (false, db)
                | some fields =>
                  match swapDirection pool fields with
                  | none => Outcome.ok (false, db)
                  | some (tokenIn, tokenOut, amountIn, amountOut) =>
                    let swap : SwapEvent :=
                      { BlockNumber := blockNum
                        BlockTimeStamp := blockTimestamp
                        TxHash := txHash
                        LogIndex := log.Index
                        PoolAddress := pool.PoolAddress
                        Sender := sender
                        Recipient := recipient
                        TokenIn := tokenIn
                        TokenOut := tokenOut
                        AmountIn := amountIn
                        AmountOut := amountOut
                        FinalityStatus := finality }
                    match SaveSwapEvent fault db swap with
                    | (some _, db') => Outcome.ok (false, db')
                    | (none, db') => Outcome.ok (true, db')
              | _ => Outcome.panic

/-- The method `(*big.Int).Int64`: the low 64 bits of the magnitude as an `int64`, negated
(with wrap-around) for a negative number. -/
def int64OfBig (v : Int) : Int :=
  let low : Int := ((v.natAbs % 2 ^ 64 : Nat) : Int)
  let signed : Int := if v < 0 then -low else low
  (signed + 2 ^ 63) % 2 ^ 64 - 2 ^ 63

/-- The method `ABIScanner.handlePoolLog`: whether the log was handled as a pool
creation, and the scanner (its cache) and the database afterwards. -/
def handlePoolLog (lib : EthLib) (abis : List (String × ABI)) (s : ABIScanner) (db : DB)
    (fail : Bool) (blockNum : Nat) (txHash : String) (log : Log) :
    Outcome (Bool × ABIScanner × DB) :=
  let factoryAddr := toLower (lib.addressHex log.Address)
  match s.factoryInfoMap.lookup factoryAddr with
  | none => Outcome.ok (false, s, db)
  | some info =>
    let eventName := if info.EventName = "" then "PoolCreated" else info.EventName
    match getABI abis factoryAddr with
    | none => Outcome.ok (false, s, db)
    | some contracABI =>
      match contracABI.Events.lookup eventName with
      | none => Outcome.ok (false, s, db)
      | some event =>
        match log.Topics with
        | [] => Outcome.panic
        | topic0 :: rest =>
          if topic0 ≠ event.ID then Outcome.ok (false, s, db)
          else
            let indexedCount := (event.Inputs.filter (fun input => input.Indexed)).length
            if log.Topics.length < indexedCount + 1 then Outcome.ok (false, s, db)
            else
              match rest with
              | topic1 :: topic2 :: _ =>
                let token0 := lib.addressHex (bytesToAddress topic1)
                let token1 := lib.addressHex (bytesToAddress topic2)
                match lib.unpackIntoMap contracABI eventName log.Data with
                | none => Outcome.ok (false, s, db)
                | some data =>
                  let poolAddr : Nat :=
                    match data.lookup "pool" with
                    | some (Value.address a) => a
                    | _ => 0
                  let feeRate : Option Int :=
                    if info.FeeField ≠ "" then
                      match bigIntField data info.FeeField with
                      | some v => some (int64OfBig v)
                      | none => none
                    else none
                  let pool : Pool :=
                    { PoolAddress := lib.addressHex poolAddr
                      FactoryAddress := lib.addressHex log.Address
                      PoolType := info.PoolType
                      Version := info.Version
                      Token0 := token0
                      Token1 := token1
                      FeeRate := feeRate
                      CreatedTx := txHash
                      CreatedBlock := blockNum }
                  match SavePool fail db pool with
                  | (some _, db') => Outcome.ok (false, s, db')
                  | (none, db') =>
                    Outcome.ok (true,
                      { s with poolCache := (toLower pool.PoolAddress, pool) :: s.poolCache },
                      db')
              | _ => Outcome.panic

/-- A loop whose body may panic: the fold stops at the first panic. -/
def foldOutcome {α β : Type} (f : β → α → Outcome β) : β → List α → Outcome β
  | b, [] => Outcome.ok b
  | b, a :: rest =>
    match f b a with
    | Outcome.ok b' => foldOutcome f b' rest
    | Outcome.panic => Outcome.panic

/-- What the world outside the scanner answers while one range is scanned: the
go-ethereum functions, the loaded ABIs, `blockchain.GetBlockReceipts` and
`blockchain.GetBlockTimestamp` (`none` when they return an error), and whether the
storage engine fails on the statements issued for a log. -/
structure Env where
  lib : EthLib
  abis : List (String × ABI)
  receipts : Nat → Option (List Receipt)
  timestamp : Nat → Option Int
  poolFault : String → Log → Bool
  swapFault : String → Log → Fault

/-- Locals of `scanBlock`: the error it returns (`err = true`), the scanner and database
as the handlers leave them, and the two counters. -/
structure BlockScan where
  err : Bool
  s : ABIScanner
  db : DB
  poolCount : Nat
  swapCount : Nat
  deriving DecidableEq, Repr

/-- The body of the inner loop of `scanBlock` for one log. -/
def scanLog (env : Env) (blockNum : Nat) (blockTimestamp : Int) (finality : String)
    (txHash : String) (acc : BlockScan) (log : Log) : Outcome BlockScan :=
  match handlePoolLog env.lib env.abis acc.s acc.db (env.poolFault txHash log) blockNum
      txHash log with
  | Outcome.panic => Outcome.panic
  | Outcome.ok (true, s', db') =>
    Outcome.ok { acc with s := s', db := db', poolCount := acc.poolCount + 1 }
  | Outcome.ok (false, s', db') =>
    match handleSwapLog env.lib env.abis s' db' (env.swapFault txHash log) blockNum
        blockTimestamp txHash log finality with
    | Outcome.panic => Outcome.panic
    | Outcome.ok (true, db'') =>
      Outcome.ok { acc with s := s', db := db'', swapCount := acc.swapCount + 1 }
    | Outcome.ok (false, db'') => Outcome.ok { acc with s := s', db := db'' }

/-- The method `ABIScanner.scanBlock`. -/
def scanBlock (env : Env) (s : ABIScanner) (db : DB) (blockNum : Nat) (finality : String) :
    Outcome BlockScan :=
  match env.receipts blockNum with
  | none => Outcome.ok ⟨true, s, db, 0, 0⟩
  | some receipts =>
    match env.timestamp blockNum with
    | none => Outcome.ok ⟨true, s, db, 0, 0⟩
    | some blockTimestamp =>
      foldOutcome
        (fun acc receipt =>
          foldOutcome (scanLog env blockNum blockTimestamp finality receipt.TxHash) acc
            receipt.Logs)
        ⟨false, s, db, 0, 0⟩ receipts

/-! ## internal/scanner: the range scanner

The goroutines of `scanRange` are replaced by a schedule: a list of events, each either
the end of the `scanBlock` call of one of the blocks in flight, or a firing of the
checkpoint ticker.  `scanRangeRun` plays a schedule from the state `scanRange` sets up;
the range has returned (`wg.Wait()` is over) once no block is in flight and the producer
loop has ended.  A schedule that stops earlier is a prefix of an execution. -/

/-- One event of a range: the consumer holding the `i`-th block in flight (counted modulo
the number in flight) finishes it, or the ticker fires (`fail`: the progress update it
may issue is refused by the storage engine). -/
inductive SchedEvent where
  | finish (i : Nat)
  | tick (fail : Bool)
  deriving DecidableEq, Repr

/-- The variables of one `scanRange` call: scanner and database, the producer's
`blockNum`, the blocks taken from the channel and not finished, `maxScannedBlock`,
`errorCount`, `lastUpdatedBlock`, and two records: the values the ticker has written to
`scan_progress[stable_scan]`, oldest first, and the blocks whose `scanBlock` call has
ended, each with whether it returned nil, in the order in which they ended. -/
structure RangeState where
  s : ABIScanner
  db : DB
  next : Nat
  inflight : List Nat
  maxScannedBlock : Nat
  errorCount : Nat
  lastUpdatedBlock : Nat
  written : List Nat
  finished : List (Nat × Bool)
  deriving DecidableEq, Repr

/-- The number of consumers: `cfg.Scanner.Workers`, 5 when it is 0. -/
def workerCount (cfg : ScannerConfig) : Int :=
  if cfg.Workers = 0 then 5 else cfg.Workers

/-- Idle consumers take the next blocks off the channel while the producer loop
`for blockNum := start; blockNum <= end; blockNum++` still sends. -/
def refill (workers end_ : Nat) : Nat → RangeState → RangeState
  | 0, st => st
  | fuel + 1, st =>
    if st.inflight.length < workers ∧ st.next ≤ end_ then
      refill workers end_ fuel
        { st with inflight := st.inflight ++ [st.next], next := addU64 st.next 1 }
    else st

/-- The state `scanRange` sets up before any block is finished; `make(chan, workers*2)`
panics for a negative worker count. -/
def scanRangeInit (s : ABIScanner) (db : DB) (start end_ : Nat) : Outcome RangeState :=
  if workerCount s.cfg < 0 then Outcome.panic
  else
    Outcome.ok (refill (workerCount s.cfg).toNat end_ (workerCount s.cfg).toNat
      { s := s
        db := db
        next := start
        inflight := []
        maxScannedBlock := if start > 0 then start - 1 else start
        errorCount := 0
        lastUpdatedBlock := subU64 start 1
        written := []
        finished := [] })

/-- One event of `scanRange`: a consumer finishes `scanBlock` on a block in flight and
takes the next block, or the ticker fires. -/
def scanRangeStep (env : Env) (finality : String) (end_ : Nat) (st : RangeState) :
    SchedEvent → Outcome RangeState
  | SchedEvent.finish i =>
    match st.inflight.get? (i % st.inflight.length) with
    | none => Outcome.ok st
    | some blockNum =>
      match scanBlock env st.s st.db blockNum finality with
      | Outcome.panic => Outcome.panic
      | Outcome.ok r =>
        let st1 : RangeState :=
          { st with s := r.s, db := r.db
                    inflight := st.inflight.eraseIdx (i % st.inflight.length)
                    finished := st.finished ++ [(blockNum, !r.err)] }
        let st2 : RangeState :=
          if r.err then { st1 with errorCount := st1.errorCount + 1 }
          else if blockNum > st1.maxScannedBlock then { st1 with maxScannedBlock := blockNum }
          else st1
        Outcome.ok (refill (workerCount st.s.cfg).toNat end_ 1 st2)
  | SchedEvent.tick fail =>
    let currectMax := st.maxScannedBlock
    if currectMax ≥ addU64 st.lastUpdatedBlock (toUint64 st.s.cfg.BatchIntervarSize) then
      if finality = "safe" then
        match UpdateScanProgress fail st.db "stable_scan" currectMax with
        | (some _, db') => Outcome.ok { st with db := db' }
        | (none, db') =>
          Outcome.ok { st with db := db', lastUpdatedBlock := currectMax
                               written := st.written ++ [currectMax] }
      else Outcome.ok st
    else Outcome.ok st

/-- The method `ABIScanner.scanRange` played along a schedule. -/
def scanRangeRun (env : Env) (s : ABIScanner) (db : DB) (start end_ : Nat)
    (finality : String) (sched : List SchedEvent) : Outcome RangeState :=
  match scanRangeInit s db start end_ with
  | Outcome.panic => Outcome.panic
  | Outcome.ok st0 => foldOutcome (scanRangeStep env finality end_) st0 sched

/-- The call `wg.Wait()` of `scanRange` is over: every consumer has seen the channel
closed.  `scanRange` then stops the ticker and returns nil. -/
def RangeState.returned (end_ : Nat) (st : RangeState) : Bool :=
  st.inflight.isEmpty && !decide (st.next ≤ end_)

/-! ## internal/scanner: the stable worker -/

/-- The method `ABIScanner.Start` up to the launch of the two workers: the initial
cursor of the stable worker and the database, or the error returned. -/
def Start (cfg : ScannerConfig) (getFails initFails : Bool) (db : DB) :
    Except DBError (Nat × DB) :=
  match GetScanProgress getFails db "stable_scan" with
  | Except.error err => Except.error err
  | Except.ok stableCursor =>
    if stableCursor = 0 then
      let startBlock := toUint64 cfg.StartBlock
      match InitScanProgress initFails db "stable_scan" startBlock with
      | (some err, _) => Except.error err
      | (none, db') => Except.ok (startBlock, db')
    else Except.ok (stableCursor, db)

/-- The bounds `form`, `to` of the batch the stable worker scans from `cursor` when the
safe head is `safeHead`, in `uint64` arithmetic. -/
def stableBatch (cfg : ScannerConfig) (cursor safeHead : Nat) : Nat × Nat :=
  let form := addU64 cursor 1
  let to_ := subU64 (addU64 form (toUint64 cfg.BatchSize)) 1
  (form, if to_ > safeHead then safeHead else to_)

/-- What happens around the worker during one pass of its loop: the world while the
batch is scanned, the answer of `GetSafeBlockNumber` (`none`: an error), the schedule of
the range, and whether the progress update after the batch is refused. -/
structure StableRound where
  env : Env
  safeHead : Option Nat
  sched : List SchedEvent
  writeFails : Bool

/-- Where the stable worker is: at the head of its loop, inside a `scanRange` call that
the schedule has not finished, or dead with the process after a panic. -/
inductive Phase where
  | looping
  | inRange
  | crashed
  deriving DecidableEq, Repr

/-- The variables of `runStableWorker`, with a record of the values written so far to
`scan_progress[stable_scan]` (by the ticker and after each batch), oldest first. -/
structure StableState where
  cursor : Nat
  s : ABIScanner
  db : DB
  written : List Nat
  phase : Phase
  deriving DecidableEq, Repr

/-- One pass of the loop of `runStableWorker`.  When the range panics the process dies
and the record keeps the writes of the earlier passes; the writes of the dying range are
those of the shorter schedule that stops before the panic. -/
def stableRound (st : StableState) (r : StableRound) : StableState :=
  if st.phase ≠ Phase.looping then st
  else
    match r.safeHead with
    | none => st
    | some safeHead =>
      if st.cursor ≥ safeHead then st
      else
        let form := (stableBatch st.s.cfg st.cursor safeHead).1
        let to_ := (stableBatch st.s.cfg st.cursor safeHead).2
        match scanRangeRun r.env st.s st.db form to_ "safe" r.sched with
        | Outcome.panic => { st with phase := Phase.crashed }
        | Outcome.ok rs =>
          if rs.returned to_ then
            match UpdateScanProgress r.writeFails rs.db "stable_scan" to_ with
            | (some _, db') =>
              { cursor := to_, s := rs.s, db := db', written := st.written ++ rs.written
                phase := Phase.looping }
            | (none, db') =>
              { cursor := to_, s := rs.s, db := db'
                written := st.written ++ rs.written ++ [to_], phase := Phase.looping }
          else
            { st with s := rs.s, db := rs.db, written := st.written ++ rs.written
                      phase := Phase.inRange }

/-- The method `ABIScanner.runStableWorker` over the passes of its loop made before the
context is cancelled. -/
def runStableWorker (s : ABIScanner) (db : DB) (cursor : Nat) (rounds : List StableRound) :
    StableState :=
  rounds.foldl stableRound ⟨cursor, s, db, [], Phase.looping⟩

/-! ## internal/scanner: the live worker

`scanRangeLive` is `scanRange` with five consumers, no observed maximum and no
checkpoint ticker; a schedule is the list of the positions, among the blocks in flight,
of the `scanBlock` calls in the order in which they end. -/

/-- The variables of one `scanRangeLive` call: scanner and database, the producer's
`blockNum`, the blocks taken from the channel and not finished, `errorCount`, and the
record of the blocks whose `scanBlock` call has ended, each with whether it returned
nil. -/
structure LiveRangeState where
  s : ABIScanner
  db : DB
  next : Nat
  inflight : List Nat
  errorCount : Nat
  finished : List (Nat × Bool)
  deriving DecidableEq, Repr

/-- Idle consumers of `scanRangeLive` take the next blocks off the channel while the
producer loop still sends; there are five consumers. -/
def refillLive (end_ : Nat) : Nat → LiveRangeState → LiveRangeState
  | 0, st => st
  | fuel + 1, st =>
    if st.inflight.length < 5 ∧ st.next ≤ end_ then
      refillLive end_ fuel
        { st with inflight := st.inflight ++ [st.next], next := addU64 st.next 1 }
    else st

/-- The state `scanRangeLive` sets up before any block is finished. -/
def scanRangeLiveInit (s : ABIScanner) (db : DB) (start end_ : Nat) : LiveRangeState :=
  refillLive end_ 5
    { s := s, db := db, next := start, inflight := [], errorCount := 0, finished := [] }

/-- One event of `scanRangeLive`: the consumer holding the `i`-th block in flight finishes
`scanBlock` on it and takes the next block. -/
def scanRangeLiveStep (env : Env) (finality : String) (end_ : Nat) (st : LiveRangeState)
    (i : Nat) : Outcome LiveRangeState :=
  match st.inflight.get? (i % st.inflight.length) with
  | none => Outcome.ok st
  | some blockNum =>
    match scanBlock env st.s st.db blockNum finality with
    | Outcome.panic => Outcome.panic
    | Outcome.ok r =>
      Outcome.ok (refillLive end_ 1
        { st with s := r.s, db := r.db
                  inflight := st.inflight.eraseIdx (i % st.inflight.length)
                  errorCount := if r.err then st.errorCount + 1 else st.errorCount
                  finished := st.finished ++ [(blockNum, !r.err)] })

/-- The method `ABIScanner.scanRangeLive` played along a schedule. -/
def scanRangeLiveRun (env : Env) (s : ABIScanner) (db : DB) (start end_ : Nat)
    (finality : String) (sched : List Nat) : Outcome LiveRangeState :=
  foldOutcome (scanRangeLiveStep env finality end_) (scanRangeLiveInit s db start end_) sched

/-- The call `wg.Wait()` of `scanRangeLive` is over. -/
def LiveRangeState.returned (end_ : Nat) (st : LiveRangeState) : Bool :=
  st.inflight.isEmpty && !decide (st.next ≤ end_)

/-- What happens around the live worker during one pass of its loop: the world while the
range is scanned, the answers of `GetLatestBlockNumber` and `GetSafeBlockNumber`
(`none`: an error), whether the storage engine refuses the delete, and the schedule of
the range. -/
structure LiveRound where
  env : Env
  latest : Option Nat
  safeHead : Option Nat
  deleteFails : Bool
  sched : List Nat

/-- The state the live worker shares with the world: scanner, database, and where the
worker is. -/
structure LiveState where
  s : ABIScanner
  db : DB
  phase : Phase
  deriving DecidableEq, Repr

/-- One pass of the loop of `runLiveWorker`. -/
def liveRound (st : LiveState) (r : LiveRound) : LiveState :=
  if st.phase ≠ Phase.looping then st
  else
    match r.latest, r.safeHead with
    | some latest, some safeHead =>
      if latest ≤ safeHead then st
      else
        let from_ := addU64 safeHead 1
        let to_ := latest
        let db1 := (DeletePendingAfter r.deleteFails st.db safeHead).2
        match scanRangeLiveRun r.env st.s db1 from_ to_ "pending" r.sched with
        | Outcome.panic => { st with db := db1, phase := Phase.crashed }
        | Outcome.ok rs =>
          { s := rs.s, db := rs.db
            phase := if rs.returned to_ then Phase.looping else Phase.inRange }
    | _, _ => st

/-- The method `ABIScanner.runLiveWorker` over the passes of its loop made before the
context is cancelled. -/
def runLiveWorker (s : ABIScanner) (db : DB) (rounds : List LiveRound) : LiveState :=
  rounds.foldl liveRound ⟨s, db, Phase.looping⟩

/-- The database `db'` is `db` with rows satisfying `P` appended to `swap_events`;
`scan_progress` is the same. -/
def RowsAdded (P : SwapEvent → Prop) (db db' : DB) : Prop :=
  db'.scanProgress = db.scanProgress ∧
  ∃ rows : List SwapEvent, db'.swapEvents = db.swapEvents ++ rows ∧ ∀ row ∈ rows, P row

/-- The rows a scan with tag `finality` stores for block `blockNum`. -/
def RowOf (blockNum : Nat) (finality : String) (row : SwapEvent) : Prop :=
  row.BlockNumber = blockNum ∧
  row.FinalityStatus = (if finality = "" then "safe" else finality)

/-- Accounting of a `scanRangeLive` call over `[start, end_]`: as for `scanRange`. -/
def LiveAccount (start end_ : Nat) (st : LiveRangeState) : Prop :=
  start ≤ st.next ∧ st.next ≤ end_ + 1 ∧
  (st.finished.map Prod.fst ++ st.inflight).Perm (List.range' start (st.next - start))

/-- The table `swap_events` of `db'` is that of `db` with rows satisfying `P` appended. -/
def SwapsAdded (P : SwapEvent → Prop) (db db' : DB) : Prop :=
  ∃ rows : List SwapEvent, db'.swapEvents = db.swapEvents ++ rows ∧ ∀ row ∈ rows, P row

/-- The rows a live range stores at each event of its schedule, each paired with the safe
head of the chain at the time of that event (`headAt k` at the `k`-th event). -/
def liveWritesWithHead (env : Env) (s : ABIScanner) (db : DB) (start end_ : Nat)
    (finality : String) (sched : List Nat) (headAt : Nat → Nat) : List (SwapEvent × Nat) :=
  (List.range sched.length).flatMap (fun k =>
    match scanRangeLiveRun env s db start end_ finality (sched.take k),
        scanRangeLiveRun env s db start end_ finality (sched.take (k + 1)) with
    | Outcome.ok before, Outcome.ok after =>
      (after.db.swapEvents.drop before.db.swapEvents.length).map (fun row => (row, headAt k))
    | _, _ => [])

/-- The method `ABIScanner.initPoolCache`: the cache seeded from `GetAllPools`, empty
when that call fails. -/
def initPoolCache (fail : Bool) (db : DB) : List (String × Pool) :=
  match GetAllPools fail db with
  | Except.error _ => []
  | Except.ok pools =>
    pools.foldl (fun cache pool => (toLower pool.PoolAddress, pool) :: cache) []

/-- One call of `handlePoolLog` as `scanBlock` makes it: whether the storage engine
refuses the insert, the block, the transaction and the log. -/
structure PoolCall where
  fail : Bool
  blockNum : Nat
  txHash : String
  log : Log
  deriving DecidableEq, Repr

/-- A sequence of `handlePoolLog` calls, each on the scanner and database the one before
left. -/
def handlePoolLogs (lib : EthLib) (abis : List (String × ABI)) (s : ABIScanner) (db : DB)
    (calls : List PoolCall) : Outcome (ABIScanner × DB) :=
  foldOutcome (fun (acc : ABIScanner × DB) (call : PoolCall) =>
    match handlePoolLog lib abis acc.1 acc.2 call.fail call.blockNum call.txHash call.log with
    | Outcome.panic => Outcome.panic
    | Outcome.ok (_, s', db') => Outcome.ok (s', db')) (s, db) calls

/-- Every entry of the pool cache is a row of `pools`. -/
def CacheIsPersisted (s : ABIScanner) (db : DB) : Prop :=
  ∀ (k : String) (p : Pool), s.poolCache.lookup k = some p → p ∈ db.pools

/-- Every entry of the pool cache is stored under its lowercased address, and `pools`
holds a row with that address. -/
def CacheHasRow (s : ABIScanner) (db : DB) : Prop :=
  ∀ (k : String) (p : Pool), s.poolCache.lookup k = some p →
    k = toLower p.PoolAddress ∧ ∃ row ∈ db.pools, row.PoolAddress = p.PoolAddress

/-- The pool a `handlePoolLog` call that returned `b` has put in the cache of `s'` without
its being a row of `pools` in `db'`: `SavePool` found a row with its address and left
that row as it was.  Empty when the call accepted nothing or the pool is a row. -/
def divergedAt (b : Bool) (s' : ABIScanner) (db' : DB) : List Pool :=
  match b, s'.poolCache with
  | true, (_, pool) :: _ => if pool ∈ db'.pools then [] else [pool]
  | _, _ => []

/-- The pools accepted in this way along a sequence of `handlePoolLog` calls, in the
order of the calls. -/
def divergedPools (lib : EthLib) (abis : List (String × ABI)) :
    ABIScanner → DB → List PoolCall → List Pool
  | _, _, [] => []
  | s, db, call :: rest =>
    match handlePoolLog lib abis s db call.fail call.blockNum call.txHash call.log with
    | Outcome.panic => []
    | Outcome.ok (b, s', db') => divergedAt b s' db' ++ divergedPools lib abis s' db' rest

/-- The number of events of a schedule at which a consumer finishes a block. -/
def countFinish (sched : List SchedEvent) : Nat :=
  (sched.filter (fun ev => match ev with
    | SchedEvent.finish _ => true
    | SchedEvent.tick _ => false)).length

/-- The consumers of a `scanRange` call with `workers` consumers are busy: at most
`workers` blocks are in flight, and exactly `workers` while the producer still sends. -/
def Busy (workers end_ : Nat) (st : RangeState) : Prop :=
  st.inflight.length ≤ workers ∧ (st.next ≤ end_ → st.inflight.length = workers)

/-- What holds of the variables of a `scanRange` call over `[c + 1, end_]` after any
number of events: the blocks in flight are at most `end_`, `maxScannedBlock` stays in
`[c, end_]`, the ticker has written values of `[c, maxScannedBlock]` in non-decreasing
order, and the configuration is `cfg`. -/
def RangeInv (cfg : ScannerConfig) (c end_ : Nat) (st : RangeState) : Prop :=
  (∀ b ∈ st.inflight, b ≤ end_) ∧ c ≤ st.maxScannedBlock ∧ st.maxScannedBlock ≤ end_ ∧
  (∀ v ∈ st.written, c ≤ v ∧ v ≤ st.maxScannedBlock) ∧
  st.written.Pairwise (fun a b => a ≤ b) ∧ st.s.cfg = cfg

/-- What holds of the stable worker started at cursor `c0` after any number of passes:
the values written are non-decreasing and at least `c0`, and at the head of the loop
none exceeds the cursor. -/
def StableInv (cfg : ScannerConfig) (c0 : Nat) (st : StableState) : Prop :=
  st.s.cfg = cfg ∧ (c0 :: st.written).Pairwise (fun a b => a ≤ b) ∧
  (st.phase = Phase.looping → c0 ≤ st.cursor ∧ ∀ v ∈ st.written, v ≤ st.cursor)

/-- Accounting of a `scanRange` call over `[start, end_]`: the producer is somewhere in
`[start, end_ + 1]`, and the blocks finished or in flight are, up to order, the blocks the
producer has sent, each once. -/
def RangeAccount (start end_ : Nat) (st : RangeState) : Prop :=
  start ≤ st.next ∧ st.next ≤ end_ + 1 ∧
  (st.finished.map Prod.fst ++ st.inflight).Perm (List.range' start (st.next - start))

/-- The observed maximum of a `scanRange` call over `[c + 1, end_]` is the largest block
whose scan has returned nil, and `c` when none has; every value the ticker has written
is `c` or such a block. -/
def MaxIsLargestScanned (c : Nat) (st : RangeState) : Prop :=
  (st.maxScannedBlock = c ∨ (st.maxScannedBlock, true) ∈ st.finished) ∧
  (∀ b, (b, true) ∈ st.finished → b ≤ st.maxScannedBlock) ∧ c ≤ st.maxScannedBlock ∧
  (∀ v ∈ st.written, v = c ∨ (v, true) ∈ st.finished)

/-- A string of decimal digits only, at least one and at most 78: it has no sign and
fits a `varchar(78)` column. -/
def UnsignedDecimal78 (str : String) : Prop :=
  (∀ c ∈ str.data, c.isDigit = true) ∧ 0 < str.length ∧ str.length ≤ 78

/-- The section `syncswap.factories` of the configuration (`config.FactoriesConfig`). -/
structure FactoriesConfig where
  ClassicV1 : String
  StableV1 : String
  ClassicV2 : String
  StableV2 : String
  AquaV2 : String
  ClassicV2_1 : String
  StableV2_1 : String
  AquaV2_1 : String
  RangeV3 : String
  deriving DecidableEq, Repr

/-- The method `ABIScanner.initFatoryInfo`: the map from lowercased factory address to
descriptor after the nine assignments, the last assignment first. -/
def initFatoryInfo (factories : FactoriesConfig) : List (String × factoryInfo) :=
  [ (toLower factories.RangeV3, ⟨"range", "v3", "PoolCreated", ""⟩),
    (toLower factories.AquaV2_1, ⟨"aqua", "v2.1", "PoolCreated", ""⟩),
    (toLower factories.StableV2_1, ⟨"stable", "v2.1", "PoolCreated", ""⟩),
    (toLower factories.ClassicV2_1, ⟨"classic", "v2.1", "PoolCreated", ""⟩),
    (toLower factories.AquaV2, ⟨"aqua", "v2", "PoolCreated", ""⟩),
    (toLower factories.StableV2, ⟨"stable", "v2", "PoolCreated", ""⟩),
    (toLower factories.ClassicV2, ⟨"classic", "v2", "PoolCreated", ""⟩),
    (toLower factories.StableV1, ⟨"stable", "v1", "PoolCreated", ""⟩),
    (toLower factories.ClassicV1, ⟨"classic", "v1", "PoolCreated", ""⟩) ]

/-! ## internal/abi: loading the ABI files -/

/-- The section `abi` of the configuration (`config.AbiConfig`). -/
structure AbiConfig where
  AutoDownload : Bool
  GetAbiEndpoint : String
  SaveDir : String
  Addresses : List String
  deriving DecidableEq, Repr

/-- The two errors `DownloadABIs` returns: the directory cannot be created, or an ABI file
cannot be loaded. -/
inductive AbiError where
  | mkdir
  | load
  deriving DecidableEq, Repr

/-- The files `DownloadABIs` looks at, by path: the text of a file, or `none` for a path
that exists and cannot be read. -/
abbrev Files := List (String × Option String)

/-- What `DownloadABIs` takes from the operating system and the libraries: whether
`os.MkdirAll` fails, `filepath.Join`, the answer of the block explorer for a URL (the
field `result` of a reply with status 1; `none` for every failure of the request),
whether `os.WriteFile` fails for a path, and `abi.JSON`. -/
structure AbiWorld where
  mkdirFails : Bool
  join : String → String → String
  download : String → Option String
  writeFails : String → Bool
  parse : String → Option ABI

/-- The function `downloadABI`: `true` stands for a returned error. -/
def downloadABI (w : AbiWorld) (files : Files) (address savePath endpoint : String) :
    Bool × Files :=
  match w.download (endpoint ++ address) with
  | none => (true, files)
  | some result =>
    if w.writeFails savePath then (true, files)
    else (false, (savePath, some result) :: files)

/-- The function `loadABI`: the table `ABIs` with the parsed ABI stored under `address`,
or `none` for a returned error. -/
def loadABI (w : AbiWorld) (files : Files) (abis : List (String × ABI))
    (address abiFile : String) : Option (List (String × ABI)) :=
  match files.lookup abiFile with
  | some (some abiJSON) =>
    match w.parse abiJSON with
    | some contractABI => some ((address, contractABI) :: abis)
    | none => none
  | _ => none

/-- What a call of `DownloadABIs` leaves: the returned error, the table `ABIs` and the
files. -/
structure AbiLoad where
  err : Option AbiError
  abis : List (String × ABI)
  files : Files
  deriving DecidableEq, Repr

/-- The loop of `DownloadABIs` over the configured addresses. -/
def DownloadABIsLoop (w : AbiWorld) (cfg : AbiConfig) :
    List String → Files → List (String × ABI) → AbiLoad
  | [], files, abis => ⟨none, abis, files⟩
  | address0 :: rest, files, abis =>
    let address := toLower address0
    let abiFile := w.join cfg.SaveDir (address ++ ".json")
    match files.lookup abiFile with
    | none =>
      if cfg.AutoDownload then
        match downloadABI w files address abiFile cfg.GetAbiEndpoint with
        | (true, files1) => DownloadABIsLoop w cfg rest files1 abis
        | (false, files1) =>
          match loadABI w files1 abis address abiFile with
          | none => ⟨some AbiError.load, abis, files1⟩
          | some abis1 => DownloadABIsLoop w cfg rest files1 abis1
      else DownloadABIsLoop w cfg rest files abis
    | some _ =>
      match loadABI w files abis address abiFile with
      | none => ⟨some AbiError.load, abis, files⟩
      | some abis1 => DownloadABIsLoop w cfg rest files abis1

/-- The function `abi.DownloadABIs`. -/
def DownloadABIs (w : AbiWorld) (cfg : AbiConfig) (files : Files)
    (abis : List (String × ABI)) : AbiLoad :=
  if w.mkdirFails then ⟨some AbiError.mkdir, abis, files⟩
  else DownloadABIsLoop w cfg cfg.Addresses files abis

/-- The ABI file of a configured address exists and `loadABI` can load it. -/
def Loadable (w : AbiWorld) (cfg : AbiConfig) (files : Files) (address : String) : Prop :=
  ∃ (text : String) (contractABI : ABI),
    files.lookup (w.join cfg.SaveDir (toLower address ++ ".json")) = some (some text) ∧
    w.parse text = some contractABI

/-! ## internal/blockchain: receipts of a block, with retries -/

/-- What `GetBlockReceipts` does to the world, in order: a call of
`eth_getBlockByNumber` for a block (hashes only), a call of `TransactionReceipt` for a
transaction, or a `time.Sleep` of so many seconds. -/
inductive RpcEvent where
  | getBlock (blockNumber : Nat)
  | getReceipt (txHash : String)
  | sleep (seconds : Nat)
  deriving DecidableEq, Repr

/-- The answers of the RPC endpoint.  Each may depend on what has happened before, through
the number of events so far: the transaction hashes of a block, or the receipt of a
transaction, with `none` for a returned error. -/
structure Rpc where
  block : Nat → Nat → Option (List String)
  receipt : Nat → String → Option Receipt

/-- The loop `for retry := 0; retry < 3; retry++` of `getBlockReceiptsOnce` for one
transaction, `left` iterations before its end: the receipt, or `none` when the loop ends
with an error, and the events so far. -/
def fetchReceipt (rpc : Rpc) (txHash : String) :
    Nat → Nat → List RpcEvent → Option Receipt × List RpcEvent
  | _, 0, trace => (none, trace)
  | retry, left + 1, trace =>
    match rpc.receipt trace.length txHash with
    | some receipt => (some receipt, trace ++ [RpcEvent.getReceipt txHash])
    | none =>
      fetchReceipt rpc txHash (retry + 1) left
        (trace ++ [RpcEvent.getReceipt txHash, RpcEvent.sleep (retry + 1)])

/-- The loop of `getBlockReceiptsOnce` over the transaction hashes of the block. -/
def fetchReceipts (rpc : Rpc) :
    List String → List Receipt → List RpcEvent → Option (List Receipt) × List RpcEvent
  | [], receipts, trace => (some receipts, trace)
  | txHash :: rest, receipts, trace =>
    match fetchReceipt rpc txHash 0 3 trace with
    | (none, trace1) => (none, trace1)
    | (some receipt, trace1) => fetchReceipts rpc rest (receipts ++ [receipt]) trace1

/-- The function `getBlockReceiptsOnce`. -/
def getBlockReceiptsOnce (rpc : Rpc) (blockNumber : Nat) (trace : List RpcEvent) :
    Option (List Receipt) × List RpcEvent :=
  match rpc.block trace.length blockNumber with
  | none => (none, trace ++ [RpcEvent.getBlock blockNumber])
  | some transactions =>
    fetchReceipts rpc transactions [] (trace ++ [RpcEvent.getBlock blockNumber])

/-- The loop `for retries := 0; retries < maxRetries; retries++` of `GetBlockReceipts`,
`left` iterations before its end. -/
def GetBlockReceiptsLoop (rpc : Rpc) (blockNumber : Nat) :
    Nat → Nat → List RpcEvent → Option (List Receipt) × List RpcEvent
  | _, 0, trace => (none, trace)
  | retries, left + 1, trace =>
    match getBlockReceiptsOnce rpc blockNumber trace with
    | (some receipts, trace1) => (some receipts, trace1)
    | (none, trace1) =>
      if retries = 3 - 1 then (none, trace1)
      else
        GetBlockReceiptsLoop rpc blockNumber (retries + 1) left
          (trace1 ++ [RpcEvent.sleep (retries + 1)])

/-- The function `GetBlockReceipts`: the receipts, or `none` for a returned error, and
the events so far. -/
def GetBlockReceipts (rpc : Rpc) (blockNumber : Nat) (trace : List RpcEvent) :
    Option (List Receipt) × List RpcEvent :=
  GetBlockReceiptsLoop rpc blockNumber 0 3 trace

/-- The seconds slept in a list of events, in order. -/
def sleeps (events : List RpcEvent) : List Nat :=
  events.filterMap (fun ev => match ev with
    | RpcEvent.sleep seconds => some seconds
    | _ => none)

/-! ## internal/blockchain: the safe head -/

/-- The bytes of one character of a Go string: its UTF-8 encoding. -/
def utf8Bytes (c : Char) : List Nat :=
  if c.toNat < 0x80 then [c.toNat]
  else if c.toNat < 0x800 then [0xC0 + c.toNat / 64, 0x80 + c.toNat % 64]
  else if c.toNat < 0x10000 then
    [0xE0 + c.toNat / 4096, 0x80 + c.toNat / 64 % 64, 0x80 + c.toNat % 64]
  else
    [0xF0 + c.toNat / 262144, 0x80 + c.toNat / 4096 % 64, 0x80 + c.toNat / 64 % 64,
      0x80 + c.toNat % 64]

/-- The bytes of a Go string, which indexing and slicing count. -/
def goBytes (s : String) : List Nat := s.data.flatMap utf8Bytes

/-- The digit value `nat.scan` gives a byte: `0-9`, `a-z`, `A-Z`, and `MaxBase + 1` for
any other byte. -/
def digitValue (ch : Nat) : Nat :=
  if 48 ≤ ch ∧ ch ≤ 57 then ch - 48
  else if 97 ≤ ch ∧ ch ≤ 122 then ch - 97 + 10
  else if 65 ≤ ch ∧ ch ≤ 90 then ch - 65 + 10
  else 62 + 1

/-- The digit loop of `nat.scan`: the value and the number of the digits read, and the
bytes left from the first byte that is no digit of the base. -/
def scanDigits (base : Nat) : List Nat → Nat → Nat → Nat × Nat × List Nat
  | [], acc, count => (acc, count, [])
  | ch :: rest, acc, count =>
    if digitValue ch ≥ base then (acc, count, ch :: rest)
    else scanDigits base rest (acc * base + digitValue ch) (count + 1)

/-- The method `(*big.Int).SetString` for a base from 2 to 36: an optional sign, at least
one digit, and nothing after the digits; `none` when it reports failure. -/
def SetString (s : List Nat) (base : Nat) : Option Int :=
  match s with
  | [] => none
  | ch :: rest =>
    match scanDigits base (if ch = 45 ∨ ch = 43 then rest else ch :: rest) 0 0 with
    | (abs, count, remaining) =>
      if count = 0 then none
      else if remaining ≠ [] then none
      else some (if ch = 45 then -(abs : Int) else (abs : Int))

/-- The function `GetSafeBlockNumber` on the answer of the endpoint (`none`: the call
failed; otherwise the field `number` of the block): the height, or `none` for a
returned error. -/
def GetSafeBlockNumber (answer : Option String) : Outcome (Option Nat) :=
  match answer with
  | none => Outcome.ok none
  | some number =>
    if (goBytes number).length < 2 then Outcome.panic
    else
      match SetString ((goBytes number).drop 2) 16 with
      | none => Outcome.ok none
      | some n => Outcome.ok (some (n.natAbs % 2 ^ 64))

/-- The value of a string of hexadecimal digits. -/
def hexValue (digits : List Nat) : Nat :=
  digits.foldl (fun acc ch => acc * 16 + digitValue ch) 0

/-! ## Sample data: one range pool, one classic pool, and logs on them -/

namespace Sample

/-- The Go value of one payload word: an address for the input named `pool`, the signed
256-bit integer otherwise.  This is what go-ethereum returns for an `int256` input, and
for an unsigned input whose word is below `2 ^ 255`: the sample payloads hold no other
word. -/
def wordValue (input : String) (w : Nat) : Value :=
  if input = "pool" then Value.address w
  else Value.bigInt (if w < 2 ^ 255 then (w : Int) else (w : Int) - 2 ^ 256)

/-- A stand-in for `UnpackIntoMap` on the sample payloads: the payload words are read, in
order, as the values of the non-indexed inputs of the event. -/
def unpackWords (contractABI : ABI) (name : String) (data : List Nat) : Option Fields :=
  match contractABI.Events.lookup name with
  | none => none
  | some event =>
    let names := (event.Inputs.filter (fun a => !a.Indexed)).map (fun a => a.Name)
    if names.length = data.length then
      some ((names.zip data).map (fun p => (p.1, wordValue p.1 p.2)))
    else none

/-- A stand-in for the go-ethereum functions: lowercase hexadecimal address text. -/
def lib : EthLib := ⟨fun a => "0x" ++ String.mk (Nat.toDigits 16 a), unpackWords⟩

/-- The Swap event of the range pool master. -/
def rangeSwap : Event :=
  ⟨7, [⟨"sender", true⟩, ⟨"recipient", true⟩, ⟨"amount0", false⟩, ⟨"amount1", false⟩]⟩

/-- The Swap event of the classic pool master. -/
def classicSwap : Event :=
  ⟨9, [⟨"sender", true⟩, ⟨"to", true⟩, ⟨"amount0In", false⟩, ⟨"amount1In", false⟩,
    ⟨"amount0Out", false⟩, ⟨"amount1Out", false⟩]⟩

/-- The loaded ABIs: the range master at `0xe1` and the classic master at `0xe2`. -/
def abis : List (String × ABI) :=
  [("0xe1", ⟨[("Swap", rangeSwap)]⟩), ("0xe2", ⟨[("Swap", classicSwap)]⟩)]

/-- The range pool at `0xc1` with tokens `0xA`, `0xB`. -/
def rangePool : Pool := ⟨"0xC1", "0xf1", "range", "v3", "0xA", "0xB", none, "0x01", 120⟩

/-- The classic pool at `0xc2` with tokens `0xA`, `0xB`. -/
def classicPool : Pool := ⟨"0xC2", "0xf2", "classic", "v2", "0xA", "0xB", none, "0x02", 120⟩

/-- A classic pool at `0xc3` whose factory log named the same token twice. -/
def twinPool : Pool := ⟨"0xC3", "0xf2", "classic", "v2", "0xA", "0xA", none, "0x03", 120⟩

/-- A scanner whose cache holds the three pools. -/
def scanner : ABIScanner :=
  { cfg := ⟨100, 5, 2, 2⟩
    poolCache := [("0xc1", rangePool), ("0xc2", classicPool), ("0xc3", twinPool)]
    factoryInfoMap := [("0xf1", ⟨"range", "v3", "PoolCreated", ""⟩),
      ("0xf2", ⟨"classic", "v2", "PoolCreated", ""⟩)]
    poolABIMap := [("range:v3", "0xE1"), ("classic:v2", "0xE2")] }

/-- An empty database. -/
def emptyDB : DB := ⟨[], [], []⟩

/-- A range Swap log with `amount0 = -500`, `amount1 = 510`. -/
def rangeLog : Log := ⟨0xc1, [7, 0x51, 0x52], [2 ^ 256 - 500, 510], 3⟩

/-- A range Swap log with `amount0 = 5`, `amount1 = 7`: no amount is negative. -/
def rangeLogBothIn : Log := ⟨0xc1, [7, 0x51, 0x52], [5, 7], 4⟩

/-- A classic Swap log with `amount0In = 1000`, `amount1Out = 990`. -/
def classicLog : Log := ⟨0xc2, [9, 0x51, 0x52], [1000, 0, 0, 990], 5⟩

/-- A classic Swap log in which both input amounts are zero. -/
def classicLogNoIn : Log := ⟨0xc2, [9, 0x51, 0x52], [0, 0, 3, 4], 6⟩

/-- A classic Swap log on the pool whose two tokens coincide. -/
def twinLog : Log := ⟨0xc3, [9, 0x51, 0x52], [1000, 0, 0, 990], 7⟩

/-- A chain whose block 121 holds one transaction with the sample range log; every other
block is empty; the endpoint and the storage engine always answer. -/
def env : Env :=
  { lib := lib
    abis := abis
    receipts := fun b => if b = 121 then some [⟨"0xaa", [rangeLog]⟩] else some []
    timestamp := fun _ => some 1700
    poolFault := fun _ _ => false
    swapFault := fun _ _ => Fault.clean }

/-- The same chain seen through an endpoint that fails on the receipts of block 200. -/
def envFail200 : Env :=
  { env with receipts := fun b => if b = 200 then none else some [] }

/-- A database whose `stable_scan` row stands at 199. -/
def dbAt199 : DB := ⟨[], [], [⟨"stable_scan", 199, "running", ""⟩]⟩

/-- The sample scanner configured with `batch_size = -1`. -/
def scannerNegBatch : ABIScanner := { scanner with cfg := ⟨100, -1, 2, 2⟩ }

/-- A log emitted by an address that is no key of the pool cache. -/
def strangerLog : Log := ⟨0x99, [9, 0x51, 0x52], [1000, 0, 0, 990], 8⟩

/-- Nine factory addresses; the range factory is `0xF1`, a classic one `0xF2`. -/
def factories : FactoriesConfig :=
  ⟨"0xF3", "0xF4", "0xF2", "0xF5", "0xF6", "0xF7", "0xF8", "0xF9", "0xF1"⟩

/-- The PoolCreated event of the range factory, whose payload carries a fee. -/
def poolCreated : Event :=
  ⟨11, [⟨"token0", true⟩, ⟨"token1", true⟩, ⟨"fee", false⟩, ⟨"pool", false⟩]⟩

/-- The loaded ABIs with that of the range factory at `0xf1`. -/
def abisWithFactory : List (String × ABI) :=
  ("0xf1", ⟨[("PoolCreated", poolCreated)]⟩) :: abis

/-- The sample scanner with the factory map `initFatoryInfo` builds. -/
def scannerInit : ABIScanner := { scanner with factoryInfoMap := initFatoryInfo factories }

/-- A PoolCreated log of the range factory: tokens `0xa`, `0xb`, fee 30, pool `0xc9`. -/
def poolLog : Log := ⟨0xf1, [11, 0xa, 0xb], [30, 0xc9], 1⟩

/-- A PoolCreated log of the range factory with fee 0. -/
def poolLogFeeZero : Log := ⟨0xf1, [11, 0xa, 0xb], [0, 0xc9], 1⟩

/-- A chain whose block 120 holds the sample PoolCreated log, seen while the storage
engine refuses every insert into `pools`. -/
def envPoolFault : Env :=
  { lib := lib
    abis := abisWithFactory
    receipts := fun b => if b = 120 then some [⟨"0x01", [poolLog]⟩] else some []
    timestamp := fun _ => some 1700
    poolFault := fun _ _ => true
    swapFault := fun _ _ => Fault.clean }

/-- The sample chain seen while the storage engine refuses every insert into
`swap_events`. -/
def envSwapFault : Env := { env with swapFault := fun _ _ => ⟨true, false⟩ }

/-- A database whose `stable_scan` row stands at 100. -/
def dbAt100 : DB := ⟨[], [], [⟨"stable_scan", 100, "running", ""⟩]⟩

/-- A chain whose blocks 103 and 107 each hold one transaction with the sample range
log; every other block is empty. -/
def envLive : Env :=
  { env with receipts := fun b =>
      if b = 103 then some [⟨"0xa3", [rangeLog]⟩]
      else if b = 107 then some [⟨"0xa7", [rangeLog]⟩] else some [] }

/-- The pending row of the swap of block 103. -/
def pending103 : SwapEvent :=
  ⟨103, 1700, "0xa3", 3, "0xC1", "0x51", "0x52", "0xB", "0xA", "510", "500", "pending"⟩

/-- The pending row of the swap of block 107. -/
def pending107 : SwapEvent :=
  ⟨107, 1700, "0xa7", 3, "0xC1", "0x51", "0x52", "0xB", "0xA", "510", "500", "pending"⟩

/-- A world in which directories can be made, paths are joined with a slash, the block
explorer does not answer, and only the text `[]` parses, as the empty ABI. -/
def abiWorld : AbiWorld :=
  { mkdirFails := false
    join := fun dir name => dir ++ "/" ++ name
    download := fun _ => none
    writeFails := fun _ => false
    parse := fun text => if text = "[]" then some ⟨[]⟩ else none }

/-- A configuration with `auto_download = false` and two addresses. -/
def abiConfig : AbiConfig :=
  ⟨false, "https://explorer/api?address=", "abis", ["0xE1", "0xE2"]⟩

/-- A directory `abis` that holds the ABI file of `0xe2` and no file for `0xe1`. -/
def abiFiles : Files := [("abis/0xe2.json", some "[]")]

/-- A log of the range factory with the topics of the sample PoolCreated log and a
payload of one word, which does not decode. -/
def poolLogShortData : Log := ⟨0xf1, [11, 0xa, 0xb], [30], 2⟩

/-- A log of the cached range pool whose only topic is the identifier of the Swap event
of its master. -/
def swapLogOneTopic : Log := ⟨0xc1, [7], [2 ^ 256 - 500, 510], 3⟩

/-- A log of the cached range pool with the Swap identifier and one more topic. -/
def swapLogTwoTopics : Log := ⟨0xc1, [7, 0x51], [2 ^ 256 - 500, 510], 3⟩

/-- A log of the tracked range factory without topics. -/
def factoryLogNoTopics : Log := ⟨0xf1, [], [30, 0xc9], 1⟩

/-- A chain whose block 121 holds one transaction with the one-topic log of the range
pool; every other block is empty. -/
def envOneTopic : Env :=
  { env with receipts := fun b =>
      if b = 121 then some [⟨"0xaa", [swapLogOneTopic]⟩] else some [] }

/-- A database whose `stable_scan` row stands at 120. -/
def dbAt120 : DB := ⟨[], [], [⟨"stable_scan", 120, "running", ""⟩]⟩

/-- A scanner configuration whose `start_block` is 0. -/
def cfgStartZero : ScannerConfig := ⟨0, 5, 2, 2⟩

/-- A database whose `stable_scan` row stands at 0. -/
def dbAt0 : DB := ⟨[], [], [⟨"stable_scan", 0, "running", ""⟩]⟩

/-- The pool the sample PoolCreated log creates, as block 120 persists it. -/
def pool9 : Pool := ⟨"0xc9", "0xf1", "range", "v3", "0xa", "0xb", none, "0x01", 120⟩

/-- A database whose `pools` table holds that pool. -/
def dbPool9 : DB := ⟨[pool9], [], []⟩

/-- A later PoolCreated log of the range factory that names the same pool `0xc9` with
tokens `0xd`, `0xe`. -/
def poolLogAgain : Log := ⟨0xf1, [11, 0xd, 0xe], [30, 0xc9], 4⟩

/-- The pool that log builds: tokens `0xd`, `0xe`, transaction `0x02`, block 130. -/
def pool9Again : Pool := ⟨"0xc9", "0xf1", "range", "v3", "0xd", "0xe", none, "0x02", 130⟩

/-- A PoolCreated log of the range factory for a pool `0xca` that is not persisted. -/
def poolLogNew : Log := ⟨0xf1, [11, 0xa, 0xb], [30, 0xca], 5⟩

/-- The pool that log builds in transaction `0x03` of block 131. -/
def poolCA : Pool := ⟨"0xca", "0xf1", "range", "v3", "0xa", "0xb", none, "0x03", 131⟩

/-- The sample scanner with the cache `initPoolCache` seeds from the table that holds
the pool `0xc9`. -/
def scannerSeeded : ABIScanner :=
  { scannerInit with poolCache := initPoolCache false dbPool9 }

/-- Two calls of `handlePoolLog`: the log that names `0xc9` again, then the log of the
new pool `0xca`. -/
def poolCalls : List PoolCall :=
  [⟨false, 130, "0x02", poolLogAgain⟩, ⟨false, 131, "0x03", poolLogNew⟩]

/-- An endpoint that always lists the one transaction `0xaa` for a block and never
returns its receipt. -/
def rpcNoReceipt : Rpc := ⟨fun _ _ => some ["0xaa"], fun _ _ => none⟩

/-- An endpoint that lists the one transaction `0xaa` and returns its receipt from the
fifth event on. -/
def rpcLateReceipt : Rpc :=
  ⟨fun _ _ => some ["0xaa"], fun k txHash => if k < 4 then none else some ⟨txHash, []⟩⟩

end Sample

/-! ## Properties -/

/-- On the migrated table `SaveSwapEvent` never reports an error: it appends the row, or
leaves the table alone when the storage engine fails. -/
theorem SaveSwapEvent_eq (fault : Fault) (db : DB) (e : SwapEvent) :
    SaveSwapEvent fault db e =
      (none, if fault.create then db
        else { db with swapEvents := db.swapEvents ++ [e.stored] }) := by
  unfold SaveSwapEvent SaveSwapEventOn createRow swapEventIndexes
  cases h : fault.create <;> simp

/-- What a log handled as a swap went through: the cached pool, its master ABI, the
decoded payload, the direction chosen, and the row handed to `SaveSwapEvent`. -/
theorem handleSwapLog_handled (lib : EthLib) (abis : List (String × ABI)) (s : ABIScanner)
    (db db' : DB) (fault : Fault) (blockNum : Nat) (blockTimestamp : Int) (txHash : String)
    (log : Log) (finality : String) (pool : Pool)
    (hpool : s.poolCache.lookup (toLower (lib.addressHex log.Address)) = some pool)
    (hacc : handleSwapLog lib abis s db fault blockNum blockTimestamp txHash log finality
      = Outcome.ok (true, db')) :
    ∃ masterAddr contractABI fields tokenIn tokenOut amountIn amountOut topic1 topic2,
      s.poolABIMap.lookup (pool.PoolType ++ ":" ++ pool.Version) = some masterAddr ∧
      getABI abis masterAddr = some contractABI ∧
      lib.unpackIntoMap contractABI "Swap" log.Data = some fields ∧
      swapDirection pool fields = some (tokenIn, tokenOut, amountIn, amountOut) ∧
      SaveSwapEvent fault db
        ⟨blockNum, blockTimestamp, txHash, log.Index, pool.PoolAddress,
          lib.addressHex (bytesToAddress topic1), lib.addressHex (bytesToAddress topic2),
          tokenIn, tokenOut, amountIn, amountOut, finality⟩ = (none, db') := by
  unfold handleSwapLog at hacc
  simp only [hpool] at hacc
  split at hacc
  · simp at hacc
  · rename_i masterAddr hm
    split at hacc
    · simp at hacc
    · rename_i contractABI habi
      split at hacc
      · simp at hacc
      · rename_i event hev
        split at hacc
        · simp at hacc
        · rename_i topic0 rest htop
          split at hacc
          · simp at hacc
          · split at hacc
            · rename_i topic1 topic2 tl
              split at hacc
              · simp at hacc
              · rename_i fields hf
                split at hacc
                · simp at hacc
                · rename_i tokenIn tokenOut amountIn amountOut hdir
                  split at hacc
                  · simp at hacc
                  · rename_i db'' hsave
                    simp at hacc
                    subst hacc
                    exact ⟨masterAddr, contractABI, fields, tokenIn, tokenOut, amountIn,
                      amountOut, topic1, topic2, hm, habi, hf, hdir, hsave⟩
            · simp at hacc

/-- C1.  For a cached pool of type range and a Swap log that `handleSwapLog` accepts for
it, the payload holds big integers `amount0` and `amount1`, and the row handed to
`SaveSwapEvent` (appended to `swap_events` when the insert goes through) has: if
`amount0 < 0`, tokenIn = token1, tokenOut = token0, amountIn = decimal |amount1|,
amountOut = decimal |amount0|; otherwise tokenIn = token0, tokenOut = token1,
amountIn = decimal |amount0|, amountOut = decimal |amount1|. -/
theorem handleSwapLog_range_direction (lib : EthLib) (abis : List (String × ABI))
    (s : ABIScanner) (db db' : DB) (fault : Fault) (blockNum : Nat) (blockTimestamp : Int)
    (txHash : String) (log : Log) (finality : String) (pool : Pool)
    (hpool : s.poolCache.lookup (toLower (lib.addressHex log.Address)) = some pool)
    (hrange : pool.PoolType = "range")
    (hacc : handleSwapLog lib abis s db fault blockNum blockTimestamp txHash log finality
      = Outcome.ok (true, db')) :
    ∃ (masterAddr : String) (contractABI : ABI) (fields : Fields) (amount0 amount1 : Int)
      (swap : SwapEvent),
      s.poolABIMap.lookup (pool.PoolType ++ ":" ++ pool.Version) = some masterAddr ∧
      getABI abis masterAddr = some contractABI ∧
      lib.unpackIntoMap contractABI "Swap" log.Data = some fields ∧
      bigIntField fields "amount0" = some amount0 ∧
      bigIntField fields "amount1" = some amount1 ∧
      SaveSwapEvent fault db swap = (none, db') ∧
      (fault.create = false → db'.swapEvents = db.swapEvents ++ [swap.stored]) ∧
      swap.BlockNumber = blockNum ∧ swap.TxHash = txHash ∧ swap.LogIndex = log.Index ∧
      swap.PoolAddress = pool.PoolAddress ∧ swap.FinalityStatus = finality ∧
      (amount0 < 0 →
        swap.TokenIn = pool.Token1 ∧ swap.TokenOut = pool.Token0 ∧
        swap.AmountIn = toString amount1.natAbs ∧
        swap.AmountOut = toString amount0.natAbs) ∧
      (¬ amount0 < 0 →
        swap.TokenIn = pool.Token0 ∧ swap.TokenOut = pool.Token1 ∧
        swap.AmountIn = toString amount0.natAbs ∧
        swap.AmountOut = toString amount1.natAbs) := by
  obtain ⟨masterAddr, contractABI, fields, tokenIn, tokenOut, amountIn, amountOut, topic1,
    topic2, hm, habi, hf, hdir, hsave⟩ :=
    handleSwapLog_handled lib abis s db db' fault blockNum blockTimestamp txHash log
      finality pool hpool hacc
  have hdb : ∀ sw : SwapEvent, SaveSwapEvent fault db sw = (none, db') →
      fault.create = false → db'.swapEvents = db.swapEvents ++ [sw.stored] := by
    intro sw h hc
    rw [SaveSwapEvent_eq, hc] at h
    simp at h
    rw [← h]
  unfold swapDirection at hdir
  rw [if_pos hrange] at hdir
  cases h0 : bigIntField fields "amount0" with
  | none => simp [h0] at hdir
  | some amount0 =>
    cases h1 : bigIntField fields "amount1" with
    | none => simp [h0, h1] at hdir
    | some amount1 =>
      simp only [h0, h1] at hdir
      refine ⟨masterAddr, contractABI, fields, amount0, amount1, _, hm, habi, hf, h0, h1,
        hsave, hdb _ hsave, rfl, rfl, rfl, rfl, rfl, ?_, ?_⟩
      · intro hneg
        rw [if_pos hneg] at hdir
        simp only [Option.some.injEq, Prod.mk.injEq] at hdir
        obtain ⟨a, b, c, d⟩ := hdir
        exact ⟨a.symm, b.symm, c.symm, d.symm⟩
      · intro hneg
        rw [if_neg hneg] at hdir
        simp only [Option.some.injEq, Prod.mk.injEq] at hdir
        obtain ⟨a, b, c, d⟩ := hdir
        exact ⟨a.symm, b.symm, c.symm, d.symm⟩

set_option maxRecDepth 100000 in
/-- C1, at the sample range pool: the log with `amount0 = -500`, `amount1 = 510` is
accepted and persists tokenIn `0xB`, tokenOut `0xA`, amountIn `510`, amountOut `500`. -/
theorem handleSwapLog_range_direction_witness :
    handleSwapLog Sample.lib Sample.abis Sample.scanner Sample.emptyDB Fault.clean 121 1700
        "0xaa" Sample.rangeLog "safe"
      = Outcome.ok (true, ⟨[], [⟨121, 1700, "0xaa", 3, "0xC1", "0x51", "0x52", "0xB", "0xA",
          "510", "500", "safe"⟩], []⟩) ∧
    ∃ (masterAddr : String) (contractABI : ABI) (fields : Fields) (amount0 amount1 : Int)
      (swap : SwapEvent),
      Sample.scanner.poolABIMap.lookup
        (Sample.rangePool.PoolType ++ ":" ++ Sample.rangePool.Version) = some masterAddr ∧
      getABI Sample.abis masterAddr = some contractABI ∧
      Sample.lib.unpackIntoMap contractABI "Swap" Sample.rangeLog.Data = some fields ∧
      bigIntField fields "amount0" = some amount0 ∧
      bigIntField fields "amount1" = some amount1 ∧
      SaveSwapEvent Fault.clean Sample.emptyDB swap
        = (none, ⟨[], [⟨121, 1700, "0xaa", 3, "0xC1", "0x51", "0x52", "0xB", "0xA",
          "510", "500", "safe"⟩], []⟩) ∧
      (Fault.clean.create = false →
        (⟨[], [⟨121, 1700, "0xaa", 3, "0xC1", "0x51", "0x52", "0xB", "0xA",
          "510", "500", "safe"⟩], []⟩ : DB).swapEvents = Sample.emptyDB.swapEvents ++ [swap.stored]) ∧
      swap.BlockNumber = 121 ∧ swap.TxHash = "0xaa" ∧ swap.LogIndex = Sample.rangeLog.Index ∧
      swap.PoolAddress = Sample.rangePool.PoolAddress ∧ swap.FinalityStatus = "safe" ∧
      (amount0 < 0 →
        swap.TokenIn = Sample.rangePool.Token1 ∧ swap.TokenOut = Sample.rangePool.Token0 ∧
        swap.AmountIn = toString amount1.natAbs ∧
        swap.AmountOut = toString amount0.natAbs) ∧
      (¬ amount0 < 0 →
        swap.TokenIn = Sample.rangePool.Token0 ∧ swap.TokenOut = Sample.rangePool.Token1 ∧
        swap.AmountIn = toString amount0.natAbs ∧
        swap.AmountOut = toString amount1.natAbs) :=
  ⟨by rfl,
    handleSwapLog_range_direction Sample.lib Sample.abis Sample.scanner Sample.emptyDB _
      Fault.clean 121 1700 "0xaa" Sample.rangeLog "safe" Sample.rangePool (by rfl)
      (by rfl) (by rfl)⟩

/-- C2.  For a cached pool of type classic, stable or aqua (any version) and a Swap log
that `handleSwapLog` accepts for it, the payload holds the four big integers, and the
row handed to `SaveSwapEvent` (appended to `swap_events` when the insert goes through)
has: if `amount0In > 0`, tokenIn = token0, tokenOut = token1, amountIn = decimal
amount0In, amountOut = decimal amount1Out; otherwise tokenIn = token1, tokenOut =
token0, amountIn = decimal amount1In, amountOut = decimal amount0Out. -/
theorem handleSwapLog_classic_direction (lib : EthLib) (abis : List (String × ABI))
    (s : ABIScanner) (db db' : DB) (fault : Fault) (blockNum : Nat) (blockTimestamp : Int)
    (txHash : String) (log : Log) (finality : String) (pool : Pool)
    (hpool : s.poolCache.lookup (toLower (lib.addressHex log.Address)) = some pool)
    (htype : pool.PoolType = "classic" ∨ pool.PoolType = "stable" ∨ pool.PoolType = "aqua")
    (hacc : handleSwapLog lib abis s db fault blockNum blockTimestamp txHash log finality
      = Outcome.ok (true, db')) :
    ∃ (masterAddr : String) (contractABI : ABI) (fields : Fields)
      (amount0In amount1In amount0Out amount1Out : Int) (swap : SwapEvent),
      s.poolABIMap.lookup (pool.PoolType ++ ":" ++ pool.Version) = some masterAddr ∧
      getABI abis masterAddr = some contractABI ∧
      lib.unpackIntoMap contractABI "Swap" log.Data = some fields ∧
      bigIntField fields "amount0In" = some amount0In ∧
      bigIntField fields "amount1In" = some amount1In ∧
      bigIntField fields "amount0Out" = some amount0Out ∧
      bigIntField fields "amount1Out" = some amount1Out ∧
      SaveSwapEvent fault db swap = (none, db') ∧
      (fault.create = false → db'.swapEvents = db.swapEvents ++ [swap.stored]) ∧
      swap.BlockNumber = blockNum ∧ swap.TxHash = txHash ∧ swap.LogIndex = log.Index ∧
      swap.PoolAddress = pool.PoolAddress ∧ swap.FinalityStatus = finality ∧
      (0 < amount0In →
        swap.TokenIn = pool.Token0 ∧ swap.TokenOut = pool.Token1 ∧
        swap.AmountIn = toString amount0In ∧ swap.AmountOut = toString amount1Out) ∧
      (¬ 0 < amount0In →
        swap.TokenIn = pool.Token1 ∧ swap.TokenOut = pool.Token0 ∧
        swap.AmountIn = toString amount1In ∧ swap.AmountOut = toString amount0Out) := by
  obtain ⟨masterAddr, contractABI, fields, tokenIn, tokenOut, amountIn, amountOut, topic1,
    topic2, hm, habi, hf, hdir, hsave⟩ :=
    handleSwapLog_handled lib abis s db db' fault blockNum blockTimestamp txHash log
      finality pool hpool hacc
  have hdb : ∀ sw : SwapEvent, SaveSwapEvent fault db sw = (none, db') →
      fault.create = false → db'.swapEvents = db.swapEvents ++ [sw.stored] := by
    intro sw h hc
    rw [SaveSwapEvent_eq, hc] at h
    simp at h
    rw [← h]
  have hnr : ¬ pool.PoolType = "range" := by
    rcases htype with h | h | h <;> rw [h] <;> decide
  unfold swapDirection at hdir
  rw [if_neg hnr] at hdir
  cases h0 : bigIntField fields "amount0In" with
  | none => simp [h0] at hdir
  | some amount0In =>
    cases h1 : bigIntField fields "amount1In" with
    | none => simp [h0, h1] at hdir
    | some amount1In =>
      cases h2 : bigIntField fields "amount0Out" with
      | none => simp [h0, h1, h2] at hdir
      | some amount0Out =>
        cases h3 : bigIntField fields "amount1Out" with
        | none => simp [h0, h1, h2, h3] at hdir
        | some amount1Out =>
          simp only [h0, h1, h2, h3] at hdir
          refine ⟨masterAddr, contractABI, fields, amount0In, amount1In, amount0Out,
            amount1Out, _, hm, habi, hf, h0, h1, h2, h3, hsave, hdb _ hsave, rfl, rfl, rfl,
            rfl, rfl, ?_, ?_⟩
          · intro hpos
            rw [if_pos hpos] at hdir
            simp only [Option.some.injEq, Prod.mk.injEq] at hdir
            obtain ⟨a, b, c, d⟩ := hdir
            exact ⟨a.symm, b.symm, c.symm, d.symm⟩
          · intro hpos
            rw [if_neg hpos] at hdir
            simp only [Option.some.injEq, Prod.mk.injEq] at hdir
            obtain ⟨a, b, c, d⟩ := hdir
            exact ⟨a.symm, b.symm, c.symm, d.symm⟩

set_option maxRecDepth 100000 in
/-- C2, at the sample classic pool with tokens (`0xA`, `0xB`): the log with
`amount0In = 1000`, `amount1Out = 990` is accepted and persists tokenIn `0xA`,
tokenOut `0xB`, amountIn `1000`, amountOut `990`. -/
theorem handleSwapLog_classic_direction_witness :
    handleSwapLog Sample.lib Sample.abis Sample.scanner Sample.emptyDB Fault.clean 121 1700
        "0xbb" Sample.classicLog "safe"
      = Outcome.ok (true, ⟨[], [⟨121, 1700, "0xbb", 5, "0xC2", "0x51", "0x52", "0xA", "0xB",
          "1000", "990", "safe"⟩], []⟩) ∧
    ∃ (masterAddr : String) (contractABI : ABI) (fields : Fields)
      (amount0In amount1In amount0Out amount1Out : Int) (swap : SwapEvent),
      Sample.scanner.poolABIMap.lookup
        (Sample.classicPool.PoolType ++ ":" ++ Sample.classicPool.Version)
          = some masterAddr ∧
      getABI Sample.abis masterAddr = some contractABI ∧
      Sample.lib.unpackIntoMap contractABI "Swap" Sample.classicLog.Data = some fields ∧
      bigIntField fields "amount0In" = some amount0In ∧
      bigIntField fields "amount1In" = some amount1In ∧
      bigIntField fields "amount0Out" = some amount0Out ∧
      bigIntField fields "amount1Out" = some amount1Out ∧
      SaveSwapEvent Fault.clean Sample.emptyDB swap
        = (none, ⟨[], [⟨121, 1700, "0xbb", 5, "0xC2", "0x51", "0x52", "0xA", "0xB",
          "1000", "990", "safe"⟩], []⟩) ∧
      (Fault.clean.create = false →
        (⟨[], [⟨121, 1700, "0xbb", 5, "0xC2", "0x51", "0x52", "0xA", "0xB",
          "1000", "990", "safe"⟩], []⟩ : DB).swapEvents
            = Sample.emptyDB.swapEvents ++ [swap.stored]) ∧
      swap.BlockNumber = 121 ∧ swap.TxHash = "0xbb" ∧
      swap.LogIndex = Sample.classicLog.Index ∧
      swap.PoolAddress = Sample.classicPool.PoolAddress ∧ swap.FinalityStatus = "safe" ∧
      (0 < amount0In →
        swap.TokenIn = Sample.classicPool.Token0 ∧
        swap.TokenOut = Sample.classicPool.Token1 ∧
        swap.AmountIn = toString amount0In ∧ swap.AmountOut = toString amount1Out) ∧
      (¬ 0 < amount0In →
        swap.TokenIn = Sample.classicPool.Token1 ∧
        swap.TokenOut = Sample.classicPool.Token0 ∧
        swap.AmountIn = toString amount1In ∧ swap.AmountOut = toString amount0Out) :=
  ⟨by rfl,
    handleSwapLog_classic_direction Sample.lib Sample.abis Sample.scanner Sample.emptyDB _
      Fault.clean 121 1700 "0xbb" Sample.classicLog "safe" Sample.classicPool (by rfl)
      (Or.inl (by rfl)) (by rfl)⟩

/-- The amount fields `handleSwapLog` requires of the decoded payload of a pool. -/
theorem swapDirection_eq_none_iff (pool : Pool) (fields : Fields) :
    swapDirection pool fields = none ↔
      ∃ k ∈ (if pool.PoolType = "range" then ["amount0", "amount1"]
        else ["amount0In", "amount1In", "amount0Out", "amount1Out"]),
        bigIntField fields k = none := by
  unfold swapDirection
  by_cases hr : pool.PoolType = "range"
  · simp only [if_pos hr]
    cases h0 : bigIntField fields "amount0" <;> cases h1 : bigIntField fields "amount1" <;>
      simp [h0, h1]
    split <;> simp
  · simp only [if_neg hr]
    cases h0 : bigIntField fields "amount0In" <;>
      cases h1 : bigIntField fields "amount1In" <;>
      cases h2 : bigIntField fields "amount0Out" <;>
      cases h3 : bigIntField fields "amount1Out" <;>
      simp [h0, h1, h2, h3]
    split <;> simp

set_option maxRecDepth 100000 in
/-- C3, refuted at explicit logs: the range log with `amount0 = 5`, `amount1 = 7` (no
amount negative) and the classic log with `amount0In = amount1In = 0` (no input
non-zero) are both handled as swaps and persisted. -/
theorem handleSwapLog_inconsistent_amounts_persisted :
    (Sample.lib.unpackIntoMap ⟨[("Swap", Sample.rangeSwap)]⟩ "Swap"
        Sample.rangeLogBothIn.Data
      = some [("amount0", Value.bigInt 5), ("amount1", Value.bigInt 7)] ∧
     handleSwapLog Sample.lib Sample.abis Sample.scanner Sample.emptyDB Fault.clean 121 1700
        "0xcc" Sample.rangeLogBothIn "safe"
      = Outcome.ok (true, ⟨[], [⟨121, 1700, "0xcc", 4, "0xC1", "0x51", "0x52", "0xA", "0xB",
          "5", "7", "safe"⟩], []⟩)) ∧
    (Sample.lib.unpackIntoMap ⟨[("Swap", Sample.classicSwap)]⟩ "Swap"
        Sample.classicLogNoIn.Data
      = some [("amount0In", Value.bigInt 0), ("amount1In", Value.bigInt 0),
          ("amount0Out", Value.bigInt 3), ("amount1Out", Value.bigInt 4)] ∧
     handleSwapLog Sample.lib Sample.abis Sample.scanner Sample.emptyDB Fault.clean 121 1700
        "0xdd" Sample.classicLogNoIn "safe"
      = Outcome.ok (true, ⟨[], [⟨121, 1700, "0xdd", 6, "0xC2", "0x51", "0x52", "0xB", "0xA",
          "0", "3", "safe"⟩], []⟩)) :=
  ⟨⟨by rfl, by rfl⟩, ⟨by rfl, by rfl⟩⟩

/-- C3, amended.  A Swap log of a cached pool that passes the checks before the amount
extraction (master ABI loaded, topic 0 is the Swap identifier, three topics, payload
unpacked) is dropped, with the database untouched, exactly when a required amount
(`amount0`, `amount1` for range; the four `amount*In/Out` otherwise) is absent or not a
big integer.  When all are present it is handled and handed to `SaveSwapEvent` whatever
the signs of the amounts. -/
theorem handleSwapLog_dropped_iff_amount_missing (lib : EthLib) (abis : List (String × ABI))
    (s : ABIScanner) (db : DB) (fault : Fault) (blockNum : Nat) (blockTimestamp : Int)
    (txHash : String) (log : Log) (finality : String) (pool : Pool) (masterAddr : String)
    (contractABI : ABI) (event : Event) (topic1 topic2 : Nat) (rest : List Nat)
    (fields : Fields)
    (hpool : s.poolCache.lookup (toLower (lib.addressHex log.Address)) = some pool)
    (hm : s.poolABIMap.lookup (pool.PoolType ++ ":" ++ pool.Version) = some masterAddr)
    (habi : getABI abis masterAddr = some contractABI)
    (hev : contractABI.Events.lookup "Swap" = some event)
    (htop : log.Topics = event.ID :: topic1 :: topic2 :: rest)
    (hf : lib.unpackIntoMap contractABI "Swap" log.Data = some fields) :
    (handleSwapLog lib abis s db fault blockNum blockTimestamp txHash log finality
        = Outcome.ok (false, db) ↔
      ∃ k ∈ (if pool.PoolType = "range" then ["amount0", "amount1"]
        else ["amount0In", "amount1In", "amount0Out", "amount1Out"]),
        bigIntField fields k = none) ∧
    ((∀ k ∈ (if pool.PoolType = "range" then ["amount0", "amount1"]
        else ["amount0In", "amount1In", "amount0Out", "amount1Out"]),
        bigIntField fields k ≠ none) →
      ∃ swap : SwapEvent,
        handleSwapLog lib abis s db fault blockNum blockTimestamp txHash log finality
          = Outcome.ok (true, (SaveSwapEvent fault db swap).2) ∧
        (fault.create = false →
          (SaveSwapEvent fault db swap).2.swapEvents = db.swapEvents ++ [swap.stored])) := by
  have hrun : handleSwapLog lib abis s db fault blockNum blockTimestamp txHash log finality
      = match swapDirection pool fields with
        | none => Outcome.ok (false, db)
        | some (tokenIn, tokenOut, amountIn, amountOut) =>
          Outcome.ok (true, (SaveSwapEvent fault db
            ⟨blockNum, blockTimestamp, txHash, log.Index, pool.PoolAddress,
              lib.addressHex (bytesToAddress topic1), lib.addressHex (bytesToAddress topic2),
              tokenIn, tokenOut, amountIn, amountOut, finality⟩).2) := by
    unfold handleSwapLog
    simp only [hpool, hm, habi, hev, htop, hf, ne_eq, not_true_eq_false, if_false]
    cases hd : swapDirection pool fields with
    | none => rfl
    | some d =>
      obtain ⟨tokenIn, tokenOut, amountIn, amountOut⟩ := d
      simp only [SaveSwapEvent_eq]
  have hsome : (∀ k ∈ (if pool.PoolType = "range" then ["amount0", "amount1"]
        else ["amount0In", "amount1In", "amount0Out", "amount1Out"]),
        bigIntField fields k ≠ none) → swapDirection pool fields ≠ none := by
    intro hall hnone
    obtain ⟨k, hk, hkn⟩ := (swapDirection_eq_none_iff pool fields).mp hnone
    exact hall k hk hkn
  refine ⟨?_, ?_⟩
  · rw [hrun, ← swapDirection_eq_none_iff]
    cases hd : swapDirection pool fields with
    | none => simp
    | some d =>
      obtain ⟨tokenIn, tokenOut, amountIn, amountOut⟩ := d
      simp
  · intro hall
    have hne := hsome hall
    cases hd : swapDirection pool fields with
    | none => exact absurd hd hne
    | some d =>
      obtain ⟨tokenIn, tokenOut, amountIn, amountOut⟩ := d
      refine ⟨⟨blockNum, blockTimestamp, txHash, log.Index, pool.PoolAddress,
        lib.addressHex (bytesToAddress topic1), lib.addressHex (bytesToAddress topic2),
        tokenIn, tokenOut, amountIn, amountOut, finality⟩, ?_, ?_⟩
      · rw [hrun, hd]
      · intro hc
        rw [SaveSwapEvent_eq, hc]
        simp

set_option maxRecDepth 100000 in
/-- C3 amended, at the sample range log whose two amounts are both positive: all
hypotheses hold there, and the log is handled. -/
theorem handleSwapLog_dropped_iff_amount_missing_witness :
    (handleSwapLog Sample.lib Sample.abis Sample.scanner Sample.emptyDB Fault.clean 121 1700
        "0xcc" Sample.rangeLogBothIn "safe" = Outcome.ok (false, Sample.emptyDB) ↔
      ∃ k ∈ (if Sample.rangePool.PoolType = "range" then ["amount0", "amount1"]
        else ["amount0In", "amount1In", "amount0Out", "amount1Out"]),
        bigIntField [("amount0", Value.bigInt 5), ("amount1", Value.bigInt 7)] k = none) ∧
    ((∀ k ∈ (if Sample.rangePool.PoolType = "range" then ["amount0", "amount1"]
        else ["amount0In", "amount1In", "amount0Out", "amount1Out"]),
        bigIntField [("amount0", Value.bigInt 5), ("amount1", Value.bigInt 7)] k ≠ none) →
      ∃ swap : SwapEvent,
        handleSwapLog Sample.lib Sample.abis Sample.scanner Sample.emptyDB Fault.clean 121
            1700 "0xcc" Sample.rangeLogBothIn "safe"
          = Outcome.ok (true, (SaveSwapEvent Fault.clean Sample.emptyDB swap).2) ∧
        (Fault.clean.create = false →
          (SaveSwapEvent Fault.clean Sample.emptyDB swap).2.swapEvents
            = Sample.emptyDB.swapEvents ++ [swap.stored])) :=
  handleSwapLog_dropped_iff_amount_missing Sample.lib Sample.abis Sample.scanner
    Sample.emptyDB Fault.clean 121 1700 "0xcc" Sample.rangeLogBothIn "safe" Sample.rangePool
    "0xE1" ⟨[("Swap", Sample.rangeSwap)]⟩ Sample.rangeSwap 0x51 0x52 []
    [("amount0", Value.bigInt 5), ("amount1", Value.bigInt 7)]
    (by rfl) (by rfl) (by rfl) (by rfl) (by rfl) (by rfl)

/-- The two tokens `swapDirection` returns are the two tokens of the pool, in one of the
two orders. -/
theorem swapDirection_tokens (pool : Pool) (fields : Fields)
    (tokenIn tokenOut amountIn amountOut : String)
    (h : swapDirection pool fields = some (tokenIn, tokenOut, amountIn, amountOut)) :
    (tokenIn = pool.Token0 ∧ tokenOut = pool.Token1) ∨
      (tokenIn = pool.Token1 ∧ tokenOut = pool.Token0) := by
  unfold swapDirection at h
  split at h
  · split at h
    · split at h <;> simp only [Option.some.injEq, Prod.mk.injEq] at h
      · exact Or.inr ⟨h.1.symm, h.2.1.symm⟩
      · exact Or.inl ⟨h.1.symm, h.2.1.symm⟩
    · simp at h
  · split at h
    · split at h <;> simp only [Option.some.injEq, Prod.mk.injEq] at h
      · exact Or.inl ⟨h.1.symm, h.2.1.symm⟩
      · exact Or.inr ⟨h.1.symm, h.2.1.symm⟩
    · simp at h

set_option maxRecDepth 100000 in
/-- C4, refuted at an explicit log: on the cached pool whose `token0` and `token1` are
both `0xA`, an accepted Swap log persists a row with `token_in = token_out`. -/
theorem handleSwapLog_same_token_persisted :
    Sample.scanner.poolCache.lookup (toLower (Sample.lib.addressHex Sample.twinLog.Address))
      = some Sample.twinPool ∧
    handleSwapLog Sample.lib Sample.abis Sample.scanner Sample.emptyDB Fault.clean 121 1700
        "0xee" Sample.twinLog "safe"
      = Outcome.ok (true, ⟨[], [⟨121, 1700, "0xee", 7, "0xC3", "0x51", "0x52", "0xA", "0xA",
          "1000", "990", "safe"⟩], []⟩) ∧
    (⟨121, 1700, "0xee", 7, "0xC3", "0x51", "0x52", "0xA", "0xA", "1000", "990",
        "safe"⟩ : SwapEvent).TokenIn
      = (⟨121, 1700, "0xee", 7, "0xC3", "0x51", "0x52", "0xA", "0xA", "1000", "990",
        "safe"⟩ : SwapEvent).TokenOut :=
  ⟨by rfl, by rfl, rfl⟩

/-- C4, amended.  For every row `handleSwapLog` hands to `SaveSwapEvent`, with `pool` the
cached pool whose address emitted the log: the row references that pool, and
`(token_in, token_out)` is `(token0, token1)` or `(token1, token0)` of the pool, so both
belong to it; the two are distinct exactly when the two tokens of the pool are. -/
theorem handleSwapLog_tokens_of_pool (lib : EthLib) (abis : List (String × ABI))
    (s : ABIScanner) (db db' : DB) (fault : Fault) (blockNum : Nat) (blockTimestamp : Int)
    (txHash : String) (log : Log) (finality : String) (pool : Pool)
    (hpool : s.poolCache.lookup (toLower (lib.addressHex log.Address)) = some pool)
    (hacc : handleSwapLog lib abis s db fault blockNum blockTimestamp txHash log finality
      = Outcome.ok (true, db')) :
    ∃ swap : SwapEvent,
      SaveSwapEvent fault db swap = (none, db') ∧
      (fault.create = false → db'.swapEvents = db.swapEvents ++ [swap.stored]) ∧
      swap.TxHash = txHash ∧ swap.LogIndex = log.Index ∧
      swap.PoolAddress = pool.PoolAddress ∧
      ((swap.TokenIn = pool.Token0 ∧ swap.TokenOut = pool.Token1) ∨
        (swap.TokenIn = pool.Token1 ∧ swap.TokenOut = pool.Token0)) ∧
      (swap.TokenIn ≠ swap.TokenOut ↔ pool.Token0 ≠ pool.Token1) := by
  obtain ⟨masterAddr, contractABI, fields, tokenIn, tokenOut, amountIn, amountOut, topic1,
    topic2, hm, habi, hf, hdir, hsave⟩ :=
    handleSwapLog_handled lib abis s db db' fault blockNum blockTimestamp txHash log
      finality pool hpool hacc
  have htok := swapDirection_tokens pool fields tokenIn tokenOut amountIn amountOut hdir
  refine ⟨_, hsave, ?_, rfl, rfl, rfl, htok, ?_⟩
  · intro hc
    have h := hsave
    rw [SaveSwapEvent_eq, hc] at h
    simp at h
    rw [← h]
  · show tokenIn ≠ tokenOut ↔ pool.Token0 ≠ pool.Token1
    rcases htok with ⟨a, b⟩ | ⟨a, b⟩
    · rw [a, b]
    · rw [a, b]
      exact ⟨fun h e => h e.symm, fun h e => h e.symm⟩

set_option maxRecDepth 100000 in
/-- C4 amended, at the sample classic pool with tokens (`0xA`, `0xB`). -/
theorem handleSwapLog_tokens_of_pool_witness :
    ∃ swap : SwapEvent,
      SaveSwapEvent Fault.clean Sample.emptyDB swap
        = (none, ⟨[], [⟨121, 1700, "0xbb", 5, "0xC2", "0x51", "0x52", "0xA", "0xB",
          "1000", "990", "safe"⟩], []⟩) ∧
      (Fault.clean.create = false →
        (⟨[], [⟨121, 1700, "0xbb", 5, "0xC2", "0x51", "0x52", "0xA", "0xB",
          "1000", "990", "safe"⟩], []⟩ : DB).swapEvents
            = Sample.emptyDB.swapEvents ++ [swap.stored]) ∧
      swap.TxHash = "0xbb" ∧ swap.LogIndex = Sample.classicLog.Index ∧
      swap.PoolAddress = Sample.classicPool.PoolAddress ∧
      ((swap.TokenIn = Sample.classicPool.Token0 ∧
          swap.TokenOut = Sample.classicPool.Token1) ∨
        (swap.TokenIn = Sample.classicPool.Token1 ∧
          swap.TokenOut = Sample.classicPool.Token0)) ∧
      (swap.TokenIn ≠ swap.TokenOut ↔
        Sample.classicPool.Token0 ≠ Sample.classicPool.Token1) :=
  handleSwapLog_tokens_of_pool Sample.lib Sample.abis Sample.scanner Sample.emptyDB _
    Fault.clean 121 1700 "0xbb" Sample.classicLog "safe" Sample.classicPool (by rfl)
    (by rfl)

/-! ### The repository -/

/-- The column default does not touch the key of a row. -/
theorem SwapEvent.stored_key (e : SwapEvent) :
    e.stored.TxHash = e.TxHash ∧ e.stored.LogIndex = e.LogIndex := by
  unfold SwapEvent.stored
  split <;> exact ⟨rfl, rfl⟩

/-- With the unique index on `(tx_hash, log_index)` in place, the body of `SaveSwapEvent`
upserts: on a table holding no row with the key, saving a row and then a second row with
the same key leaves the table extended by the second row alone, as `Create` stores it. -/
theorem SaveSwapEventOn_txLogIndex_upsert (db : DB) (p q : SwapEvent)
    (hkey : p.TxHash = q.TxHash ∧ p.LogIndex = q.LogIndex)
    (hfresh : ∀ r ∈ db.swapEvents, ¬ (r.TxHash = q.TxHash ∧ r.LogIndex = q.LogIndex)) :
    (SaveSwapEventOn [txLogIndex] Fault.clean
        (SaveSwapEventOn [txLogIndex] Fault.clean db p).2 q).2.swapEvents
      = db.swapEvents ++ [q.stored] := by
  have h1 : (SaveSwapEventOn [txLogIndex] Fault.clean db p).2
      = { db with swapEvents := db.swapEvents ++ [p.stored] } := by
    unfold SaveSwapEventOn createRow
    have hno : (db.swapEvents.any (txLogIndex p.stored)) = false := by
      rw [List.any_eq_false]
      intro r hr
      have := hfresh r hr
      simp only [txLogIndex, Bool.and_eq_true, beq_iff_eq, not_and, p.stored_key.1,
        p.stored_key.2]
      intro ht hl
      exact this ⟨by rw [← ht, hkey.1], by rw [← hl, hkey.2]⟩
    simp only [Fault.clean, Bool.false_eq_true, if_false, List.any_cons, List.any_nil,
      Bool.or_false, hno]
  rw [h1]
  unfold SaveSwapEventOn createRow
  have hyes : ((db.swapEvents ++ [p.stored]).any (txLogIndex q.stored)) = true := by
    rw [List.any_eq_true]
    exact ⟨p.stored, by simp, by
      simp [txLogIndex, q.stored_key.1, q.stored_key.2, p.stored_key.1, p.stored_key.2,
        hkey.1, hkey.2]⟩
  simp only [Fault.clean, Bool.false_eq_true, if_false, List.any_cons, List.any_nil,
    Bool.or_false, hyes, if_true, List.map_append, List.map_cons, List.map_nil]
  congr 1
  · conv_rhs => rw [← List.map_id db.swapEvents]
    apply List.map_congr_left
    intro r hr
    simp [if_neg (hfresh r hr)]
  · simp [p.stored_key.1, p.stored_key.2, hkey.1, hkey.2]
    unfold SwapEvent.stored
    split <;> rfl

/-- C5, on the table the program creates: after saving a pending row and then a safe
row with the same `(tx_hash, log_index)`, both rows are in `swap_events`, the first
still pending. -/
theorem SaveSwapEvent_pending_then_safe_keeps_both (db : DB) (p q : SwapEvent) :
    (SaveSwapEvent Fault.clean (SaveSwapEvent Fault.clean db p).2 q).2.swapEvents
      = db.swapEvents ++ [p.stored, q.stored] ∧
    (SaveSwapEvent Fault.clean (SaveSwapEvent Fault.clean Sample.emptyDB
        ⟨106, 1700, "0xaa", 3, "0xC1", "0x51", "0x52", "0xB", "0xA", "510", "500",
          "pending"⟩).2
        ⟨106, 1700, "0xaa", 3, "0xC1", "0x51", "0x52", "0xB", "0xA", "510", "500",
          "safe"⟩).2.swapEvents
      = [⟨106, 1700, "0xaa", 3, "0xC1", "0x51", "0x52", "0xB", "0xA", "510", "500",
          "pending"⟩,
         ⟨106, 1700, "0xaa", 3, "0xC1", "0x51", "0x52", "0xB", "0xA", "510", "500",
          "safe"⟩] := by
  constructor
  · simp [SaveSwapEvent_eq, Fault.clean]
  · simp [SaveSwapEvent_eq, Fault.clean, Sample.emptyDB, SwapEvent.stored]

/-- C6, on the table the program creates: saving one row twice leaves two rows with the
same `(tx_hash, log_index)`, whatever the table held before. -/
theorem SaveSwapEvent_twice_breaks_key_uniqueness (db : DB) (e : SwapEvent) :
    ¬ (SaveSwapEvent Fault.clean (SaveSwapEvent Fault.clean db e).2 e).2.swapEvents.Pairwise
        (fun a b => ¬ (a.TxHash = b.TxHash ∧ a.LogIndex = b.LogIndex)) := by
  simp only [SaveSwapEvent_eq, Fault.clean, Bool.false_eq_true, if_false, List.append_assoc,
    List.singleton_append]
  intro h
  rw [List.pairwise_append] at h
  have h2 := h.2.1
  rw [List.pairwise_cons] at h2
  exact h2.1 e.stored (by simp) ⟨rfl, rfl⟩

/-- C7.  `DeletePendingAfter h`, when the storage engine answers, reports no error,
touches no other table, and leaves `swap_events` as the original list with exactly the
rows having `block_number > h` and `finality_status = pending` filtered out: a row is in
the result iff it was there and is not such a row, the order of the kept rows is the
original one, and every row with `block_number <= h` or `finality_status = safe` occurs
as often as before. -/
theorem DeletePendingAfter_exact (db : DB) (h : Nat) :
    (DeletePendingAfter false db h).1 = none ∧
    (DeletePendingAfter false db h).2.pools = db.pools ∧
    (DeletePendingAfter false db h).2.scanProgress = db.scanProgress ∧
    (DeletePendingAfter false db h).2.swapEvents
      = db.swapEvents.filter
          (fun r => decide (¬ (r.BlockNumber > h ∧ r.FinalityStatus = "pending"))) ∧
    (DeletePendingAfter false db h).2.swapEvents.Sublist db.swapEvents ∧
    (∀ r, r ∈ (DeletePendingAfter false db h).2.swapEvents ↔
      r ∈ db.swapEvents ∧ ¬ (r.BlockNumber > h ∧ r.FinalityStatus = "pending")) ∧
    (∀ r, r.BlockNumber ≤ h ∨ r.FinalityStatus = "safe" →
      (DeletePendingAfter false db h).2.swapEvents.count r = db.swapEvents.count r) := by
  have hfilter : (DeletePendingAfter false db h).2.swapEvents
      = db.swapEvents.filter
          (fun r => decide (¬ (r.BlockNumber > h ∧ r.FinalityStatus = "pending"))) := by
    simp only [DeletePendingAfter, Bool.false_eq_true, if_false]
    apply List.filter_congr
    intro r _
    simp
  refine ⟨rfl, rfl, rfl, hfilter, ?_, ?_, ?_⟩
  · rw [hfilter]
    exact List.filter_sublist _
  · intro r
    rw [hfilter, List.mem_filter]
    simp only [decide_eq_true_eq]
  · intro r hr
    rw [hfilter, List.count_filter]
    rcases hr with hle | hsafe
    · simp only [decide_eq_true_eq, not_and]
      intro hgt
      omega
    · simp only [decide_eq_true_eq, not_and]
      intro _ hp
      rw [hsafe] at hp
      exact absurd hp (by decide)

/-! ### Replay -/

set_option maxRecDepth 100000 in
/-- C8, on the table the program creates: scanning the one-block range [121, 121] of the
sample chain with tag safe persists the swap of that block once, and scanning the same
range again with the same tag and pool cache leaves the row twice; and for every table
and row, `SaveSwapEvent` applied twice differs from `SaveSwapEvent` applied once. -/
theorem scanRange_replay_duplicates_rows :
    (∃ st1 st2 : RangeState,
      scanRangeRun Sample.env Sample.scanner Sample.emptyDB 121 121 "safe"
        [SchedEvent.finish 0] = Outcome.ok st1 ∧
      st1.returned 121 = true ∧ st1.s = Sample.scanner ∧
      st1.db.swapEvents = [⟨121, 1700, "0xaa", 3, "0xC1", "0x51", "0x52", "0xB", "0xA",
        "510", "500", "safe"⟩] ∧
      scanRangeRun Sample.env st1.s st1.db 121 121 "safe" [SchedEvent.finish 0]
        = Outcome.ok st2 ∧
      st2.returned 121 = true ∧
      st2.db.swapEvents = [⟨121, 1700, "0xaa", 3, "0xC1", "0x51", "0x52", "0xB", "0xA",
        "510", "500", "safe"⟩, ⟨121, 1700, "0xaa", 3, "0xC1", "0x51", "0x52", "0xB", "0xA",
        "510", "500", "safe"⟩]) ∧
    ∀ (db : DB) (e : SwapEvent),
      (SaveSwapEvent Fault.clean (SaveSwapEvent Fault.clean db e).2 e).2
        ≠ (SaveSwapEvent Fault.clean db e).2 := by
  constructor
  · exact ⟨_, _, by rfl, by rfl, by rfl, by rfl, by rfl, by rfl, by rfl⟩
  · intro db e h
    simp only [SaveSwapEvent_eq, Fault.clean, Bool.false_eq_true, if_false] at h
    have hlen := congrArg (fun d : DB => d.swapEvents.length) h
    simp at hlen

/-! ### The stable cursor -/

set_option maxRecDepth 100000 in
/-- C10, evaluated: with the cursor and the `stable_scan` row at 199, safe head 200 and
the receipts of block 200 failing, the batch [200, 200] counts one error, `scanRange`
returns, and the worker moves its cursor and the `stable_scan` row to 200. -/
theorem runStableWorker_advances_past_failed_block :
    stableBatch Sample.scanner.cfg 199 200 = (200, 200) ∧
    (∃ rs : RangeState,
      scanRangeRun Sample.envFail200 Sample.scanner Sample.dbAt199 200 200 "safe"
        [SchedEvent.finish 0] = Outcome.ok rs ∧
      rs.returned 200 = true ∧ rs.errorCount = 1 ∧ rs.maxScannedBlock = 199 ∧
      rs.db.swapEvents = []) ∧
    (runStableWorker Sample.scanner Sample.dbAt199 199
      [⟨Sample.envFail200, some 200, [SchedEvent.finish 0], false⟩]).cursor = 200 ∧
    (runStableWorker Sample.scanner Sample.dbAt199 199
      [⟨Sample.envFail200, some 200, [SchedEvent.finish 0], false⟩]).phase = Phase.looping ∧
    GetScanProgress false
      (runStableWorker Sample.scanner Sample.dbAt199 199
        [⟨Sample.envFail200, some 200, [SchedEvent.finish 0], false⟩]).db "stable_scan"
      = Except.ok 200 :=
  ⟨by rfl, ⟨_, by rfl, by rfl, by rfl, by rfl, by rfl⟩, by rfl, by rfl, by rfl⟩

/-- A property kept by the body of a loop is kept by the loop. -/
theorem foldOutcome_invariant {α β : Type} (P : β → Prop) (f : β → α → Outcome β)
    (hf : ∀ b a b', P b → f b a = Outcome.ok b' → P b') :
    ∀ (l : List α) (b b' : β), P b → foldOutcome f b l = Outcome.ok b' → P b' := by
  intro l
  induction l with
  | nil =>
    intro b b' hb h
    simp only [foldOutcome, Outcome.ok.injEq] at h
    exact h ▸ hb
  | cons a rest ih =>
    intro b b' hb h
    simp only [foldOutcome] at h
    split at h
    · rename_i b1 h1
      exact ih b1 b' (hf b a b1 hb h1) h
    · simp at h

/-- The handler `handlePoolLog` leaves the configuration of the scanner alone. -/
theorem handlePoolLog_cfg (lib : EthLib) (abis : List (String × ABI)) (s s' : ABIScanner)
    (db db' : DB) (fail : Bool) (blockNum : Nat) (txHash : String) (log : Log) (b : Bool)
    (h : handlePoolLog lib abis s db fail blockNum txHash log = Outcome.ok (b, s', db')) :
    s'.cfg = s.cfg := by
  unfold handlePoolLog at h
  simp only [] at h
  have hkeep : ∀ {x : Bool} {d : DB},
      (Outcome.ok (x, s, d) : Outcome (Bool × ABIScanner × DB)) = Outcome.ok (b, s', db') →
        s'.cfg = s.cfg := by
    intro x d hx
    simp only [Outcome.ok.injEq, Prod.mk.injEq] at hx
    rw [← hx.2.1]
  split at h
  · exact hkeep h
  · split at h
    · exact hkeep h
    · split at h
      · exact hkeep h
      · split at h
        · simp at h
        · split at h
          · exact hkeep h
          · split at h
            · exact hkeep h
            · split at h
              · split at h
                · exact hkeep h
                · split at h
                  · exact hkeep h
                  · simp only [Outcome.ok.injEq, Prod.mk.injEq] at h
                    rw [← h.2.1]
              · simp at h

/-- The body of the log loop leaves the configuration of the scanner alone. -/
theorem scanLog_cfg (env : Env) (blockNum : Nat) (blockTimestamp : Int)
    (finality txHash : String) (acc acc' : BlockScan) (log : Log)
    (h : scanLog env blockNum blockTimestamp finality txHash acc log = Outcome.ok acc') :
    acc'.s.cfg = acc.s.cfg := by
  unfold scanLog at h
  split at h
  · simp at h
  · rename_i s' db' hp
    simp only [Outcome.ok.injEq] at h
    rw [← h]
    exact handlePoolLog_cfg _ _ _ _ _ _ _ _ _ _ _ hp
  · rename_i s' db' hp
    have hc := handlePoolLog_cfg _ _ _ _ _ _ _ _ _ _ _ hp
    split at h
    · simp at h
    · simp only [Outcome.ok.injEq] at h
      rw [← h]
      exact hc
    · simp only [Outcome.ok.injEq] at h
      rw [← h]
      exact hc

/-- The method `scanBlock` leaves the configuration of the scanner alone. -/
theorem scanBlock_cfg (env : Env) (s : ABIScanner) (db : DB) (blockNum : Nat)
    (finality : String) (r : BlockScan)
    (h : scanBlock env s db blockNum finality = Outcome.ok r) : r.s.cfg = s.cfg := by
  unfold scanBlock at h
  split at h
  · simp only [Outcome.ok.injEq] at h
    rw [← h]
  · split at h
    · simp only [Outcome.ok.injEq] at h
      rw [← h]
    · refine foldOutcome_invariant (fun acc : BlockScan => acc.s.cfg = s.cfg) _ ?_ _
        ⟨false, s, db, 0, 0⟩ r rfl h
      intro acc receipt acc' hacc hstep
      refine foldOutcome_invariant (fun a : BlockScan => a.s.cfg = s.cfg) _ ?_ receipt.Logs
        acc acc' hacc hstep
      intro a log a' ha hlog
      rw [scanLog_cfg _ _ _ _ _ _ _ _ hlog]
      exact ha

/-- Taking blocks off the channel keeps the invariant of the range. -/
theorem refill_inv (cfg : ScannerConfig) (c end_ workers : Nat) :
    ∀ (fuel : Nat) (st : RangeState), RangeInv cfg c end_ st →
      RangeInv cfg c end_ (refill workers end_ fuel st) := by
  intro fuel
  induction fuel with
  | zero => intro st h; exact h
  | succ n ih =>
    intro st h
    unfold refill
    split
    · rename_i hcond
      apply ih
      obtain ⟨h1, h2, h3, h4, h5, h6⟩ := h
      refine ⟨?_, h2, h3, h4, h5, h6⟩
      intro b hb
      simp only [List.mem_append, List.mem_singleton] at hb
      rcases hb with hb | hb
      · exact h1 b hb
      · rw [hb]
        exact hcond.2
    · exact h

/-- Every event of a range keeps its invariant. -/
theorem scanRangeStep_inv (env : Env) (finality : String) (cfg : ScannerConfig)
    (c end_ : Nat) (st st' : RangeState) (ev : SchedEvent) (h : RangeInv cfg c end_ st)
    (hstep : scanRangeStep env finality end_ st ev = Outcome.ok st') :
    RangeInv cfg c end_ st' := by
  obtain ⟨h1, h2, h3, h4, h5, h6⟩ := h
  cases ev with
  | finish i =>
    simp only [scanRangeStep] at hstep
    split at hstep
    · simp only [Outcome.ok.injEq] at hstep
      rw [← hstep]
      exact ⟨h1, h2, h3, h4, h5, h6⟩
    · rename_i blockNum hget
      have hmem : blockNum ∈ st.inflight := List.get?_mem hget
      have hle : blockNum ≤ end_ := h1 blockNum hmem
      split at hstep
      · simp at hstep
      · rename_i r hscan
        have hcfg : r.s.cfg = cfg := by rw [scanBlock_cfg _ _ _ _ _ _ hscan, h6]
        simp only [Outcome.ok.injEq] at hstep
        rw [← hstep]
        apply refill_inv
        have herase : ∀ b ∈ st.inflight.eraseIdx (i % st.inflight.length), b ≤ end_ :=
          fun b hb => h1 b (List.mem_of_mem_eraseIdx hb)
        by_cases herr : r.err = true
        · simp only [herr, if_true]
          exact ⟨herase, h2, h3, h4, h5, hcfg⟩
        · simp only [herr, Bool.false_eq_true, if_false]
          by_cases hgt : blockNum > st.maxScannedBlock
          · simp only [hgt, if_true]
            refine ⟨herase, ?_, hle, ?_, h5, hcfg⟩
            · show c ≤ blockNum
              omega
            · intro v hv
              have := h4 v hv
              refine ⟨this.1, ?_⟩
              show v ≤ blockNum
              omega
          · simp only [hgt, if_false]
            exact ⟨herase, h2, h3, h4, h5, hcfg⟩
  | tick fail =>
    simp only [scanRangeStep] at hstep
    split at hstep
    · split at hstep
      · split at hstep
        · simp only [Outcome.ok.injEq] at hstep
          rw [← hstep]
          exact ⟨h1, h2, h3, h4, h5, h6⟩
        · simp only [Outcome.ok.injEq] at hstep
          rw [← hstep]
          refine ⟨h1, h2, h3, ?_, ?_, h6⟩
          · intro v hv
            simp only [List.mem_append, List.mem_singleton] at hv
            rcases hv with hv | hv
            · exact h4 v hv
            · rw [hv]
              exact ⟨h2, le_refl _⟩
          · rw [List.pairwise_append]
            refine ⟨h5, List.pairwise_singleton _ _, ?_⟩
            intro a ha b hb
            simp only [List.mem_singleton] at hb
            rw [hb]
            exact (h4 a ha).2
      · simp only [Outcome.ok.injEq] at hstep
        rw [← hstep]
        exact ⟨h1, h2, h3, h4, h5, h6⟩
    · simp only [Outcome.ok.injEq] at hstep
      rw [← hstep]
      exact ⟨h1, h2, h3, h4, h5, h6⟩

/-- Along every schedule, a range `[c + 1, end_]` with `c <= end_` keeps its invariant:
what the ticker writes is non-decreasing and lies in `[c, end_]`. -/
theorem scanRangeRun_inv (env : Env) (s : ABIScanner) (db : DB) (c end_ : Nat)
    (finality : String) (sched : List SchedEvent) (rs : RangeState) (hc : c ≤ end_)
    (hrun : scanRangeRun env s db (c + 1) end_ finality sched = Outcome.ok rs) :
    RangeInv s.cfg c end_ rs := by
  unfold scanRangeRun at hrun
  split at hrun
  · simp at hrun
  · rename_i st0 hinit
    have h0 : RangeInv s.cfg c end_ st0 := by
      unfold scanRangeInit at hinit
      split at hinit
      · simp at hinit
      · simp only [Outcome.ok.injEq] at hinit
        rw [← hinit]
        apply refill_inv
        refine ⟨?_, ?_, ?_, ?_, List.Pairwise.nil, rfl⟩
        · intro b hb
          simp at hb
        · simp
        · simp
          exact hc
        · intro v hv
          simp at hv
    exact foldOutcome_invariant (RangeInv s.cfg c end_) _
      (fun b a b' hb hstep => scanRangeStep_inv env finality s.cfg c end_ b b' a hb hstep)
      sched st0 rs h0 hrun

/-- Without wrap-around the batch starts right after the cursor and ends between the
cursor and the safe head. -/
theorem stableBatch_bounds (cfg : ScannerConfig) (cursor safeHead : Nat)
    (hlt : cursor < safeHead) (hfit : safeHead + toUint64 cfg.BatchSize < 2 ^ 64) :
    (stableBatch cfg cursor safeHead).1 = cursor + 1 ∧
    cursor ≤ (stableBatch cfg cursor safeHead).2 ∧
    (stableBatch cfg cursor safeHead).2 ≤ safeHead ∧
    (stableBatch cfg cursor safeHead).2
      = min (cursor + toUint64 cfg.BatchSize) safeHead := by
  have hform : addU64 cursor 1 = cursor + 1 := by
    unfold addU64
    apply Nat.mod_eq_of_lt
    omega
  have hsum : addU64 (cursor + 1) (toUint64 cfg.BatchSize)
      = cursor + 1 + toUint64 cfg.BatchSize := by
    unfold addU64
    apply Nat.mod_eq_of_lt
    omega
  have hto : subU64 (cursor + 1 + toUint64 cfg.BatchSize) 1
      = cursor + toUint64 cfg.BatchSize := by
    unfold subU64
    have h1 : (1 : Nat) % 2 ^ 64 = 1 := by norm_num
    rw [h1]
    have h2 : cursor + 1 + toUint64 cfg.BatchSize + 2 ^ 64 - 1
        = (cursor + toUint64 cfg.BatchSize) + 2 ^ 64 := by omega
    rw [h2, Nat.add_mod_right]
    apply Nat.mod_eq_of_lt
    omega
  unfold stableBatch
  simp only [hform, hsum, hto]
  refine ⟨trivial, ?_, ?_, ?_⟩
  · split <;> omega
  · split <;> omega
  · split
    · rw [Nat.min_eq_right]
      omega
    · rw [Nat.min_eq_left]
      omega

/-- Appending values that start at the cursor to a non-decreasing record that ends below
the cursor gives a non-decreasing record. -/
theorem pairwise_le_extend (c0 c : Nat) (l1 l2 : List Nat)
    (h1 : (c0 :: l1).Pairwise (fun a b => a ≤ b)) (hc : c0 ≤ c) (hl1 : ∀ v ∈ l1, v ≤ c)
    (h2 : l2.Pairwise (fun a b => a ≤ b)) (hl2 : ∀ v ∈ l2, c ≤ v) :
    (c0 :: (l1 ++ l2)).Pairwise (fun a b => a ≤ b) := by
  rw [List.pairwise_cons] at h1 ⊢
  refine ⟨?_, ?_⟩
  · intro v hv
    rw [List.mem_append] at hv
    rcases hv with hv | hv
    · exact h1.1 v hv
    · exact le_trans hc (hl2 v hv)
  · rw [List.pairwise_append]
    exact ⟨h1.2, h2, fun a ha b hb => le_trans (hl1 a ha) (hl2 b hb)⟩

/-- Every pass of the stable worker keeps its invariant, as long as the batch bound does
not wrap around. -/
theorem stableRound_inv (cfg : ScannerConfig) (c0 : Nat) (st : StableState)
    (r : StableRound) (hinv : StableInv cfg c0 st)
    (hfit : ∀ h, r.safeHead = some h → h + toUint64 cfg.BatchSize < 2 ^ 64) :
    StableInv cfg c0 (stableRound st r) := by
  obtain ⟨hcfg, hsorted, hloop⟩ := hinv
  unfold stableRound
  by_cases hphase : st.phase = Phase.looping
  · simp only [hphase, ne_eq, not_true_eq_false, if_false]
    obtain ⟨hc0, hbelow⟩ := hloop hphase
    cases hsafe : r.safeHead with
    | none => exact ⟨hcfg, hsorted, hloop⟩
    | some safeHead =>
      simp only []
      by_cases hge : st.cursor ≥ safeHead
      · simp only [hge, if_true]
        exact ⟨hcfg, hsorted, hloop⟩
      · simp only [hge, if_false]
        have hlt : st.cursor < safeHead := by omega
        obtain ⟨hform, hlo, hhi, _⟩ :=
          stableBatch_bounds st.s.cfg st.cursor safeHead hlt (by rw [hcfg]; exact hfit _ hsafe)
        cases hrun : scanRangeRun r.env st.s st.db (stableBatch st.s.cfg st.cursor safeHead).1
            (stableBatch st.s.cfg st.cursor safeHead).2 "safe" r.sched with
        | panic =>
          simp only []
          exact ⟨hcfg, hsorted, fun h => by simp at h⟩
        | ok rs =>
          simp only []
          rw [hform] at hrun
          obtain ⟨_, r2, r3, r4, r5, r6⟩ :=
            scanRangeRun_inv r.env st.s st.db st.cursor _ "safe" r.sched rs hlo hrun
          have hrcfg : rs.s.cfg = cfg := by rw [r6, hcfg]
          have hrlo : ∀ v ∈ rs.written, st.cursor ≤ v := fun v hv => (r4 v hv).1
          have hrhi : ∀ v ∈ rs.written, v ≤ (stableBatch st.s.cfg st.cursor safeHead).2 :=
            fun v hv => le_trans (r4 v hv).2 r3
          generalize (stableBatch st.s.cfg st.cursor safeHead).2 = batchEnd at hlo hrhi ⊢
          have hcur : c0 ≤ batchEnd := le_trans hc0 hlo
          unfold StableInv
          by_cases hret : rs.returned batchEnd = true
          · simp only [hret, if_true]
            unfold UpdateScanProgress
            by_cases hw : r.writeFails = true
            · simp only [hw, if_true]
              refine ⟨hrcfg, ?_, fun _ => ⟨hcur, ?_⟩⟩
              · exact pairwise_le_extend c0 st.cursor _ _ hsorted hc0 hbelow r5 hrlo
              · intro v hv
                rw [List.mem_append] at hv
                rcases hv with hv | hv
                · exact le_trans (hbelow v hv) hlo
                · exact hrhi v hv
            · simp only [hw, if_false]
              refine ⟨hrcfg, ?_, fun _ => ⟨hcur, ?_⟩⟩
              · rw [List.append_assoc]
                apply pairwise_le_extend c0 st.cursor _ _ hsorted hc0 hbelow
                · rw [List.pairwise_append]
                  refine ⟨r5, List.pairwise_singleton _ _, ?_⟩
                  intro a ha b hb
                  simp only [List.mem_singleton] at hb
                  rw [hb]
                  exact hrhi a ha
                · intro v hv
                  simp only [List.mem_append, List.mem_singleton] at hv
                  rcases hv with hv | hv
                  · exact hrlo v hv
                  · rw [hv]
                    exact hlo
              · intro v hv
                have hv' : v ∈ st.written ++ rs.written ++ [batchEnd] := hv
                simp only [List.mem_append, List.mem_singleton] at hv'
                rcases hv' with (hv' | hv') | hv'
                · exact le_trans (hbelow v hv') hlo
                · exact hrhi v hv'
                · rw [hv']
                  exact le_refl _
          · simp only [hret, Bool.false_eq_true, if_false]
            refine ⟨hrcfg, ?_, fun h => by simp at h⟩
            exact pairwise_le_extend c0 st.cursor _ _ hsorted hc0 hbelow r5 hrlo
  · simp only [hphase, ne_eq, not_false_eq_true, if_true]
    exact ⟨hcfg, hsorted, hloop⟩

/-- Any number of passes of the stable worker keep its invariant. -/
theorem foldl_stableRound_inv (cfg : ScannerConfig) (c0 : Nat) :
    ∀ (rounds : List StableRound) (st : StableState), StableInv cfg c0 st →
      (∀ r ∈ rounds, ∀ h, r.safeHead = some h → h + toUint64 cfg.BatchSize < 2 ^ 64) →
      StableInv cfg c0 (rounds.foldl stableRound st) := by
  intro rounds
  induction rounds with
  | nil => intro st h _; exact h
  | cons r rest ih =>
    intro st h hfit
    simp only [List.foldl_cons]
    apply ih
    · exact stableRound_inv cfg c0 st r h (hfit r (List.mem_cons_self _ _))
    · intro r' hr'
      exact hfit r' (List.mem_cons_of_mem _ hr')

/-- After a successful `Start` the `stable_scan` row holds the cursor handed to the
stable worker. -/
theorem Start_row (cfg : ScannerConfig) (getFails initFails : Bool) (db db0 : DB)
    (cursor : Nat) (h : Start cfg getFails initFails db = Except.ok (cursor, db0)) :
    GetScanProgress false db0 "stable_scan" = Except.ok cursor := by
  unfold Start at h
  cases hget : GetScanProgress getFails db "stable_scan" with
  | error e => simp [hget] at h
  | ok stableCursor =>
    simp only [hget] at h
    have hgf : getFails = false := by
      cases getFails with
      | false => rfl
      | true => simp [GetScanProgress] at hget
    subst hgf
    by_cases hz : stableCursor = 0
    · simp only [hz, if_true] at h
      unfold InitScanProgress createRow at h
      by_cases hi : initFails = true
      · simp [hi] at h
      · simp only [hi, Bool.false_eq_true, if_false] at h
        by_cases hany : (scanProgressIndexes.any fun collide =>
            db.scanProgress.any (collide
              ⟨"stable_scan", toUint64 cfg.StartBlock, "running", ""⟩)) = true
        · simp [hany] at h
        · simp only [hany, Bool.false_eq_true, if_false, Except.ok.injEq,
            Prod.mk.injEq, true_and] at h
          obtain ⟨hc, hd⟩ := h
          rw [← hd, ← hc]
          unfold GetScanProgress
          simp only [Bool.false_eq_true, if_false]
          have hnone : db.scanProgress.find? (fun p => p.TaskName == "stable_scan") = none := by
            rw [List.find?_eq_none]
            intro p hp hpe
            apply hany
            simp only [scanProgressIndexes, List.any_cons, List.any_nil, Bool.or_false,
              List.any_eq_true]
            refine ⟨p, hp, ?_⟩
            simp only [beq_iff_eq] at hpe ⊢
            exact hpe.symm
          rw [List.find?_append, hnone]
          simp
    · simp only [hz, if_false, Except.ok.injEq, Prod.mk.injEq] at h
      rw [← h.1, ← h.2]
      exact hget

set_option maxRecDepth 100000 in
/-- C9, refuted at an explicit run: with `batch_size = -1` and `start_block = 100` on a
fresh database, `Start` writes the initial row 100, and the first pass of the stable
worker (safe head 105) scans the empty range [101, 99] and writes 99. -/
theorem runStableWorker_negative_batch_size_decreases :
    Start Sample.scannerNegBatch.cfg false false Sample.emptyDB
      = Except.ok (100, ⟨[], [], [⟨"stable_scan", 100, "running", ""⟩]⟩) ∧
    stableBatch Sample.scannerNegBatch.cfg 100 105 = (101, 99) ∧
    (runStableWorker Sample.scannerNegBatch ⟨[], [], [⟨"stable_scan", 100, "running", ""⟩]⟩
      100 [⟨Sample.env, some 105, [], false⟩]).written = [99] ∧
    GetScanProgress false
      (runStableWorker Sample.scannerNegBatch
        ⟨[], [], [⟨"stable_scan", 100, "running", ""⟩]⟩ 100
        [⟨Sample.env, some 105, [], false⟩]).db "stable_scan" = Except.ok 99 ∧
    ¬ List.Pairwise (fun a b : Nat => a ≤ b) (100 :: [99]) :=
  ⟨by rfl, by rfl, by rfl, by rfl, by decide⟩

/-- C9, amended.  Over a single run of the ABI scanner in which the batch bound never
wraps around (`safe head + uint64(batch_size) < 2 ^ 64` at every pass, as for every
non-negative `batch_size` and chain height below `2 ^ 64 - batch_size`), the sequence of
values written to `scan_progress[stable_scan].last_scanned_block` (the initial row found
or inserted by `Start`, every checkpoint-ticker write inside `scanRange`, every
post-batch write of the stable worker) is non-decreasing, for every schedule of the
ranges, every outcome of the block scans and of the storage engine. -/
theorem stable_scan_writes_nondecreasing (s : ABIScanner) (getFails initFails : Bool)
    (db db0 : DB) (cursor : Nat) (rounds : List StableRound)
    (hstart : Start s.cfg getFails initFails db = Except.ok (cursor, db0))
    (hfit : ∀ r ∈ rounds, ∀ h, r.safeHead = some h →
      h + toUint64 s.cfg.BatchSize < 2 ^ 64) :
    GetScanProgress false db0 "stable_scan" = Except.ok cursor ∧
    List.Pairwise (fun a b => a ≤ b)
      (cursor :: (runStableWorker s db0 cursor rounds).written) := by
  refine ⟨Start_row s.cfg getFails initFails db db0 cursor hstart, ?_⟩
  have h0 : StableInv s.cfg cursor ⟨cursor, s, db0, [], Phase.looping⟩ :=
    ⟨rfl, List.pairwise_singleton _ _, fun _ => ⟨le_refl _, fun v hv => by simp at hv⟩⟩
  exact (foldl_stableRound_inv s.cfg cursor rounds _ h0 hfit).2.1

set_option maxRecDepth 100000 in
/-- C9 amended, at the sample scanner (`start_block = 100`, `batch_size = 5`, interval 2,
two consumers) on a fresh database with safe head 105: the ticker writes 102 in the
middle of the batch [101, 105] and the worker writes 105 after it. -/
theorem stable_scan_writes_nondecreasing_witness :
    (runStableWorker Sample.scanner ⟨[], [], [⟨"stable_scan", 100, "running", ""⟩]⟩ 100
      [⟨Sample.env, some 105,
        [SchedEvent.finish 0, SchedEvent.finish 0, SchedEvent.tick false,
          SchedEvent.finish 1, SchedEvent.finish 0, SchedEvent.finish 0], false⟩]).written
      = [102, 105] ∧
    (GetScanProgress false ⟨[], [], [⟨"stable_scan", 100, "running", ""⟩]⟩ "stable_scan"
        = Except.ok 100 ∧
      List.Pairwise (fun a b => a ≤ b)
        (100 :: (runStableWorker Sample.scanner
          ⟨[], [], [⟨"stable_scan", 100, "running", ""⟩]⟩ 100
          [⟨Sample.env, some 105,
            [SchedEvent.finish 0, SchedEvent.finish 0, SchedEvent.tick false,
              SchedEvent.finish 1, SchedEvent.finish 0, SchedEvent.finish 0],
            false⟩]).written)) :=
  ⟨by rfl,
    stable_scan_writes_nondecreasing Sample.scanner false false Sample.emptyDB
      ⟨[], [], [⟨"stable_scan", 100, "running", ""⟩]⟩ 100
      [⟨Sample.env, some 105,
        [SchedEvent.finish 0, SchedEvent.finish 0, SchedEvent.tick false,
          SchedEvent.finish 1, SchedEvent.finish 0, SchedEvent.finish 0], false⟩]
      (by rfl)
      (by
        intro r hr h hh
        simp only [List.mem_singleton] at hr
        subst hr
        simp only [Option.some.injEq] at hh
        subst hh
        decide)⟩

/-! ### Accounting of a range -/

/-- Removing the element at a position leaves, with that element, the same elements. -/
theorem perm_cons_eraseIdx {α : Type} :
    ∀ (l : List α) (k : Nat) (b : α), l.get? k = some b → l.Perm (b :: l.eraseIdx k) := by
  intro l
  induction l with
  | nil => intro k b h; simp at h
  | cons a rest ih =>
    intro k b h
    cases k with
    | zero =>
      simp only [List.get?_cons_zero, Option.some.injEq] at h
      subst h
      simp
    | succ n =>
      simp only [List.get?_cons_succ] at h
      simp only [List.eraseIdx_cons_succ]
      exact ((ih n b h).cons a).trans (List.Perm.swap b a _)

/-- A loop over a concatenation is the loop over the first part followed by the loop
over the second. -/
theorem foldOutcome_append {α β : Type} (f : β → α → Outcome β) :
    ∀ (l1 l2 : List α) (b : β),
      foldOutcome f b (l1 ++ l2) =
        match foldOutcome f b l1 with
        | Outcome.ok b' => foldOutcome f b' l2
        | Outcome.panic => Outcome.panic := by
  intro l1
  induction l1 with
  | nil => intro l2 b; rfl
  | cons a rest ih =>
    intro l2 b
    simp only [List.cons_append, foldOutcome]
    cases f b a with
    | ok b' => exact ih l2 b'
    | panic => rfl

/-- Taking blocks off the channel keeps the accounting of the range, as long as the
producer cannot wrap around. -/
theorem refill_account (start end_ workers : Nat) (hend : end_ + 1 < 2 ^ 64) :
    ∀ (fuel : Nat) (st : RangeState), RangeAccount start end_ st →
      RangeAccount start end_ (refill workers end_ fuel st) := by
  intro fuel
  induction fuel with
  | zero => intro st h; exact h
  | succ n ih =>
    intro st h
    unfold refill
    split
    · rename_i hcond
      apply ih
      obtain ⟨h1, h2, h3⟩ := h
      have hnext : addU64 st.next 1 = st.next + 1 := by
        unfold addU64
        apply Nat.mod_eq_of_lt
        omega
      refine ⟨?_, ?_, ?_⟩
      · show start ≤ addU64 st.next 1
        omega
      · show addU64 st.next 1 ≤ end_ + 1
        omega
      · show (st.finished.map Prod.fst ++ (st.inflight ++ [st.next])).Perm
          (List.range' start (addU64 st.next 1 - start))
        have hlen : addU64 st.next 1 - start = (st.next - start) + 1 := by omega
        rw [hlen, List.range'_concat, ← List.append_assoc]
        have hlast : start + 1 * (st.next - start) = st.next := by omega
        rw [hlast]
        exact List.Perm.append_right _ h3
    · exact h

/-- Every event of a range keeps its accounting. -/
theorem scanRangeStep_account (env : Env) (finality : String) (start end_ : Nat)
    (st st' : RangeState) (ev : SchedEvent) (hend : end_ + 1 < 2 ^ 64)
    (h : RangeAccount start end_ st)
    (hstep : scanRangeStep env finality end_ st ev = Outcome.ok st') :
    RangeAccount start end_ st' := by
  cases ev with
  | finish i =>
    simp only [scanRangeStep] at hstep
    split at hstep
    · simp only [Outcome.ok.injEq] at hstep
      rw [← hstep]
      exact h
    · rename_i blockNum hget
      split at hstep
      · simp at hstep
      · rename_i r hscan
        simp only [Outcome.ok.injEq] at hstep
        rw [← hstep]
        apply refill_account start end_ _ hend
        obtain ⟨h1, h2, h3⟩ := h
        have hperm : ∀ ok : Bool, (List.map Prod.fst (st.finished ++ [(blockNum, ok)]) ++
            st.inflight.eraseIdx (i % st.inflight.length)).Perm
            (List.range' start (st.next - start)) := by
          intro ok
          refine List.Perm.trans ?_ h3
          rw [List.map_append, List.append_assoc]
          apply List.Perm.append_left
          exact (perm_cons_eraseIdx st.inflight _ blockNum hget).symm
        by_cases herr : r.err = true
        · simp only [herr, if_true]
          exact ⟨h1, h2, hperm _⟩
        · simp only [herr, Bool.false_eq_true, if_false]
          by_cases hgt : blockNum > st.maxScannedBlock
          · simp only [hgt, if_true]
            exact ⟨h1, h2, hperm _⟩
          · simp only [hgt, if_false]
            exact ⟨h1, h2, hperm _⟩
  | tick fail =>
    simp only [scanRangeStep] at hstep
    split at hstep
    · split at hstep
      · split at hstep
        · simp only [Outcome.ok.injEq] at hstep
          rw [← hstep]
          exact h
        · simp only [Outcome.ok.injEq] at hstep
          rw [← hstep]
          exact h
      · simp only [Outcome.ok.injEq] at hstep
        rw [← hstep]
        exact h
    · simp only [Outcome.ok.injEq] at hstep
      rw [← hstep]
      exact h

/-- Along every schedule a range `[start, end_]` with `start <= end_ + 1 < 2 ^ 64` keeps
its accounting; once it has returned, the blocks finished are exactly the blocks of the
range, each once. -/
theorem scanRangeRun_account (env : Env) (s : ABIScanner) (db : DB) (start end_ : Nat)
    (finality : String) (sched : List SchedEvent) (rs : RangeState)
    (hstart : start ≤ end_ + 1) (hend : end_ + 1 < 2 ^ 64)
    (hrun : scanRangeRun env s db start end_ finality sched = Outcome.ok rs) :
    RangeAccount start end_ rs ∧
    (rs.returned end_ = true →
      (rs.finished.map Prod.fst).Perm (List.range' start (end_ + 1 - start))) := by
  have hacc : RangeAccount start end_ rs := by
    unfold scanRangeRun at hrun
    split at hrun
    · simp at hrun
    · rename_i st0 hinit
      have h0 : RangeAccount start end_ st0 := by
        unfold scanRangeInit at hinit
        split at hinit
        · simp at hinit
        · simp only [Outcome.ok.injEq] at hinit
          rw [← hinit]
          apply refill_account start end_ _ hend
          refine ⟨le_refl _, hstart, ?_⟩
          simp
      exact foldOutcome_invariant (RangeAccount start end_) _
        (fun b a b' hb hstep => scanRangeStep_account env finality start end_ b b' a hend hb
          hstep) sched st0 rs h0 hrun
  refine ⟨hacc, ?_⟩
  intro hret
  obtain ⟨h1, h2, h3⟩ := hacc
  unfold RangeState.returned at hret
  simp only [Bool.and_eq_true, List.isEmpty_iff, Bool.not_eq_true', decide_eq_false_iff_not,
    not_le] at hret
  obtain ⟨hempty, hnext⟩ := hret
  have hn : rs.next = end_ + 1 := by omega
  rw [hempty, List.append_nil, hn] at h3
  exact h3

/-! ### Batch selection of the stable worker -/

/-- The batch bounds when the three `uint64` operations do not wrap around. -/
theorem stableBatch_eq (cfg : ScannerConfig) (cursor safeHead : Nat)
    (hov : cursor + 1 + toUint64 cfg.BatchSize < 2 ^ 64)
    (hpos : 1 ≤ toUint64 cfg.BatchSize) :
    stableBatch cfg cursor safeHead
      = (cursor + 1, min (cursor + toUint64 cfg.BatchSize) safeHead) := by
  have hform : addU64 cursor 1 = cursor + 1 := by
    unfold addU64
    apply Nat.mod_eq_of_lt
    omega
  have hsum : addU64 (cursor + 1) (toUint64 cfg.BatchSize)
      = cursor + 1 + toUint64 cfg.BatchSize := by
    unfold addU64
    exact Nat.mod_eq_of_lt hov
  have hto : subU64 (cursor + 1 + toUint64 cfg.BatchSize) 1
      = cursor + toUint64 cfg.BatchSize := by
    unfold subU64
    have h1 : (1 : Nat) % 2 ^ 64 = 1 := by norm_num
    rw [h1]
    have h2 : cursor + 1 + toUint64 cfg.BatchSize + 2 ^ 64 - 1
        = (cursor + toUint64 cfg.BatchSize) + 2 ^ 64 := by omega
    rw [h2, Nat.add_mod_right]
    apply Nat.mod_eq_of_lt
    omega
  unfold stableBatch
  simp only [hform, hsum, hto, Prod.mk.injEq, true_and]
  split
  · rw [Nat.min_eq_right]
    omega
  · rw [Nat.min_eq_left]
    omega

/-- The conversion `uint64(x)` of a non-negative `int` is the number itself. -/
theorem toUint64_of_nonneg (x : Int) (h0 : 0 ≤ x) (h1 : x < 2 ^ 64) :
    toUint64 x = x.toNat := by
  unfold toUint64
  rw [Int.emod_eq_of_lt h0 h1]

/-- C19.  Stable batch selection: at the head of the loop with cursor `S`, safe head `H`,
`S < H`, `batch_size >= 1` and no `uint64` overflow in `S + 1 + batch_size`, the worker
runs the range scanner on exactly `[S + 1, min (S + batch_size) H]` with finality safe;
the range is non-empty, its end is `<= H` and `> S`; once the range has returned, the
blocks scanned are the blocks of that range, each once, and the cursor equals its
end. -/
theorem stableRound_batch_selection (st : StableState) (r : StableRound) (S H : Nat)
    (hphase : st.phase = Phase.looping) (hS : st.cursor = S) (hH : r.safeHead = some H)
    (hlt : S < H) (hbs : 1 ≤ st.s.cfg.BatchSize)
    (hov : (S : Int) + 1 + st.s.cfg.BatchSize < 2 ^ 64) :
    stableBatch st.s.cfg S H = (S + 1, min (S + st.s.cfg.BatchSize.toNat) H) ∧
    S + 1 ≤ min (S + st.s.cfg.BatchSize.toNat) H ∧
    min (S + st.s.cfg.BatchSize.toNat) H ≤ H ∧
    S < min (S + st.s.cfg.BatchSize.toNat) H ∧
    (scanRangeRun r.env st.s st.db (S + 1) (min (S + st.s.cfg.BatchSize.toNat) H) "safe"
        r.sched = Outcome.panic → (stableRound st r).phase = Phase.crashed) ∧
    (∀ rs : RangeState,
      scanRangeRun r.env st.s st.db (S + 1) (min (S + st.s.cfg.BatchSize.toNat) H) "safe"
        r.sched = Outcome.ok rs →
      (rs.returned (min (S + st.s.cfg.BatchSize.toNat) H) = false →
        (stableRound st r).phase = Phase.inRange ∧ (stableRound st r).cursor = S) ∧
      (rs.returned (min (S + st.s.cfg.BatchSize.toNat) H) = true →
        (rs.finished.map Prod.fst).Perm
          (List.range' (S + 1) (min (S + st.s.cfg.BatchSize.toNat) H - S)) ∧
        (stableRound st r).cursor = min (S + st.s.cfg.BatchSize.toNat) H ∧
        (stableRound st r).phase = Phase.looping ∧
        (stableRound st r).s = rs.s ∧
        (stableRound st r).db
          = (UpdateScanProgress r.writeFails rs.db "stable_scan"
              (min (S + st.s.cfg.BatchSize.toNat) H)).2)) := by
  have hbs0 : (0 : Int) ≤ st.s.cfg.BatchSize := by omega
  have hbs1 : st.s.cfg.BatchSize < 2 ^ 64 := by omega
  have hu : toUint64 st.s.cfg.BatchSize = st.s.cfg.BatchSize.toNat :=
    toUint64_of_nonneg _ hbs0 hbs1
  have hpos : 1 ≤ st.s.cfg.BatchSize.toNat := by omega
  have hovn : S + 1 + st.s.cfg.BatchSize.toNat < 2 ^ 64 := by omega
  have hbatch : stableBatch st.s.cfg S H = (S + 1, min (S + st.s.cfg.BatchSize.toNat) H) := by
    have := stableBatch_eq st.s.cfg S H (by rw [hu]; exact hovn) (by rw [hu]; exact hpos)
    rw [hu] at this
    exact this
  have hne : S + 1 ≤ min (S + st.s.cfg.BatchSize.toNat) H := by
    rw [Nat.le_min]
    omega
  have hle : min (S + st.s.cfg.BatchSize.toNat) H ≤ H := Nat.min_le_right _ _
  have hend : min (S + st.s.cfg.BatchSize.toNat) H + 1 < 2 ^ 64 := by
    have := Nat.min_le_left (S + st.s.cfg.BatchSize.toNat) H
    omega
  refine ⟨hbatch, hne, hle, by omega, ?_, ?_⟩
  · intro hpanic
    unfold stableRound
    simp only [hphase, ne_eq, not_true_eq_false, if_false, hH, hS, hbatch, ge_iff_le,
      Nat.not_le.mpr hlt, hpanic]
  · intro rs hrun
    generalize hE : min (S + st.s.cfg.BatchSize.toNat) H = e at *
    refine ⟨?_, ?_⟩
    · intro hret
      unfold stableRound
      simp only [hphase, ne_eq, not_true_eq_false, if_false, hH, hS, hbatch, ge_iff_le,
        Nat.not_le.mpr hlt, hrun, hret, Bool.false_eq_true]
      exact ⟨trivial, trivial⟩
    · intro hret
      have hperm := (scanRangeRun_account r.env st.s st.db (S + 1) e "safe" r.sched rs
        (by omega) hend hrun).2 hret
      have hlen : e + 1 - (S + 1) = e - S := by omega
      rw [hlen] at hperm
      refine ⟨hperm, ?_⟩
      unfold stableRound UpdateScanProgress
      simp only [hphase, ne_eq, not_true_eq_false, if_false, hH, hS, hbatch, ge_iff_le,
        Nat.not_le.mpr hlt, hrun, hret, if_true]
      cases r.writeFails <;> simp

set_option maxRecDepth 100000 in
/-- C19, at cursor 100, safe head 105 and `batch_size = 5`: the batch is [101, 105], and
once its five blocks are finished the cursor is 105. -/
theorem stableRound_batch_selection_witness :
    stableBatch Sample.scanner.cfg 100 105 = (101, 105) ∧
    (stableRound ⟨100, Sample.scanner, Sample.emptyDB, [], Phase.looping⟩
      ⟨Sample.env, some 105,
        [SchedEvent.finish 0, SchedEvent.finish 0, SchedEvent.finish 0, SchedEvent.finish 0,
          SchedEvent.finish 0], false⟩).cursor = 105 ∧
    stableBatch Sample.scanner.cfg 100 105
      = (100 + 1, min (100 + Sample.scanner.cfg.BatchSize.toNat) 105) ∧
    100 + 1 ≤ min (100 + Sample.scanner.cfg.BatchSize.toNat) 105 :=
  ⟨by rfl, by rfl,
    (stableRound_batch_selection ⟨100, Sample.scanner, Sample.emptyDB, [], Phase.looping⟩
      ⟨Sample.env, some 105,
        [SchedEvent.finish 0, SchedEvent.finish 0, SchedEvent.finish 0, SchedEvent.finish 0,
          SchedEvent.finish 0], false⟩ 100 105 rfl rfl rfl (by decide) (by decide)
      (by decide)).1,
    (stableRound_batch_selection ⟨100, Sample.scanner, Sample.emptyDB, [], Phase.looping⟩
      ⟨Sample.env, some 105,
        [SchedEvent.finish 0, SchedEvent.finish 0, SchedEvent.finish 0, SchedEvent.finish 0,
          SchedEvent.finish 0], false⟩ 100 105 rfl rfl rfl (by decide) (by decide)
      (by decide)).2.1⟩

/-! ### Cache misses -/

/-- C16.  A log whose lowercased emitter is no key of the pool cache is not handled by
`handleSwapLog`, and the database comes back as it was, whatever it holds; and every
row `handleSwapLog` hands to `SaveSwapEvent` carries the `pool_address` of the pool the
cache holds under the lowercased emitter of the log. -/
theorem handleSwapLog_pool_in_cache (lib : EthLib) (abis : List (String × ABI))
    (s : ABIScanner) (db : DB) (fault : Fault) (blockNum : Nat) (blockTimestamp : Int)
    (txHash : String) (log : Log) (finality : String) :
    (s.poolCache.lookup (toLower (lib.addressHex log.Address)) = none →
      handleSwapLog lib abis s db fault blockNum blockTimestamp txHash log finality
        = Outcome.ok (false, db)) ∧
    (∀ db' : DB,
      handleSwapLog lib abis s db fault blockNum blockTimestamp txHash log finality
        = Outcome.ok (true, db') →
      ∃ (pool : Pool) (swap : SwapEvent),
        s.poolCache.lookup (toLower (lib.addressHex log.Address)) = some pool ∧
        swap.PoolAddress = pool.PoolAddress ∧
        swap.TxHash = txHash ∧ swap.LogIndex = log.Index ∧
        SaveSwapEvent fault db swap = (none, db') ∧
        (fault.create = false → db'.swapEvents = db.swapEvents ++ [swap.stored])) := by
  constructor
  · intro hmiss
    unfold handleSwapLog
    simp only [hmiss]
  · intro db' hacc
    cases hpool : s.poolCache.lookup (toLower (lib.addressHex log.Address)) with
    | none =>
      unfold handleSwapLog at hacc
      simp [hpool] at hacc
    | some pool =>
      obtain ⟨masterAddr, contractABI, fields, tokenIn, tokenOut, amountIn, amountOut,
        topic1, topic2, hm, habi, hf, hdir, hsave⟩ :=
        handleSwapLog_handled lib abis s db db' fault blockNum blockTimestamp txHash log
          finality pool hpool hacc
      refine ⟨pool, _, rfl, rfl, rfl, rfl, hsave, ?_⟩
      intro hc
      have h := hsave
      rw [SaveSwapEvent_eq, hc] at h
      simp at h
      rw [← h]

set_option maxRecDepth 100000 in
/-- C16, at a log whose emitter `0x99` is not cached: it is not handled and the database
is untouched. -/
theorem handleSwapLog_pool_in_cache_witness :
    Sample.scanner.poolCache.lookup (toLower (Sample.lib.addressHex Sample.strangerLog.Address))
      = none ∧
    handleSwapLog Sample.lib Sample.abis Sample.scanner Sample.dbAt199 Fault.clean 121 1700
      "0xff" Sample.strangerLog "safe" = Outcome.ok (false, Sample.dbAt199) :=
  ⟨by rfl,
    (handleSwapLog_pool_in_cache Sample.lib Sample.abis Sample.scanner Sample.dbAt199
      Fault.clean 121 1700 "0xff" Sample.strangerLog "safe").1 (by rfl)⟩

/-! ### Width of the amount columns -/

/-- The character of a decimal digit is a digit. -/
theorem digitChar_isDigit (n : Nat) (h : n < 10) : (Nat.digitChar n).isDigit = true := by
  interval_cases n <;> rfl

/-- The decimal conversion only produces digits. -/
theorem toDigitsCore_isDigit : ∀ (f n : Nat) (ds : List Char),
    (∀ c ∈ ds, c.isDigit = true) → ∀ c ∈ Nat.toDigitsCore 10 f n ds, c.isDigit = true := by
  intro f
  induction f with
  | zero =>
    intro n ds h c hc
    simp only [Nat.toDigitsCore] at hc
    exact h c hc
  | succ f ih =>
    intro n ds h c hc
    simp only [Nat.toDigitsCore] at hc
    have hd : (Nat.digitChar (n % 10)).isDigit = true :=
      digitChar_isDigit _ (Nat.mod_lt _ (by decide))
    have hcons : ∀ c ∈ Nat.digitChar (n % 10) :: ds, c.isDigit = true := by
      intro c hc
      rcases List.mem_cons.mp hc with h1 | h1
      · rw [h1]
        exact hd
      · exact h c h1
    split at hc
    · exact hcons c hc
    · exact ih _ _ hcons c hc

/-- The decimal text of a natural number below `2 ^ 256` is an unsigned decimal of at
most 78 digits. -/
theorem repr_unsignedDecimal78 (n : Nat) (h : n < 2 ^ 256) :
    UnsignedDecimal78 (Nat.repr n) := by
  refine ⟨?_, ?_, ?_⟩
  · intro c hc
    simp only [Nat.repr, Nat.toDigits, List.asString] at hc
    exact toDigitsCore_isDigit _ _ [] (by simp) c hc
  · simp only [Nat.repr, Nat.toDigits, List.asString, String.length, Nat.toDigitsCore]
    split
    · simp
    · rw [Nat.toDigitsCore_lens_eq]
      omega
  · apply Nat.repr_length n 78 (by decide)
    have : (2 : Nat) ^ 256 < 10 ^ 78 := by norm_num
    omega

/-- The decimal text `String()` of a non-negative big integer is that of its value. -/
theorem toString_of_nonneg (v : Int) (h : 0 ≤ v) : toString v = Nat.repr v.toNat := by
  obtain ⟨n, rfl⟩ := Int.eq_ofNat_of_zero_le h
  rfl

/-- The two amounts `swapDirection` returns from 256-bit payload integers are unsigned
decimals of at most 78 digits. -/
theorem swapDirection_amounts_fit (pool : Pool) (fields : Fields)
    (tokenIn tokenOut amountIn amountOut : String)
    (hbound : ∀ k v, bigIntField fields k = some v →
      (pool.PoolType = "range" → -(2 ^ 255) ≤ v ∧ v < 2 ^ 255) ∧
      (pool.PoolType ≠ "range" → 0 ≤ v ∧ v < 2 ^ 256))
    (h : swapDirection pool fields = some (tokenIn, tokenOut, amountIn, amountOut)) :
    UnsignedDecimal78 amountIn ∧ UnsignedDecimal78 amountOut := by
  have habs : ∀ k v, pool.PoolType = "range" → bigIntField fields k = some v →
      UnsignedDecimal78 (toString v.natAbs) := by
    intro k v hr hk
    have hb := (hbound k v hk).1 hr
    apply repr_unsignedDecimal78
    have : (2 : Nat) ^ 255 < 2 ^ 256 := by norm_num
    omega
  have hpos : ∀ k v, pool.PoolType ≠ "range" → bigIntField fields k = some v →
      UnsignedDecimal78 (toString v) := by
    intro k v hr hk
    have hb := (hbound k v hk).2 hr
    rw [toString_of_nonneg v hb.1]
    apply repr_unsignedDecimal78
    omega
  unfold swapDirection at h
  split at h
  · rename_i hr
    split at h
    · rename_i amt0 amt1 h0 h1
      split at h <;> simp only [Option.some.injEq, Prod.mk.injEq] at h
      · rw [← h.2.2.1, ← h.2.2.2]
        exact ⟨habs _ _ hr h1, habs _ _ hr h0⟩
      · rw [← h.2.2.1, ← h.2.2.2]
        exact ⟨habs _ _ hr h0, habs _ _ hr h1⟩
    · simp at h
  · rename_i hr
    split at h
    · rename_i amt0In amt1In amt0Out amt1Out h0 h1 h2 h3
      split at h <;> simp only [Option.some.injEq, Prod.mk.injEq] at h
      · rw [← h.2.2.1, ← h.2.2.2]
        exact ⟨hpos _ _ hr h0, hpos _ _ hr h3⟩
      · rw [← h.2.2.1, ← h.2.2.2]
        exact ⟨hpos _ _ hr h1, hpos _ _ hr h2⟩
    · simp at h

/-- C18.  For every swap `handleSwapLog` persists for a cached pool from a payload whose
big integers are 256-bit (signed two's-complement for a range pool, unsigned
otherwise), `amount_in` and `amount_out` are unsigned decimal strings, without a sign
character, of at most 78 digits. -/
theorem handleSwapLog_amounts_fit (lib : EthLib) (abis : List (String × ABI))
    (s : ABIScanner) (db db' : DB) (fault : Fault) (blockNum : Nat) (blockTimestamp : Int)
    (txHash : String) (log : Log) (finality : String) (pool : Pool)
    (hpool : s.poolCache.lookup (toLower (lib.addressHex log.Address)) = some pool)
    (hbound : ∀ (contractABI : ABI) (fields : Fields),
      lib.unpackIntoMap contractABI "Swap" log.Data = some fields →
      ∀ k v, bigIntField fields k = some v →
        (pool.PoolType = "range" → -(2 ^ 255) ≤ v ∧ v < 2 ^ 255) ∧
        (pool.PoolType ≠ "range" → 0 ≤ v ∧ v < 2 ^ 256))
    (hacc : handleSwapLog lib abis s db fault blockNum blockTimestamp txHash log finality
      = Outcome.ok (true, db')) :
    ∃ swap : SwapEvent,
      SaveSwapEvent fault db swap = (none, db') ∧
      (fault.create = false → db'.swapEvents = db.swapEvents ++ [swap.stored]) ∧
      swap.TxHash = txHash ∧ swap.LogIndex = log.Index ∧
      UnsignedDecimal78 swap.AmountIn ∧ UnsignedDecimal78 swap.AmountOut ∧
      swap.stored.AmountIn = swap.AmountIn ∧ swap.stored.AmountOut = swap.AmountOut := by
  obtain ⟨masterAddr, contractABI, fields, tokenIn, tokenOut, amountIn, amountOut, topic1,
    topic2, hm, habi, hf, hdir, hsave⟩ :=
    handleSwapLog_handled lib abis s db db' fault blockNum blockTimestamp txHash log
      finality pool hpool hacc
  have hfit := swapDirection_amounts_fit pool fields tokenIn tokenOut amountIn amountOut
    (hbound contractABI fields hf) hdir
  refine ⟨_, hsave, ?_, rfl, rfl, hfit.1, hfit.2, ?_, ?_⟩
  · intro hc
    have h := hsave
    rw [SaveSwapEvent_eq, hc] at h
    simp at h
    rw [← h]
  · unfold SwapEvent.stored
    split <;> rfl
  · unfold SwapEvent.stored
    split <;> rfl

/-- Every big integer the sample unpacking returns is the signed value of a payload
word. -/
theorem Sample.unpackWords_bigInt (contractABI : ABI) (name : String) (data : List Nat)
    (fields : Fields) (h : Sample.unpackWords contractABI name data = some fields) :
    ∀ k v, bigIntField fields k = some v →
      ∃ w ∈ data, v = if w < 2 ^ 255 then (w : Int) else (w : Int) - 2 ^ 256 := by
  have hmap : ∀ (l : List (String × Nat)) (k : String) (v : Int),
      bigIntField (l.map (fun p => (p.1, Sample.wordValue p.1 p.2))) k = some v →
        ∃ p ∈ l, v = if p.2 < 2 ^ 255 then (p.2 : Int) else (p.2 : Int) - 2 ^ 256 := by
    intro l
    induction l with
    | nil => intro k v hk; simp [bigIntField, List.lookup] at hk
    | cons p rest ih =>
      intro k v hk
      unfold bigIntField at hk
      simp only [List.map_cons, List.lookup] at hk
      cases hkp : (k == p.1) with
      | true =>
        simp only [hkp] at hk
        unfold Sample.wordValue at hk
        by_cases hpool : p.1 = "pool"
        · simp [hpool] at hk
        · simp only [hpool, if_false, Option.some.injEq] at hk
          exact ⟨p, List.mem_cons_self _ _, hk.symm⟩
      | false =>
        simp only [hkp] at hk
        obtain ⟨q, hq, hv⟩ := ih k v hk
        exact ⟨q, List.mem_cons_of_mem _ hq, hv⟩
  intro k v hk
  unfold Sample.unpackWords at h
  split at h
  · simp at h
  · simp only [] at h
    split at h
    · simp only [Option.some.injEq] at h
      rw [← h] at hk
      obtain ⟨p, hp, hv⟩ := hmap _ k v hk
      exact ⟨p.2, (List.of_mem_zip hp).2, hv⟩
    · simp at h

set_option maxRecDepth 100000 in
/-- C18, at the sample range log (`amount0 = -500`, `amount1 = 510`): the persisted
amounts are `510` and `500`. -/
theorem handleSwapLog_amounts_fit_witness :
    ∃ swap : SwapEvent,
      SaveSwapEvent Fault.clean Sample.emptyDB swap
        = (none, ⟨[], [⟨121, 1700, "0xaa", 3, "0xC1", "0x51", "0x52", "0xB", "0xA",
          "510", "500", "safe"⟩], []⟩) ∧
      (Fault.clean.create = false →
        (⟨[], [⟨121, 1700, "0xaa", 3, "0xC1", "0x51", "0x52", "0xB", "0xA",
          "510", "500", "safe"⟩], []⟩ : DB).swapEvents
            = Sample.emptyDB.swapEvents ++ [swap.stored]) ∧
      swap.TxHash = "0xaa" ∧ swap.LogIndex = Sample.rangeLog.Index ∧
      UnsignedDecimal78 swap.AmountIn ∧ UnsignedDecimal78 swap.AmountOut ∧
      swap.stored.AmountIn = swap.AmountIn ∧ swap.stored.AmountOut = swap.AmountOut :=
  handleSwapLog_amounts_fit Sample.lib Sample.abis Sample.scanner Sample.emptyDB _
    Fault.clean 121 1700 "0xaa" Sample.rangeLog "safe" Sample.rangePool (by rfl)
    (by
      intro contractABI fields hf k v hk
      obtain ⟨w, hw, hv⟩ := Sample.unpackWords_bigInt contractABI "Swap" _ fields hf k v hk
      have hw' : w = 2 ^ 256 - 500 ∨ w = 510 := by
        simpa [Sample.rangeLog] using hw
      refine ⟨fun _ => ?_, fun hne => absurd (by rfl) hne⟩
      rcases hw' with h | h
      · subst h
        subst hv
        norm_num
      · subst h
        subst hv
        norm_num)
    (by rfl)

/-! ### Pool creation -/

/-- What a log handled as a pool creation went through: the factory descriptor, its ABI,
the decoded payload, and the pool handed to `SavePool` and put in the cache. -/
theorem handlePoolLog_handled (lib : EthLib) (abis : List (String × ABI)) (s s' : ABIScanner)
    (db db' : DB) (fail : Bool) (blockNum : Nat) (txHash : String) (log : Log)
    (hacc : handlePoolLog lib abis s db fail blockNum txHash log
      = Outcome.ok (true, s', db')) :
    ∃ (info : factoryInfo) (contracABI : ABI) (event : Event) (data : Fields)
      (topic1 topic2 : Nat) (rest : List Nat),
      s.factoryInfoMap.lookup (toLower (lib.addressHex log.Address)) = some info ∧
      getABI abis (toLower (lib.addressHex log.Address)) = some contracABI ∧
      contracABI.Events.lookup (if info.EventName = "" then "PoolCreated" else info.EventName)
        = some event ∧
      log.Topics = event.ID :: topic1 :: topic2 :: rest ∧
      (event.Inputs.filter (fun input => input.Indexed)).length + 1 ≤ log.Topics.length ∧
      lib.unpackIntoMap contracABI
        (if info.EventName = "" then "PoolCreated" else info.EventName) log.Data
          = some data ∧
      SavePool fail db
        ⟨lib.addressHex (match data.lookup "pool" with
            | some (Value.address a) => a
            | _ => 0),
          lib.addressHex log.Address, info.PoolType, info.Version,
          lib.addressHex (bytesToAddress topic1), lib.addressHex (bytesToAddress topic2),
          (if info.FeeField ≠ "" then
            match bigIntField data info.FeeField with
            | some v => some (int64OfBig v)
            | none => none
          else none), txHash, blockNum⟩ = (none, db') ∧
      s' = { s with poolCache :=
        (toLower (lib.addressHex (match data.lookup "pool" with
            | some (Value.address a) => a
            | _ => 0)),
          ⟨lib.addressHex (match data.lookup "pool" with
            | some (Value.address a) => a
            | _ => 0),
          lib.addressHex log.Address, info.PoolType, info.Version,
          lib.addressHex (bytesToAddress topic1), lib.addressHex (bytesToAddress topic2),
          (if info.FeeField ≠ "" then
            match bigIntField data info.FeeField with
            | some v => some (int64OfBig v)
            | none => none
          else none), txHash, blockNum⟩) :: s.poolCache } := by
  unfold handlePoolLog at hacc
  simp only [] at hacc
  split at hacc
  · simp at hacc
  · rename_i info hinfo
    split at hacc
    · simp at hacc
    · rename_i contracABI habi
      split at hacc
      · simp at hacc
      · rename_i event hev
        split at hacc
        · simp at hacc
        · rename_i topic0 rest0 htop
          split at hacc
          · simp at hacc
          · rename_i hid
            split at hacc
            · simp at hacc
            · rename_i hlen
              split at hacc
              · rename_i topic1 topic2 rest
                split at hacc
                · simp at hacc
                · rename_i data hdata
                  split at hacc
                  · simp at hacc
                  · rename_i db'' hsave
                    simp only [Outcome.ok.injEq, Prod.mk.injEq, true_and] at hacc
                    obtain ⟨hs, hd⟩ := hacc
                    subst hd
                    have hid' : topic0 = event.ID := by
                      by_contra hne
                      exact hid hne
                    refine ⟨info, contracABI, event, data, topic1, topic2, rest, hinfo,
                      habi, hev, ?_, ?_, hdata, hsave, hs.symm⟩
                    · rw [htop, hid']
                    · omega
              · simp at hacc

/-- A key found in an association list is there with its value. -/
theorem lookup_mem {β : Type} :
    ∀ (l : List (String × β)) (k : String) (v : β), l.lookup k = some v →
      ∃ k', (k', v) ∈ l := by
  intro l
  induction l with
  | nil => intro k v h; simp [List.lookup] at h
  | cons p rest ih =>
    intro k v h
    simp only [List.lookup] at h
    cases hk : (k == p.1) with
    | true =>
      simp only [hk, Option.some.injEq] at h
      exact ⟨p.1, by rw [← h]; exact List.mem_cons_self _ _⟩
    | false =>
      simp only [hk] at h
      obtain ⟨k', hk'⟩ := ih k v h
      exact ⟨k', List.mem_cons_of_mem _ hk'⟩

/-- None of the nine descriptors `initFatoryInfo` builds names a fee field. -/
theorem initFatoryInfo_feeField (factories : FactoriesConfig) (k : String)
    (info : factoryInfo) (h : (initFatoryInfo factories).lookup k = some info) :
    info.FeeField = "" := by
  obtain ⟨k', hk'⟩ := lookup_mem _ k info h
  simp only [initFatoryInfo, List.mem_cons, Prod.mk.injEq, List.mem_singleton,
    List.not_mem_nil, or_false] at hk'
  rcases hk' with h | h | h | h | h | h | h | h | h <;> rw [h.2]

/-- The method `Int64` returns a big integer that fits 64 signed bits unchanged. -/
theorem int64OfBig_of_fits (v : Int) (hlo : -(2 ^ 63) ≤ v) (hhi : v < 2 ^ 63) :
    int64OfBig v = v := by
  unfold int64OfBig
  have hlow : ((v.natAbs % 2 ^ 64 : Nat) : Int) = (v.natAbs : Int) := by
    have : v.natAbs % 2 ^ 64 = v.natAbs := by
      apply Nat.mod_eq_of_lt
      omega
    rw [this]
  simp only [hlow]
  split
  · have hneg : -(v.natAbs : Int) = v := by omega
    rw [hneg]
    omega
  · have hpos : (v.natAbs : Int) = v := by omega
    rw [hpos]
    omega

set_option maxRecDepth 100000 in
/-- C15, refuted at explicit logs: with the factory map `initFatoryInfo` builds, a
PoolCreated log whose payload carries `fee = 30` is accepted and the pool is persisted
with `fee_rate` null; so is the pool of a log that carries `fee = 0`. -/
theorem handlePoolLog_fee_never_recorded :
    Sample.lib.unpackIntoMap ⟨[("PoolCreated", Sample.poolCreated)]⟩ "PoolCreated"
        Sample.poolLog.Data
      = some [("fee", Value.bigInt 30), ("pool", Value.address 0xc9)] ∧
    (∃ s' : ABIScanner,
      handlePoolLog Sample.lib Sample.abisWithFactory Sample.scannerInit Sample.emptyDB false
        120 "0x01" Sample.poolLog
      = Outcome.ok (true, s',
          ⟨[⟨"0xc9", "0xf1", "range", "v3", "0xa", "0xb", none, "0x01", 120⟩], [], []⟩)) ∧
    Sample.lib.unpackIntoMap ⟨[("PoolCreated", Sample.poolCreated)]⟩ "PoolCreated"
        Sample.poolLogFeeZero.Data
      = some [("fee", Value.bigInt 0), ("pool", Value.address 0xc9)] ∧
    (∃ s' : ABIScanner,
      handlePoolLog Sample.lib Sample.abisWithFactory Sample.scannerInit Sample.emptyDB false
        120 "0x01" Sample.poolLogFeeZero
      = Outcome.ok (true, s',
          ⟨[⟨"0xc9", "0xf1", "range", "v3", "0xa", "0xb", none, "0x01", 120⟩], [], []⟩)) :=
  ⟨by rfl, ⟨_, by rfl⟩, by rfl, ⟨_, by rfl⟩⟩

/-- C15, amended.  For every accepted PoolCreated log, the pool handed to `SavePool` and
put in the cache has `fee_rate` null unless the factory descriptor names a fee field.
The nine descriptors `initFatoryInfo` builds name none, so with them `fee_rate` is null
whatever the payload carries.  For a descriptor that names a fee field: a payload
without a big integer under that name yields null, and a value `v` that fits 64 signed
bits yields `fee_rate = v` (so 0 yields 0, not null). -/
theorem handlePoolLog_fee_rate (lib : EthLib) (abis : List (String × ABI))
    (s s' : ABIScanner) (db db' : DB) (fail : Bool) (blockNum : Nat) (txHash : String)
    (log : Log)
    (hacc : handlePoolLog lib abis s db fail blockNum txHash log
      = Outcome.ok (true, s', db')) :
    ∃ (info : factoryInfo) (contracABI : ABI) (data : Fields) (pool : Pool),
      s.factoryInfoMap.lookup (toLower (lib.addressHex log.Address)) = some info ∧
      getABI abis (toLower (lib.addressHex log.Address)) = some contracABI ∧
      lib.unpackIntoMap contracABI
        (if info.EventName = "" then "PoolCreated" else info.EventName) log.Data
          = some data ∧
      SavePool fail db pool = (none, db') ∧
      s'.poolCache = (toLower pool.PoolAddress, pool) :: s.poolCache ∧
      (info.FeeField = "" → pool.FeeRate = none) ∧
      (∀ factories : FactoriesConfig, s.factoryInfoMap = initFatoryInfo factories →
        pool.FeeRate = none) ∧
      (info.FeeField ≠ "" → bigIntField data info.FeeField = none → pool.FeeRate = none) ∧
      (∀ v : Int, info.FeeField ≠ "" → bigIntField data info.FeeField = some v →
        pool.FeeRate = some (int64OfBig v) ∧
        (-(2 ^ 63) ≤ v → v < 2 ^ 63 → pool.FeeRate = some v)) := by
  obtain ⟨info, contracABI, event, data, topic1, topic2, rest, hinfo, habi, hev, htop, hlen,
    hdata, hsave, hs⟩ := handlePoolLog_handled lib abis s s' db db' fail blockNum txHash log hacc
  refine ⟨info, contracABI, data, _, hinfo, habi, hdata, hsave, ?_, ?_, ?_, ?_, ?_⟩
  · rw [hs]
  · intro hempty
    simp only [hempty, ne_eq, not_true_eq_false, if_false]
  · intro factories hmap
    have hempty : info.FeeField = "" := by
      rw [hmap] at hinfo
      exact initFatoryInfo_feeField factories _ info hinfo
    simp only [hempty, ne_eq, not_true_eq_false, if_false]
  · intro hne hnone
    simp only [hne, ne_eq, not_false_eq_true, if_true, hnone]
  · intro v hne hsome
    simp only [hne, ne_eq, not_false_eq_true, if_true, hsome, true_and]
    intro hlo hhi
    rw [int64OfBig_of_fits v hlo hhi]

set_option maxRecDepth 100000 in
/-- C15 amended, at the sample PoolCreated log carrying `fee = 30`, with the factory map
of `initFatoryInfo`. -/
theorem handlePoolLog_fee_rate_witness :
    ∃ (info : factoryInfo) (pool : Pool),
      Sample.scannerInit.factoryInfoMap.lookup
        (toLower (Sample.lib.addressHex Sample.poolLog.Address)) = some info ∧
      SavePool false Sample.emptyDB pool
        = (none, ⟨[⟨"0xc9", "0xf1", "range", "v3", "0xa", "0xb", none, "0x01", 120⟩], [],
            []⟩) ∧
      pool.FeeRate = none := by
  obtain ⟨info, _, _, pool, hinfo, _, _, hsave, _, _, hnine, _, _⟩ :=
    handlePoolLog_fee_rate Sample.lib Sample.abisWithFactory Sample.scannerInit
      { Sample.scannerInit with poolCache :=
          ("0xc9", ⟨"0xc9", "0xf1", "range", "v3", "0xa", "0xb", none, "0x01", 120⟩)
            :: Sample.scannerInit.poolCache }
      Sample.emptyDB
      ⟨[⟨"0xc9", "0xf1", "range", "v3", "0xa", "0xb", none, "0x01", 120⟩], [], []⟩
      false 120 "0x01" Sample.poolLog (by rfl)
  exact ⟨info, pool, hinfo, hsave, hnine Sample.factories rfl⟩

/-! ### Failed blocks -/

/-- The body of the log loop never sets the error of `scanBlock`. -/
theorem scanLog_err (env : Env) (blockNum : Nat) (blockTimestamp : Int)
    (finality txHash : String) (acc acc' : BlockScan) (log : Log)
    (h : scanLog env blockNum blockTimestamp finality txHash acc log = Outcome.ok acc') :
    acc'.err = acc.err := by
  unfold scanLog at h
  split at h
  · simp at h
  · simp only [Outcome.ok.injEq] at h
    rw [← h]
  · split at h
    · simp at h
    · simp only [Outcome.ok.injEq] at h
      rw [← h]
    · simp only [Outcome.ok.injEq] at h
      rw [← h]

/-- The method `scanBlock` returns an error exactly when fetching the receipts or the
timestamp of the block fails. -/
theorem scanBlock_err_iff (env : Env) (s : ABIScanner) (db : DB) (blockNum : Nat)
    (finality : String) (r : BlockScan)
    (h : scanBlock env s db blockNum finality = Outcome.ok r) :
    r.err = true ↔ (env.receipts blockNum = none ∨ env.timestamp blockNum = none) := by
  unfold scanBlock at h
  split at h
  · rename_i hrec
    simp only [Outcome.ok.injEq] at h
    rw [← h]
    simp [hrec]
  · rename_i receipts hrec
    split at h
    · rename_i hts
      simp only [Outcome.ok.injEq] at h
      rw [← h]
      simp [hts]
    · rename_i blockTimestamp hts
      have herr : r.err = false := by
        refine foldOutcome_invariant (fun acc : BlockScan => acc.err = false) _ ?_ _
          ⟨false, s, db, 0, 0⟩ r rfl h
        intro acc receipt acc' hacc hstep
        refine foldOutcome_invariant (fun a : BlockScan => a.err = false) _ ?_ receipt.Logs
          acc acc' hacc hstep
        intro a log a' ha hlog
        rw [scanLog_err _ _ _ _ _ _ _ _ hlog]
        exact ha
      simp [herr, hrec, hts]

/-- Taking blocks off the channel changes the producer position and the blocks in flight
only, and keeps the blocks that were in flight. -/
theorem refill_frame (workers end_ : Nat) :
    ∀ (fuel : Nat) (st : RangeState),
      (refill workers end_ fuel st).errorCount = st.errorCount ∧
      (refill workers end_ fuel st).finished = st.finished ∧
      (refill workers end_ fuel st).maxScannedBlock = st.maxScannedBlock ∧
      (refill workers end_ fuel st).written = st.written ∧
      (refill workers end_ fuel st).db = st.db ∧
      (refill workers end_ fuel st).s = st.s ∧
      (refill workers end_ fuel st).lastUpdatedBlock = st.lastUpdatedBlock ∧
      (∀ b ∈ st.inflight, b ∈ (refill workers end_ fuel st).inflight) := by
  intro fuel
  induction fuel with
  | zero => intro st; exact ⟨rfl, rfl, rfl, rfl, rfl, rfl, rfl, fun b hb => hb⟩
  | succ n ih =>
    intro st
    unfold refill
    split
    · obtain ⟨h1, h2, h3, h4, h5, h6, h7, h8⟩ :=
        ih { st with inflight := st.inflight ++ [st.next], next := addU64 st.next 1 }
      exact ⟨h1, h2, h3, h4, h5, h6, h7,
        fun b hb => h8 b (List.mem_append_left _ hb)⟩
    · exact ⟨rfl, rfl, rfl, rfl, rfl, rfl, rfl, fun b hb => hb⟩

set_option maxRecDepth 100000 in
/-- C14, refuted at explicit blocks: when the insert of the pool of block 120 is refused
by the storage engine, `scanBlock` returns nil with nothing persisted and the range
[120, 120] ends with error counter 0; when the insert of the swap of block 121 is
refused, `scanBlock` returns nil and even counts the log as a swap. -/
theorem scanBlock_storage_failure_not_reported :
    scanBlock Sample.envPoolFault Sample.scannerInit Sample.emptyDB 120 "safe"
      = Outcome.ok ⟨false, Sample.scannerInit, Sample.emptyDB, 0, 0⟩ ∧
    (∃ rs : RangeState,
      scanRangeRun Sample.envPoolFault Sample.scannerInit Sample.emptyDB 120 120 "safe"
        [SchedEvent.finish 0] = Outcome.ok rs ∧
      rs.returned 120 = true ∧ rs.errorCount = 0 ∧ rs.maxScannedBlock = 120 ∧
      rs.db = Sample.emptyDB) ∧
    scanBlock Sample.envSwapFault Sample.scanner Sample.emptyDB 121 "safe"
      = Outcome.ok ⟨false, Sample.scanner, Sample.emptyDB, 0, 1⟩ :=
  ⟨by rfl, ⟨_, by rfl, by rfl, by rfl, by rfl, by rfl⟩, by rfl⟩

/-- C14, amended.  When a consumer of a range finishes block `b`, whatever the storage
engine answered to `SavePool` and `SaveSwapEvent` while the logs of `b` were decoded:
`scanBlock(b)` reports an error exactly when fetching the receipts or the timestamp of
`b` failed, the error counter of the range is incremented exactly in that case, and the
blocks still in flight stay in flight, so the scan of the remaining blocks continues. -/
theorem scanRangeStep_counts_fetch_failures_only (env : Env) (finality : String)
    (end_ : Nat) (st st' : RangeState) (i blockNum : Nat)
    (hget : st.inflight.get? (i % st.inflight.length) = some blockNum)
    (hstep : scanRangeStep env finality end_ st (SchedEvent.finish i) = Outcome.ok st') :
    ∃ r : BlockScan,
      scanBlock env st.s st.db blockNum finality = Outcome.ok r ∧
      (r.err = true ↔ (env.receipts blockNum = none ∨ env.timestamp blockNum = none)) ∧
      st'.errorCount = st.errorCount + (if r.err then 1 else 0) ∧
      st'.finished = st.finished ++ [(blockNum, !r.err)] ∧
      (∀ b ∈ st.inflight.eraseIdx (i % st.inflight.length), b ∈ st'.inflight) := by
  simp only [scanRangeStep, hget] at hstep
  split at hstep
  · simp at hstep
  · rename_i r hscan
    simp only [Outcome.ok.injEq] at hstep
    refine ⟨r, hscan, scanBlock_err_iff _ _ _ _ _ _ hscan, ?_, ?_, ?_⟩
    · rw [← hstep, (refill_frame _ _ _ _).1]
      cases r.err <;> simp
      split <;> rfl
    · rw [← hstep, (refill_frame _ _ _ _).2.1]
      cases r.err <;> simp
      split <;> rfl
    · intro b hb
      rw [← hstep]
      apply (refill_frame _ _ _ _).2.2.2.2.2.2.2
      cases r.err <;> simp
      · split <;> exact hb
      · exact hb

set_option maxRecDepth 100000 in
/-- C14 amended, at block 120 of the chain on which every insert into `pools` is
refused: the block is finished without error and the counter stays at 0. -/
theorem scanRangeStep_counts_fetch_failures_only_witness :
    ∃ r : BlockScan,
      scanBlock Sample.envPoolFault Sample.scannerInit Sample.emptyDB 120 "safe"
        = Outcome.ok r ∧
      (r.err = true ↔
        (Sample.envPoolFault.receipts 120 = none ∨
          Sample.envPoolFault.timestamp 120 = none)) ∧
      (0 : Nat) = 0 + (if r.err then 1 else 0) ∧
      [(120, true)] = ([] : List (Nat × Bool)) ++ [(120, !r.err)] ∧
      (∀ b ∈ ([120] : List Nat).eraseIdx (0 % ([120] : List Nat).length),
        b ∈ ([] : List Nat)) :=
  scanRangeStep_counts_fetch_failures_only Sample.envPoolFault "safe" 120
    ⟨Sample.scannerInit, Sample.emptyDB, 121, [120], 119, 0, 119, [], []⟩
    ⟨Sample.scannerInit, Sample.emptyDB, 121, [], 120, 0, 119, [], [(120, true)]⟩
    0 120 (by rfl) (by rfl)

/-! ### What the checkpoint ticker writes -/

/-- Every event of a range keeps the observed maximum the largest block scanned. -/
theorem scanRangeStep_max (env : Env) (finality : String) (c end_ : Nat)
    (st st' : RangeState) (ev : SchedEvent) (h : MaxIsLargestScanned c st)
    (hstep : scanRangeStep env finality end_ st ev = Outcome.ok st') :
    MaxIsLargestScanned c st' := by
  obtain ⟨h1, h2, h3, h4⟩ := h
  cases ev with
  | finish i =>
    simp only [scanRangeStep] at hstep
    split at hstep
    · simp only [Outcome.ok.injEq] at hstep
      rw [← hstep]
      exact ⟨h1, h2, h3, h4⟩
    · rename_i blockNum hget
      split at hstep
      · simp at hstep
      · rename_i r hscan
        simp only [Outcome.ok.injEq] at hstep
        obtain ⟨f1, f2, f3, f4, f5, f6, f7, f8⟩ := refill_frame
          (workerCount st.s.cfg).toNat end_ 1
          (if r.err = true then
            { s := r.s, db := r.db, next := st.next
              inflight := st.inflight.eraseIdx (i % st.inflight.length)
              maxScannedBlock := st.maxScannedBlock, errorCount := st.errorCount + 1
              lastUpdatedBlock := st.lastUpdatedBlock, written := st.written
              finished := st.finished ++ [(blockNum, !r.err)] }
          else if blockNum > st.maxScannedBlock then
            { s := r.s, db := r.db, next := st.next
              inflight := st.inflight.eraseIdx (i % st.inflight.length)
              maxScannedBlock := blockNum, errorCount := st.errorCount
              lastUpdatedBlock := st.lastUpdatedBlock, written := st.written
              finished := st.finished ++ [(blockNum, !r.err)] }
          else
            { s := r.s, db := r.db, next := st.next
              inflight := st.inflight.eraseIdx (i % st.inflight.length)
              maxScannedBlock := st.maxScannedBlock, errorCount := st.errorCount
              lastUpdatedBlock := st.lastUpdatedBlock, written := st.written
              finished := st.finished ++ [(blockNum, !r.err)] })
        rw [← hstep]
        unfold MaxIsLargestScanned
        rw [f2, f3, f4]
        by_cases herr : r.err = true
        · simp only [herr, if_true, Bool.not_true, List.mem_append, List.mem_singleton,
            Prod.mk.injEq, Bool.true_eq_false, and_false, or_false]
          exact ⟨h1, h2, h3, h4⟩
        · have herr' : r.err = false := by simpa using herr
          by_cases hgt : blockNum > st.maxScannedBlock
          · simp only [herr', Bool.false_eq_true, if_false, hgt, if_true, Bool.not_false,
              List.mem_append, List.mem_singleton, Prod.mk.injEq, and_true]
            refine ⟨Or.inr (Or.inr trivial), ?_, by omega, ?_⟩
            · intro b hb
              rcases hb with hb | hb
              · have := h2 b hb
                omega
              · omega
            · intro v hv
              rcases h4 v hv with hv' | hv'
              · exact Or.inl hv'
              · exact Or.inr (Or.inl hv')
          · simp only [herr', Bool.false_eq_true, if_false, hgt, Bool.not_false,
              List.mem_append, List.mem_singleton, Prod.mk.injEq, and_true]
            refine ⟨?_, ?_, h3, ?_⟩
            · rcases h1 with h1 | h1
              · exact Or.inl h1
              · exact Or.inr (Or.inl h1)
            · intro b hb
              rcases hb with hb | hb
              · exact h2 b hb
              · omega
            · intro v hv
              rcases h4 v hv with hv' | hv'
              · exact Or.inl hv'
              · exact Or.inr (Or.inl hv')
  | tick fail =>
    simp only [scanRangeStep] at hstep
    split at hstep
    · split at hstep
      · split at hstep
        · simp only [Outcome.ok.injEq] at hstep
          rw [← hstep]
          exact ⟨h1, h2, h3, h4⟩
        · simp only [Outcome.ok.injEq] at hstep
          rw [← hstep]
          refine ⟨h1, h2, h3, ?_⟩
          intro v hv
          have hv' : v ∈ st.written ++ [st.maxScannedBlock] := hv
          simp only [List.mem_append, List.mem_singleton] at hv'
          rcases hv' with hv' | hv'
          · exact h4 v hv'
          · rw [hv']
            exact h1
      · simp only [Outcome.ok.injEq] at hstep
        rw [← hstep]
        exact ⟨h1, h2, h3, h4⟩
    · simp only [Outcome.ok.injEq] at hstep
      rw [← hstep]
      exact ⟨h1, h2, h3, h4⟩

/-- Along every schedule of a range `[c + 1, end_]` the observed maximum is the largest
block scanned, and `c` when none is. -/
theorem scanRangeRun_max (env : Env) (s : ABIScanner) (db : DB) (c end_ : Nat)
    (finality : String) (sched : List SchedEvent) (rs : RangeState)
    (hrun : scanRangeRun env s db (c + 1) end_ finality sched = Outcome.ok rs) :
    MaxIsLargestScanned c rs := by
  unfold scanRangeRun at hrun
  split at hrun
  · simp at hrun
  · rename_i st0 hinit
    have h0 : MaxIsLargestScanned c st0 := by
      unfold scanRangeInit at hinit
      split at hinit
      · simp at hinit
      · simp only [Outcome.ok.injEq] at hinit
        rw [← hinit]
        unfold MaxIsLargestScanned
        rw [(refill_frame _ _ _ _).2.1, (refill_frame _ _ _ _).2.2.1,
          (refill_frame _ _ _ _).2.2.2.1]
        simp
    exact foldOutcome_invariant (MaxIsLargestScanned c) _
      (fun b a b' hb hstep => scanRangeStep_max env finality c end_ b b' a hb hstep)
      sched st0 rs h0 hrun

/-- Playing one more event after a schedule is one step from the state the schedule
reaches. -/
theorem scanRangeRun_snoc (env : Env) (s : ABIScanner) (db : DB) (start end_ : Nat)
    (finality : String) (pre : List SchedEvent) (ev : SchedEvent) (st : RangeState)
    (hpre : scanRangeRun env s db start end_ finality pre = Outcome.ok st) :
    scanRangeRun env s db start end_ finality (pre ++ [ev])
      = scanRangeStep env finality end_ st ev := by
  unfold scanRangeRun at hpre ⊢
  cases hinit : scanRangeInit s db start end_ with
  | panic => simp [hinit] at hpre
  | ok st0 =>
    simp only [hinit] at hpre ⊢
    rw [foldOutcome_append, hpre]
    simp only [foldOutcome]
    cases scanRangeStep env finality end_ st ev <;> rfl

set_option maxRecDepth 100000 in
/-- C11, refuted at an explicit schedule: in the safe range [101, 105] with two
consumers, the consumer holding block 102 finishes first and the ticker fires; it writes
102 to `stable_scan` while block 101 is still in flight. -/
theorem ticker_writes_above_unfinished_block :
    ∃ rs : RangeState,
      scanRangeRun Sample.env Sample.scanner Sample.dbAt100 101 105 "safe"
        [SchedEvent.finish 1, SchedEvent.tick false] = Outcome.ok rs ∧
      rs.written = [102] ∧
      GetScanProgress false rs.db "stable_scan" = Except.ok 102 ∧
      rs.finished = [(102, true)] ∧ rs.inflight = [101, 103] ∧
      (101, true) ∉ rs.finished :=
  ⟨_, by rfl, by rfl, by rfl, by rfl, by rfl, by decide⟩

/-- C11, amended.  When the checkpoint ticker fires in a safe range `[c + 1, end_]`
after any schedule, the finished blocks stay as they are, and the ticker writes, when
it writes (the observed maximum has advanced by the interval and the update is
accepted), the observed maximum: at the time of the write this is the largest block of
the range whose scan has returned nil (`c` when none has), so that block has been
scanned, but nothing is said of the blocks below it. -/
theorem ticker_writes_observed_maximum (env : Env) (s : ABIScanner) (db : DB)
    (c end_ : Nat) (pre : List SchedEvent) (fail : Bool) (st st' : RangeState)
    (hpre : scanRangeRun env s db (c + 1) end_ "safe" pre = Outcome.ok st)
    (hpost : scanRangeRun env s db (c + 1) end_ "safe" (pre ++ [SchedEvent.tick fail])
      = Outcome.ok st') :
    st'.finished = st.finished ∧ st'.maxScannedBlock = st.maxScannedBlock ∧
    st'.written =
      (if st.maxScannedBlock
            ≥ addU64 st.lastUpdatedBlock (toUint64 st.s.cfg.BatchIntervarSize) ∧
          fail = false
        then st.written ++ [st.maxScannedBlock] else st.written) ∧
    (st.maxScannedBlock = c ∨ (st.maxScannedBlock, true) ∈ st.finished) ∧
    (∀ b, (b, true) ∈ st.finished → b ≤ st.maxScannedBlock) ∧
    (∀ v ∈ st'.written, v = c ∨ (v, true) ∈ st'.finished) := by
  have hmax := scanRangeRun_max env s db c end_ "safe" pre st hpre
  have hmax' := scanRangeRun_max env s db c end_ "safe" _ st' hpost
  rw [scanRangeRun_snoc env s db (c + 1) end_ "safe" pre _ st hpre] at hpost
  refine ⟨?_, ?_, ?_, hmax.1, hmax.2.1, hmax'.2.2.2⟩
  all_goals
    simp only [scanRangeStep, UpdateScanProgress] at hpost
    by_cases hadv : st.maxScannedBlock
        ≥ addU64 st.lastUpdatedBlock (toUint64 st.s.cfg.BatchIntervarSize)
    · cases fail with
      | true =>
        simp only [hadv, if_true] at hpost
        simp only [Outcome.ok.injEq] at hpost
        rw [← hpost]
        try simp
      | false =>
        simp only [hadv, if_true, Bool.false_eq_true, if_false] at hpost
        simp only [Outcome.ok.injEq] at hpost
        rw [← hpost]
        try simp [hadv]
    · simp only [hadv, if_false] at hpost
      simp only [Outcome.ok.injEq] at hpost
      rw [← hpost]
      try simp [hadv]

set_option maxRecDepth 100000 in
/-- C11 amended, at the schedule in which block 102 finishes first: the ticker then
writes 102, the only block scanned so far. -/
theorem ticker_writes_observed_maximum_witness :
    ∃ st st' : RangeState,
      scanRangeRun Sample.env Sample.scanner Sample.dbAt100 (100 + 1) 105 "safe"
        [SchedEvent.finish 1] = Outcome.ok st ∧
      st.maxScannedBlock = 102 ∧ st'.written = [102] ∧
      (st'.finished = st.finished ∧ st'.maxScannedBlock = st.maxScannedBlock ∧
      st'.written =
        (if st.maxScannedBlock
              ≥ addU64 st.lastUpdatedBlock (toUint64 st.s.cfg.BatchIntervarSize) ∧
            false = false
          then st.written ++ [st.maxScannedBlock] else st.written) ∧
      (st.maxScannedBlock = 100 ∨ (st.maxScannedBlock, true) ∈ st.finished) ∧
      (∀ b, (b, true) ∈ st.finished → b ≤ st.maxScannedBlock) ∧
      (∀ v ∈ st'.written, v = 100 ∨ (v, true) ∈ st'.finished)) :=
  ⟨_, _, by rfl, by rfl, by rfl,
    ticker_writes_observed_maximum Sample.env Sample.scanner Sample.dbAt100 100 105
      [SchedEvent.finish 1] false
      ⟨Sample.scanner, Sample.dbAt100, 104, [101, 103], 102, 0, 100, [], [(102, true)]⟩
      ⟨Sample.scanner, ⟨[], [], [⟨"stable_scan", 102, "running", ""⟩]⟩, 104, [101, 103],
        102, 0, 102, [102], [(102, true)]⟩
      (by rfl) (by rfl)⟩

/-! ### Rows written by a scan -/

/-- Nothing added is rows added. -/
theorem RowsAdded.refl (P : SwapEvent → Prop) (db : DB) : RowsAdded P db db :=
  ⟨rfl, [], by simp, fun row h => by simp at h⟩

/-- Rows added after rows added are rows added. -/
theorem RowsAdded.trans (P : SwapEvent → Prop) (db1 db2 db3 : DB)
    (h12 : RowsAdded P db1 db2) (h23 : RowsAdded P db2 db3) : RowsAdded P db1 db3 := by
  obtain ⟨hp1, rows1, he1, hr1⟩ := h12
  obtain ⟨hp2, rows2, he2, hr2⟩ := h23
  refine ⟨by rw [hp2, hp1], rows1 ++ rows2, by rw [he2, he1, List.append_assoc], ?_⟩
  intro row hrow
  rcases List.mem_append.mp hrow with h | h
  · exact hr1 row h
  · exact hr2 row h

/-- Rows added with a property are rows added with any weaker property. -/
theorem RowsAdded.mono (P Q : SwapEvent → Prop) (db db' : DB) (hPQ : ∀ row, P row → Q row)
    (h : RowsAdded P db db') : RowsAdded Q db db' := by
  obtain ⟨hp, rows, he, hr⟩ := h
  exact ⟨hp, rows, he, fun row hrow => hPQ row (hr row hrow)⟩

/-- The handler `handlePoolLog` writes to `pools` only. -/
theorem handlePoolLog_rows (lib : EthLib) (abis : List (String × ABI)) (s s' : ABIScanner)
    (db db' : DB) (fail : Bool) (blockNum : Nat) (txHash : String) (log : Log) (b : Bool)
    (h : handlePoolLog lib abis s db fail blockNum txHash log = Outcome.ok (b, s', db')) :
    db'.swapEvents = db.swapEvents ∧ db'.scanProgress = db.scanProgress := by
  unfold handlePoolLog at h
  simp only [] at h
  have hkeep : ∀ {x : Bool} {t : ABIScanner},
      (Outcome.ok (x, t, db) : Outcome (Bool × ABIScanner × DB)) = Outcome.ok (b, s', db') →
        db'.swapEvents = db.swapEvents ∧ db'.scanProgress = db.scanProgress := by
    intro x t hx
    simp only [Outcome.ok.injEq, Prod.mk.injEq] at hx
    rw [← hx.2.2]
    exact ⟨rfl, rfl⟩
  have hsave : ∀ (pool : Pool) (e : Option DBError) (d : DB),
      SavePool fail db pool = (e, d) →
        d.swapEvents = db.swapEvents ∧ d.scanProgress = db.scanProgress := by
    intro pool e d hs
    unfold SavePool at hs
    split at hs
    · simp only [Prod.mk.injEq] at hs
      rw [← hs.2]
      exact ⟨rfl, rfl⟩
    · split at hs <;> simp only [Prod.mk.injEq] at hs <;> rw [← hs.2] <;> exact ⟨rfl, rfl⟩
  split at h
  · exact hkeep h
  · split at h
    · exact hkeep h
    · split at h
      · exact hkeep h
      · split at h
        · simp at h
        · split at h
          · exact hkeep h
          · split at h
            · exact hkeep h
            · split at h
              · split at h
                · exact hkeep h
                · split at h
                  · rename_i e d hs
                    simp only [Outcome.ok.injEq, Prod.mk.injEq] at h
                    rw [← h.2.2]
                    exact hsave _ _ _ hs
                  · rename_i d hs
                    simp only [Outcome.ok.injEq, Prod.mk.injEq] at h
                    rw [← h.2.2]
                    exact hsave _ _ _ hs
              · simp at h

/-- The handler `handleSwapLog` leaves the database alone or appends one row, of the block
and with the tag it was given. -/
theorem handleSwapLog_rows (lib : EthLib) (abis : List (String × ABI)) (s : ABIScanner)
    (db db' : DB) (fault : Fault) (blockNum : Nat) (blockTimestamp : Int) (txHash : String)
    (log : Log) (finality : String) (b : Bool)
    (h : handleSwapLog lib abis s db fault blockNum blockTimestamp txHash log finality
      = Outcome.ok (b, db')) :
    RowsAdded (RowOf blockNum finality) db db' := by
  unfold handleSwapLog at h
  simp only [SaveSwapEvent_eq] at h
  have hkeep : ∀ {x : Bool},
      (Outcome.ok (x, db) : Outcome (Bool × DB)) = Outcome.ok (b, db') →
        RowsAdded (RowOf blockNum finality) db db' := by
    intro x hx
    simp only [Outcome.ok.injEq, Prod.mk.injEq] at hx
    rw [← hx.2]
    exact RowsAdded.refl _ _
  split at h
  · exact hkeep h
  · split at h
    · exact hkeep h
    · split at h
      · exact hkeep h
      · split at h
        · exact hkeep h
        · split at h
          · simp at h
          · split at h
            · exact hkeep h
            · split at h
              · split at h
                · exact hkeep h
                · split at h
                  · exact hkeep h
                  · simp only [Outcome.ok.injEq, Prod.mk.injEq] at h
                    rw [← h.2]
                    split
                    · exact RowsAdded.refl _ _
                    · refine ⟨rfl, [_], rfl, ?_⟩
                      intro row hrow
                      simp only [List.mem_singleton] at hrow
                      rw [hrow]
                      unfold RowOf SwapEvent.stored
                      split
                      · rename_i hf
                        simp only [] at hf
                        exact ⟨rfl, by simp [hf]⟩
                      · rename_i hf
                        simp only [] at hf
                        exact ⟨rfl, by simp [hf]⟩
              · simp at h

/-- The body of the log loop appends rows of the block with the tag of the scan. -/
theorem scanLog_rows (env : Env) (blockNum : Nat) (blockTimestamp : Int)
    (finality txHash : String) (acc acc' : BlockScan) (log : Log)
    (h : scanLog env blockNum blockTimestamp finality txHash acc log = Outcome.ok acc') :
    RowsAdded (RowOf blockNum finality) acc.db acc'.db := by
  unfold scanLog at h
  split at h
  · simp at h
  · rename_i s1 db1 hp
    simp only [Outcome.ok.injEq] at h
    rw [← h]
    obtain ⟨h1, h2⟩ := handlePoolLog_rows _ _ _ _ _ _ _ _ _ _ _ hp
    exact ⟨h2, [], by simp [h1], fun row hrow => by simp at hrow⟩
  · rename_i s1 db1 hp
    obtain ⟨h1, h2⟩ := handlePoolLog_rows _ _ _ _ _ _ _ _ _ _ _ hp
    have h01 : RowsAdded (RowOf blockNum finality) acc.db db1 :=
      ⟨h2, [], by simp [h1], fun row hrow => by simp at hrow⟩
    split at h
    · simp at h
    · rename_i db2 hs
      simp only [Outcome.ok.injEq] at h
      rw [← h]
      exact RowsAdded.trans _ _ _ _ h01 (handleSwapLog_rows _ _ _ _ _ _ _ _ _ _ _ _ hs)
    · rename_i db2 hs
      simp only [Outcome.ok.injEq] at h
      rw [← h]
      exact RowsAdded.trans _ _ _ _ h01 (handleSwapLog_rows _ _ _ _ _ _ _ _ _ _ _ _ hs)

/-- The method `scanBlock` appends rows of its block with its tag, and nothing else
changes in `swap_events` and `scan_progress`. -/
theorem scanBlock_rows (env : Env) (s : ABIScanner) (db : DB) (blockNum : Nat)
    (finality : String) (r : BlockScan)
    (h : scanBlock env s db blockNum finality = Outcome.ok r) :
    RowsAdded (RowOf blockNum finality) db r.db := by
  unfold scanBlock at h
  split at h
  · simp only [Outcome.ok.injEq] at h
    rw [← h]
    exact RowsAdded.refl _ _
  · split at h
    · simp only [Outcome.ok.injEq] at h
      rw [← h]
      exact RowsAdded.refl _ _
    · refine foldOutcome_invariant
        (fun acc : BlockScan => RowsAdded (RowOf blockNum finality) db acc.db) _ ?_ _
        ⟨false, s, db, 0, 0⟩ r (RowsAdded.refl _ _) h
      intro acc receipt acc' hacc hstep
      refine foldOutcome_invariant
        (fun a : BlockScan => RowsAdded (RowOf blockNum finality) db a.db) _ ?_ receipt.Logs
        acc acc' hacc hstep
      intro a log a' ha hlog
      exact RowsAdded.trans _ _ _ _ ha (scanLog_rows _ _ _ _ _ _ _ _ hlog)

/-! ### The live range -/

/-- Taking blocks off the channel changes the producer position and the blocks in flight
of a live range only, and keeps the blocks that were in flight. -/
theorem refillLive_frame (end_ : Nat) :
    ∀ (fuel : Nat) (st : LiveRangeState),
      (refillLive end_ fuel st).errorCount = st.errorCount ∧
      (refillLive end_ fuel st).finished = st.finished ∧
      (refillLive end_ fuel st).db = st.db ∧
      (refillLive end_ fuel st).s = st.s ∧
      (∀ b ∈ st.inflight, b ∈ (refillLive end_ fuel st).inflight) := by
  intro fuel
  induction fuel with
  | zero => intro st; exact ⟨rfl, rfl, rfl, rfl, fun b hb => hb⟩
  | succ n ih =>
    intro st
    unfold refillLive
    split
    · obtain ⟨h1, h2, h3, h4, h5⟩ :=
        ih { st with inflight := st.inflight ++ [st.next], next := addU64 st.next 1 }
      exact ⟨h1, h2, h3, h4, fun b hb => h5 b (List.mem_append_left _ hb)⟩
    · exact ⟨rfl, rfl, rfl, rfl, fun b hb => hb⟩

/-- Taking blocks off the channel keeps the accounting of a live range, as long as the
producer cannot wrap around. -/
theorem refillLive_account (start end_ : Nat) (hend : end_ + 1 < 2 ^ 64) :
    ∀ (fuel : Nat) (st : LiveRangeState), LiveAccount start end_ st →
      LiveAccount start end_ (refillLive end_ fuel st) := by
  intro fuel
  induction fuel with
  | zero => intro st h; exact h
  | succ n ih =>
    intro st h
    unfold refillLive
    split
    · rename_i hcond
      apply ih
      obtain ⟨h1, h2, h3⟩ := h
      have hnext : addU64 st.next 1 = st.next + 1 := by
        unfold addU64
        apply Nat.mod_eq_of_lt
        omega
      refine ⟨?_, ?_, ?_⟩
      · show start ≤ addU64 st.next 1
        omega
      · show addU64 st.next 1 ≤ end_ + 1
        omega
      · show (st.finished.map Prod.fst ++ (st.inflight ++ [st.next])).Perm
          (List.range' start (addU64 st.next 1 - start))
        have hlen : addU64 st.next 1 - start = (st.next - start) + 1 := by omega
        rw [hlen, List.range'_concat, ← List.append_assoc]
        have hlast : start + 1 * (st.next - start) = st.next := by omega
        rw [hlast]
        exact List.Perm.append_right _ h3
    · exact h

/-- Every event of a live range keeps its accounting. -/
theorem scanRangeLiveStep_account (env : Env) (finality : String) (start end_ : Nat)
    (st st' : LiveRangeState) (i : Nat) (hend : end_ + 1 < 2 ^ 64)
    (h : LiveAccount start end_ st)
    (hstep : scanRangeLiveStep env finality end_ st i = Outcome.ok st') :
    LiveAccount start end_ st' := by
  unfold scanRangeLiveStep at hstep
  split at hstep
  · simp only [Outcome.ok.injEq] at hstep
    rw [← hstep]
    exact h
  · rename_i blockNum hget
    split at hstep
    · simp at hstep
    · rename_i r hscan
      simp only [Outcome.ok.injEq] at hstep
      rw [← hstep]
      apply refillLive_account start end_ hend
      obtain ⟨h1, h2, h3⟩ := h
      refine ⟨h1, h2, ?_⟩
      show (List.map Prod.fst (st.finished ++ [(blockNum, !r.err)]) ++
        st.inflight.eraseIdx (i % st.inflight.length)).Perm
        (List.range' start (st.next - start))
      refine List.Perm.trans ?_ h3
      rw [List.map_append, List.append_assoc]
      apply List.Perm.append_left
      exact (perm_cons_eraseIdx st.inflight _ blockNum hget).symm

/-- Along every schedule a live range `[start, end_]` with `start <= end_ + 1 < 2 ^ 64`
keeps its accounting. -/
theorem scanRangeLiveRun_account (env : Env) (s : ABIScanner) (db : DB) (start end_ : Nat)
    (finality : String) (sched : List Nat) (rs : LiveRangeState)
    (hstart : start ≤ end_ + 1) (hend : end_ + 1 < 2 ^ 64)
    (hrun : scanRangeLiveRun env s db start end_ finality sched = Outcome.ok rs) :
    LiveAccount start end_ rs := by
  unfold scanRangeLiveRun at hrun
  have h0 : LiveAccount start end_ (scanRangeLiveInit s db start end_) := by
    unfold scanRangeLiveInit
    apply refillLive_account start end_ hend
    refine ⟨le_refl _, hstart, ?_⟩
    simp
  exact foldOutcome_invariant (LiveAccount start end_) _
    (fun b a b' hb hstep => scanRangeLiveStep_account env finality start end_ b b' a hend hb
      hstep) sched _ rs h0 hrun

/-- Under the accounting of a live range, the blocks in flight are blocks of the
range. -/
theorem LiveAccount.inflight_bounds (start end_ : Nat) (st : LiveRangeState)
    (h : LiveAccount start end_ st) : ∀ b ∈ st.inflight, start ≤ b ∧ b ≤ end_ := by
  intro b hb
  obtain ⟨h1, h2, h3⟩ := h
  have hmem : b ∈ List.range' start (st.next - start) :=
    h3.subset (List.mem_append_right _ hb)
  rw [List.mem_range'_1] at hmem
  omega

/-- Every event of a live range appends rows of a block in flight, with the tag of the
range. -/
theorem scanRangeLiveStep_rows (env : Env) (finality : String) (end_ : Nat)
    (Q : SwapEvent → Prop) (db0 : DB) (st st' : LiveRangeState) (i : Nat)
    (hQ : ∀ b ∈ st.inflight, ∀ row, RowOf b finality row → Q row)
    (h : RowsAdded Q db0 st.db)
    (hstep : scanRangeLiveStep env finality end_ st i = Outcome.ok st') :
    RowsAdded Q db0 st'.db := by
  unfold scanRangeLiveStep at hstep
  split at hstep
  · simp only [Outcome.ok.injEq] at hstep
    rw [← hstep]
    exact h
  · rename_i blockNum hget
    split at hstep
    · simp at hstep
    · rename_i r hscan
      simp only [Outcome.ok.injEq] at hstep
      rw [← hstep, (refillLive_frame _ _ _).2.2.1]
      exact RowsAdded.trans _ _ _ _ h
        (RowsAdded.mono _ _ _ _ (hQ blockNum (List.get?_mem hget))
          (scanBlock_rows _ _ _ _ _ _ hscan))

/-- A live range appends rows to `swap_events` and leaves `scan_progress` alone. -/
theorem scanRangeLiveRun_frame (env : Env) (s : ABIScanner) (db : DB) (start end_ : Nat)
    (finality : String) (sched : List Nat) (rs : LiveRangeState)
    (hrun : scanRangeLiveRun env s db start end_ finality sched = Outcome.ok rs) :
    RowsAdded (fun _ => True) db rs.db := by
  unfold scanRangeLiveRun at hrun
  have h0 : RowsAdded (fun _ => True) db (scanRangeLiveInit s db start end_).db := by
    unfold scanRangeLiveInit
    rw [(refillLive_frame _ _ _).2.2.1]
    exact RowsAdded.refl _ _
  exact foldOutcome_invariant (fun st : LiveRangeState => RowsAdded (fun _ => True) db st.db)
    _ (fun b a b' hb hstep => scanRangeLiveStep_rows env finality end_ _ db b b' a
      (fun _ _ _ _ => trivial) hb hstep) sched _ rs h0 hrun

/-- Along every schedule a live range `[start, end_]` that cannot wrap around appends
only rows of blocks of the range, with its tag. -/
theorem scanRangeLiveRun_rows (env : Env) (s : ABIScanner) (db : DB) (start end_ : Nat)
    (finality : String) (sched : List Nat) (rs : LiveRangeState)
    (hstart : start ≤ end_ + 1) (hend : end_ + 1 < 2 ^ 64)
    (hrun : scanRangeLiveRun env s db start end_ finality sched = Outcome.ok rs) :
    RowsAdded (fun row => row.FinalityStatus = (if finality = "" then "safe" else finality) ∧
      start ≤ row.BlockNumber ∧ row.BlockNumber ≤ end_) db rs.db := by
  have hboth : LiveAccount start end_ rs ∧
      RowsAdded (fun row =>
        row.FinalityStatus = (if finality = "" then "safe" else finality) ∧
        start ≤ row.BlockNumber ∧ row.BlockNumber ≤ end_) db rs.db := by
    unfold scanRangeLiveRun at hrun
    refine foldOutcome_invariant (fun st : LiveRangeState => LiveAccount start end_ st ∧
      RowsAdded (fun row =>
        row.FinalityStatus = (if finality = "" then "safe" else finality) ∧
        start ≤ row.BlockNumber ∧ row.BlockNumber ≤ end_) db st.db) _ ?_ sched _ rs ?_ hrun
    · intro b a b' hb hstep
      refine ⟨scanRangeLiveStep_account env finality start end_ b b' a hend hb.1 hstep, ?_⟩
      refine scanRangeLiveStep_rows env finality end_ _ db b b' a ?_ hb.2 hstep
      intro blk hblk row hrow
      have hbd := LiveAccount.inflight_bounds start end_ b hb.1 blk hblk
      obtain ⟨hbn, hfs⟩ := hrow
      exact ⟨hfs, by omega, by omega⟩
    · refine ⟨?_, ?_⟩
      · unfold scanRangeLiveInit
        apply refillLive_account start end_ hend
        refine ⟨le_refl _, hstart, ?_⟩
        simp
      · unfold scanRangeLiveInit
        rw [(refillLive_frame _ _ _).2.2.1]
        exact RowsAdded.refl _ _
  exact hboth.2

/-! ### The live sweep -/

/-- The batch of the stable worker never ends above the safe head. -/
theorem stableBatch_le_safeHead (cfg : ScannerConfig) (cursor safeHead : Nat) :
    (stableBatch cfg cursor safeHead).2 ≤ safeHead := by
  unfold stableBatch
  simp only []
  split
  · exact le_refl _
  · omega

/-- The first block of a live sweep is the block after the safe head. -/
theorem addU64_succ (safeHead latest : Nat) (hlt : safeHead < latest)
    (hu : latest < 2 ^ 64) : addU64 safeHead 1 = safeHead + 1 := by
  unfold addU64
  apply Nat.mod_eq_of_lt
  omega

/-- C20.  One pass of the live worker that observed both heads (uint64 values): if
`latest_head <= safe_head` nothing changes, so it neither deletes nor scans; otherwise
it runs `scanRangeLive` over `[safe_head + 1, latest_head]` with finality pending from
the database `DeletePendingAfter(safe_head)` leaves, the rows it then adds are pending
rows of blocks of that range, and once the range has returned the blocks scanned are
exactly the blocks of the range, each once (for a latest head below the largest uint64);
in every case `scan_progress` is as before. -/
theorem liveRound_sweep (st : LiveState) (r : LiveRound) (latest safeHead : Nat)
    (hphase : st.phase = Phase.looping) (hl : r.latest = some latest)
    (hs : r.safeHead = some safeHead) (hu : latest < 2 ^ 64) :
    (latest ≤ safeHead → liveRound st r = st) ∧
    (safeHead < latest →
      (scanRangeLiveRun r.env st.s (DeletePendingAfter r.deleteFails st.db safeHead).2
          (safeHead + 1) latest "pending" r.sched = Outcome.panic →
        (liveRound st r).phase = Phase.crashed ∧
        (liveRound st r).db = (DeletePendingAfter r.deleteFails st.db safeHead).2) ∧
      (∀ rs : LiveRangeState,
        scanRangeLiveRun r.env st.s (DeletePendingAfter r.deleteFails st.db safeHead).2
          (safeHead + 1) latest "pending" r.sched = Outcome.ok rs →
        (liveRound st r).db = rs.db ∧ (liveRound st r).s = rs.s ∧
        (liveRound st r).phase
          = (if rs.returned latest then Phase.looping else Phase.inRange) ∧
        (latest + 1 < 2 ^ 64 →
          RowsAdded (fun row => row.FinalityStatus = "pending" ∧
              safeHead + 1 ≤ row.BlockNumber ∧ row.BlockNumber ≤ latest)
            (DeletePendingAfter r.deleteFails st.db safeHead).2 rs.db ∧
          (rs.returned latest = true →
            (rs.finished.map Prod.fst).Perm
              (List.range' (safeHead + 1) (latest - safeHead)))))) ∧
    (liveRound st r).db.scanProgress = st.db.scanProgress := by
  have hdel : (DeletePendingAfter r.deleteFails st.db safeHead).2.scanProgress
      = st.db.scanProgress := by
    unfold DeletePendingAfter
    split <;> rfl
  by_cases hle : latest ≤ safeHead
  · have hsame : liveRound st r = st := by
      unfold liveRound
      simp only [hphase, ne_eq, not_true_eq_false, if_false, hl, hs, hle, if_true]
    refine ⟨fun _ => hsame, fun hlt => absurd hlt (by omega), by rw [hsame]⟩
  · have hlt : safeHead < latest := by omega
    have hfrom := addU64_succ safeHead latest hlt hu
    refine ⟨fun h => absurd h hle, fun _ => ⟨?_, ?_⟩, ?_⟩
    · intro hpanic
      unfold liveRound
      simp only [hphase, ne_eq, not_true_eq_false, if_false, hl, hs, hle, hfrom, hpanic]
      exact ⟨trivial, trivial⟩
    · intro rs hrun
      refine ⟨?_, ?_, ?_, ?_⟩
      · unfold liveRound
        simp only [hphase, ne_eq, not_true_eq_false, if_false, hl, hs, hle, hfrom, hrun]
      · unfold liveRound
        simp only [hphase, ne_eq, not_true_eq_false, if_false, hl, hs, hle, hfrom, hrun]
      · unfold liveRound
        simp only [hphase, ne_eq, not_true_eq_false, if_false, hl, hs, hle, hfrom, hrun]
      · intro hend
        refine ⟨?_, ?_⟩
        · have := scanRangeLiveRun_rows r.env st.s _ (safeHead + 1) latest "pending" r.sched
            rs (by omega) hend hrun
          exact RowsAdded.mono _ _ _ _ (fun row hrow => hrow) this
        · intro hret
          obtain ⟨h1, h2, h3⟩ := scanRangeLiveRun_account r.env st.s _ (safeHead + 1) latest
            "pending" r.sched rs (by omega) hend hrun
          unfold LiveRangeState.returned at hret
          simp only [Bool.and_eq_true, List.isEmpty_iff, Bool.not_eq_true',
            decide_eq_false_iff_not, not_le] at hret
          obtain ⟨hempty, hnext⟩ := hret
          have hn : rs.next = latest + 1 := by omega
          have hlen : latest + 1 - (safeHead + 1) = latest - safeHead := by omega
          rw [hempty, List.append_nil, hn, hlen] at h3
          exact h3
    · cases hrun : scanRangeLiveRun r.env st.s
          (DeletePendingAfter r.deleteFails st.db safeHead).2 (safeHead + 1) latest
          "pending" r.sched with
      | panic =>
        unfold liveRound
        simp only [hphase, ne_eq, not_true_eq_false, if_false, hl, hs, hle, hfrom, hrun]
        exact hdel
      | ok rs =>
        have hframe := (scanRangeLiveRun_frame r.env st.s _ (safeHead + 1) latest "pending"
          r.sched rs hrun).1
        unfold liveRound
        simp only [hphase, ne_eq, not_true_eq_false, if_false, hl, hs, hle, hfrom, hrun]
        rw [hframe, hdel]

set_option maxRecDepth 100000 in
/-- C20, for safe head 100 and latest head 103 on a chain whose block 103 holds one swap:
the pass stores the pending row of that swap, and `scan_progress` is as before. -/
theorem liveRound_sweep_witness :
    (liveRound ⟨Sample.scanner, Sample.emptyDB, Phase.looping⟩
      ⟨Sample.envLive, some 103, some 100, false, [0, 0, 0]⟩).db.swapEvents
      = [Sample.pending103] ∧
    (liveRound ⟨Sample.scanner, Sample.emptyDB, Phase.looping⟩
      ⟨Sample.envLive, some 103, some 100, false, [0, 0, 0]⟩).phase = Phase.looping ∧
    (liveRound ⟨Sample.scanner, Sample.emptyDB, Phase.looping⟩
      ⟨Sample.envLive, some 103, some 100, false, [0, 0, 0]⟩).db.scanProgress
      = Sample.emptyDB.scanProgress :=
  ⟨by rfl, by rfl,
    (liveRound_sweep ⟨Sample.scanner, Sample.emptyDB, Phase.looping⟩
      ⟨Sample.envLive, some 103, some 100, false, [0, 0, 0]⟩ 103 100 rfl rfl rfl
      (by decide)).2.2⟩

/-! ### Rows and the safe head -/

/-- The method `UpdateScanProgress` leaves `swap_events` alone. -/
theorem UpdateScanProgress_swaps (fail : Bool) (db : DB) (taskName : String)
    (blockNum : Nat) :
    (UpdateScanProgress fail db taskName blockNum).2.swapEvents = db.swapEvents := by
  unfold UpdateScanProgress
  split <;> rfl

/-- Rows appended with a property, then rows appended with it again. -/
theorem swapsAdded_trans (P : SwapEvent → Prop) (db1 db2 db3 : DB)
    (h12 : SwapsAdded P db1 db2) (h23 : SwapsAdded P db2 db3) : SwapsAdded P db1 db3 := by
  obtain ⟨rows1, he1, hr1⟩ := h12
  obtain ⟨rows2, he2, hr2⟩ := h23
  refine ⟨rows1 ++ rows2, by rw [he2, he1, List.append_assoc], ?_⟩
  intro row hrow
  rcases List.mem_append.mp hrow with h | h
  · exact hr1 row h
  · exact hr2 row h

/-- A database with the same `swap_events` has the same rows appended. -/
theorem swapsAdded_of_eq (P : SwapEvent → Prop) (db1 db2 db3 : DB)
    (h12 : SwapsAdded P db1 db2) (h23 : db3.swapEvents = db2.swapEvents) :
    SwapsAdded P db1 db3 := by
  obtain ⟨rows1, he1, hr1⟩ := h12
  exact ⟨rows1, by rw [h23, he1], hr1⟩

/-- The consumers of `scanRange` only take blocks up to the end of the range. -/
theorem refill_le (workers end_ : Nat) :
    ∀ (fuel : Nat) (st : RangeState), (∀ b ∈ st.inflight, b ≤ end_) →
      ∀ b ∈ (refill workers end_ fuel st).inflight, b ≤ end_ := by
  intro fuel
  induction fuel with
  | zero => intro st h; exact h
  | succ n ih =>
    intro st h
    unfold refill
    split
    · rename_i hcond
      apply ih
      intro b hb
      rcases List.mem_append.mp hb with hb | hb
      · exact h b hb
      · simp only [List.mem_singleton] at hb
        rw [hb]
        exact hcond.2
    · exact h

/-- Every event of `scanRange` over a range ending at `end_` keeps the blocks in flight
at or below `end_` and appends to `swap_events` only rows of such blocks, with the tag of
the range. -/
theorem scanRangeStep_swaps (env : Env) (finality : String) (end_ : Nat) (db0 : DB)
    (st st' : RangeState) (ev : SchedEvent)
    (h : (∀ b ∈ st.inflight, b ≤ end_) ∧
      SwapsAdded (fun row =>
        row.FinalityStatus = (if finality = "" then "safe" else finality) ∧
        row.BlockNumber ≤ end_) db0 st.db)
    (hstep : scanRangeStep env finality end_ st ev = Outcome.ok st') :
    (∀ b ∈ st'.inflight, b ≤ end_) ∧
      SwapsAdded (fun row =>
        row.FinalityStatus = (if finality = "" then "safe" else finality) ∧
        row.BlockNumber ≤ end_) db0 st'.db := by
  cases ev with
  | finish i =>
    simp only [scanRangeStep] at hstep
    split at hstep
    · simp only [Outcome.ok.injEq] at hstep
      rw [← hstep]
      exact h
    · rename_i blockNum hget
      split at hstep
      · simp at hstep
      · rename_i r hscan
        simp only [Outcome.ok.injEq] at hstep
        rw [← hstep]
        have hblk : blockNum ≤ end_ := h.1 blockNum (List.get?_mem hget)
        have hrows : SwapsAdded (fun row =>
            row.FinalityStatus = (if finality = "" then "safe" else finality) ∧
            row.BlockNumber ≤ end_) db0 r.db := by
          refine swapsAdded_trans _ _ _ _ h.2 ?_
          obtain ⟨_, rows, he, hr⟩ := scanBlock_rows _ _ _ _ _ _ hscan
          refine ⟨rows, he, fun row hrow => ?_⟩
          obtain ⟨hbn, hfs⟩ := hr row hrow
          exact ⟨hfs, by omega⟩
        have hin : ∀ b ∈ st.inflight.eraseIdx (i % st.inflight.length), b ≤ end_ :=
          fun b hb => h.1 b (List.mem_of_mem_eraseIdx hb)
        refine ⟨?_, ?_⟩
        · apply refill_le
          by_cases herr : r.err = true
          · simp only [herr, if_true]
            exact hin
          · simp only [herr, Bool.false_eq_true, if_false]
            by_cases hgt : blockNum > st.maxScannedBlock
            · simp only [hgt, if_true]
              exact hin
            · simp only [hgt, if_false]
              exact hin
        · rw [(refill_frame _ _ _ _).2.2.2.2.1]
          by_cases herr : r.err = true
          · simp only [herr, if_true]
            exact hrows
          · simp only [herr, Bool.false_eq_true, if_false]
            by_cases hgt : blockNum > st.maxScannedBlock
            · simp only [hgt, if_true]
              exact hrows
            · simp only [hgt, if_false]
              exact hrows
  | tick fail =>
    simp only [scanRangeStep] at hstep
    split at hstep
    · split at hstep
      · split at hstep
        · rename_i e db' heq
          simp only [Outcome.ok.injEq] at hstep
          rw [← hstep]
          have hdb : db'.swapEvents = st.db.swapEvents := by
            have := UpdateScanProgress_swaps fail st.db "stable_scan" st.maxScannedBlock
            rw [heq] at this
            exact this
          exact ⟨h.1, swapsAdded_of_eq _ _ _ _ h.2 hdb⟩
        · rename_i db' heq
          simp only [Outcome.ok.injEq] at hstep
          rw [← hstep]
          have hdb : db'.swapEvents = st.db.swapEvents := by
            have := UpdateScanProgress_swaps fail st.db "stable_scan" st.maxScannedBlock
            rw [heq] at this
            exact this
          exact ⟨h.1, swapsAdded_of_eq _ _ _ _ h.2 hdb⟩
      · simp only [Outcome.ok.injEq] at hstep
        rw [← hstep]
        exact h
    · simp only [Outcome.ok.injEq] at hstep
      rw [← hstep]
      exact h

/-- Along every schedule a range ending at `end_` appends to `swap_events` only rows of
blocks at or below `end_`, with its tag. -/
theorem scanRangeRun_swaps (env : Env) (s : ABIScanner) (db : DB) (start end_ : Nat)
    (finality : String) (sched : List SchedEvent) (rs : RangeState)
    (hrun : scanRangeRun env s db start end_ finality sched = Outcome.ok rs) :
    SwapsAdded (fun row =>
      row.FinalityStatus = (if finality = "" then "safe" else finality) ∧
      row.BlockNumber ≤ end_) db rs.db := by
  unfold scanRangeRun at hrun
  split at hrun
  · simp at hrun
  · rename_i st0 hinit
    have h0 : (∀ b ∈ st0.inflight, b ≤ end_) ∧
        SwapsAdded (fun row =>
          row.FinalityStatus = (if finality = "" then "safe" else finality) ∧
          row.BlockNumber ≤ end_) db st0.db := by
      unfold scanRangeInit at hinit
      split at hinit
      · simp at hinit
      · simp only [Outcome.ok.injEq] at hinit
        rw [← hinit]
        refine ⟨?_, ?_⟩
        · apply refill_le
          intro b hb
          simp at hb
        · rw [(refill_frame _ _ _ _).2.2.2.2.1]
          exact ⟨[], by simp, fun row hrow => by simp at hrow⟩
    exact (foldOutcome_invariant (fun st : RangeState => (∀ b ∈ st.inflight, b ≤ end_) ∧
        SwapsAdded (fun row =>
          row.FinalityStatus = (if finality = "" then "safe" else finality) ∧
          row.BlockNumber ≤ end_) db st.db) _
      (fun b a b' hb hstep => scanRangeStep_swaps env finality end_ db b b' a hb hstep)
      sched st0 rs h0 hrun).2

/-- One pass of the stable worker appends to `swap_events` only safe rows of blocks at or
below the safe head the pass observed. -/
theorem stableRound_swaps (st : StableState) (r : StableRound) (safeHead : Nat)
    (hs : r.safeHead = some safeHead) :
    SwapsAdded (fun row => row.FinalityStatus = "safe" ∧ row.BlockNumber ≤ safeHead)
      st.db (stableRound st r).db := by
  have hnil : SwapsAdded (fun row => row.FinalityStatus = "safe" ∧
      row.BlockNumber ≤ safeHead) st.db st.db :=
    ⟨[], by simp, fun row hrow => by simp at hrow⟩
  have hle := stableBatch_le_safeHead st.s.cfg st.cursor safeHead
  unfold stableRound
  split
  · exact hnil
  · simp only [hs]
    split
    · exact hnil
    · generalize (stableBatch st.s.cfg st.cursor safeHead).1 = form at *
      generalize (stableBatch st.s.cfg st.cursor safeHead).2 = to_ at *
      split
      · exact hnil
      · rename_i rs hrun
        have hrows : SwapsAdded (fun row => row.FinalityStatus = "safe" ∧
            row.BlockNumber ≤ safeHead) st.db rs.db := by
          obtain ⟨rows, he, hr⟩ := scanRangeRun_swaps _ _ _ _ _ _ _ rs hrun
          refine ⟨rows, he, fun row hrow => ?_⟩
          obtain ⟨hfs, hbn⟩ := hr row hrow
          refine ⟨by simpa using hfs, by omega⟩
        split
        · split
          · rename_i e db' heq
            have hdb : db'.swapEvents = rs.db.swapEvents := by
              have := UpdateScanProgress_swaps r.writeFails rs.db "stable_scan" to_
              rw [heq] at this
              exact this
            exact swapsAdded_of_eq _ _ _ _ hrows hdb
          · rename_i db' heq
            have hdb : db'.swapEvents = rs.db.swapEvents := by
              have := UpdateScanProgress_swaps r.writeFails rs.db "stable_scan" to_
              rw [heq] at this
              exact this
            exact swapsAdded_of_eq _ _ _ _ hrows hdb
        · exact hrows

/-- A pass of the live worker that scans: when the range does not panic, the scanner and
the database of the pass are those of the range. -/
theorem liveRound_ok (st : LiveState) (r : LiveRound) (latest safeHead : Nat)
    (rs : LiveRangeState) (hphase : st.phase = Phase.looping)
    (hl : r.latest = some latest) (hs : r.safeHead = some safeHead)
    (hlt : safeHead < latest) (hu : latest < 2 ^ 64)
    (hrun : scanRangeLiveRun r.env st.s (DeletePendingAfter r.deleteFails st.db safeHead).2
      (safeHead + 1) latest "pending" r.sched = Outcome.ok rs) :
    liveRound st r
      = { s := rs.s, db := rs.db
          phase := if rs.returned latest then Phase.looping else Phase.inRange } := by
  have hle : ¬ latest ≤ safeHead := by omega
  have hfrom := addU64_succ safeHead latest hlt hu
  unfold liveRound
  simp only [hphase, ne_eq, not_true_eq_false, if_false, hl, hs, hle, hfrom, hrun]

/-- A pass of the live worker that scans: when the range panics, the database is the one
the delete left. -/
theorem liveRound_panic (st : LiveState) (r : LiveRound) (latest safeHead : Nat)
    (hphase : st.phase = Phase.looping)
    (hl : r.latest = some latest) (hs : r.safeHead = some safeHead)
    (hlt : safeHead < latest) (hu : latest < 2 ^ 64)
    (hrun : scanRangeLiveRun r.env st.s (DeletePendingAfter r.deleteFails st.db safeHead).2
      (safeHead + 1) latest "pending" r.sched = Outcome.panic) :
    (liveRound st r).db = (DeletePendingAfter r.deleteFails st.db safeHead).2 := by
  have hle : ¬ latest ≤ safeHead := by omega
  have hfrom := addU64_succ safeHead latest hlt hu
  unfold liveRound
  simp only [hphase, ne_eq, not_true_eq_false, if_false, hl, hs, hle, hfrom, hrun]

/-- A pass of the live worker that scans appends to what the delete left only pending
rows of blocks above the safe head it observed and at or below the latest head. -/
theorem liveRound_swaps (st : LiveState) (r : LiveRound) (latest safeHead : Nat)
    (hphase : st.phase = Phase.looping)
    (hl : r.latest = some latest) (hs : r.safeHead = some safeHead)
    (hlt : safeHead < latest) (hu : latest + 1 < 2 ^ 64) :
    SwapsAdded (fun row => row.FinalityStatus = "pending" ∧
        safeHead < row.BlockNumber ∧ row.BlockNumber ≤ latest)
      (DeletePendingAfter r.deleteFails st.db safeHead).2 (liveRound st r).db := by
  cases hrun : scanRangeLiveRun r.env st.s
      (DeletePendingAfter r.deleteFails st.db safeHead).2 (safeHead + 1) latest
      "pending" r.sched with
  | panic =>
    rw [liveRound_panic st r latest safeHead hphase hl hs hlt (by omega) hrun]
    exact ⟨[], by simp, fun row hrow => by simp at hrow⟩
  | ok rs =>
    rw [liveRound_ok st r latest safeHead rs hphase hl hs hlt (by omega) hrun]
    obtain ⟨_, rows, he, hr⟩ := scanRangeLiveRun_rows r.env st.s _ (safeHead + 1) latest
      "pending" r.sched rs (by omega) hu hrun
    refine ⟨rows, he, fun row hrow => ?_⟩
    obtain ⟨hfs, h1, h2⟩ := hr row hrow
    exact ⟨by simpa using hfs, by omega, h2⟩

set_option maxRecDepth 100000 in
/-- C12, refuted at an explicit sweep: the live worker reads safe head 105 and latest head
107 and scans blocks 106 and 107; while it does, the safe head of the chain moves from
105 to 108; the swap of block 107 is then written as a pending row although its block is
not above the safe head at the time of the write. -/
theorem pending_row_written_below_current_safe_head :
    (liveRound ⟨Sample.scanner, Sample.emptyDB, Phase.looping⟩
      ⟨Sample.envLive, some 107, some 105, false, [0, 0]⟩).db.swapEvents
      = [Sample.pending107] ∧
    liveWritesWithHead Sample.envLive Sample.scanner Sample.emptyDB 106 107 "pending"
      [0, 0] (fun k => 105 + 3 * k) = [(Sample.pending107, 108)] ∧
    (∀ k, 105 ≤ 105 + 3 * k ∧ 105 + 3 * k ≤ 105 + 3 * (k + 1)) ∧
    Sample.pending107.FinalityStatus = "pending" ∧
    ¬ Sample.pending107.BlockNumber > 108 :=
  ⟨by rfl, by rfl, fun k => by omega, by rfl, by decide⟩

/-- C12, amended.  Every row a pass of the stable worker appends to `swap_events` is a
safe row whose block is at or below the safe head that pass observed, hence at or below
every later safe head; every row a pass of the live worker appends is a pending row
whose block is above the safe head that pass observed when it started, and at or below
the latest head it observed (heads below the largest uint64). -/
theorem swap_rows_against_observed_safe_head (sst : StableState) (sr : StableRound)
    (lst : LiveState) (lr : LiveRound) (stableHead latest safeHead : Nat)
    (hsh : sr.safeHead = some stableHead) (hphase : lst.phase = Phase.looping)
    (hl : lr.latest = some latest) (hs : lr.safeHead = some safeHead)
    (hlt : safeHead < latest) (hu : latest + 1 < 2 ^ 64) :
    SwapsAdded (fun row => row.FinalityStatus = "safe" ∧
        ∀ later, stableHead ≤ later → row.BlockNumber ≤ later)
      sst.db (stableRound sst sr).db ∧
    SwapsAdded (fun row => row.FinalityStatus = "pending" ∧
        safeHead < row.BlockNumber ∧ row.BlockNumber ≤ latest)
      (DeletePendingAfter lr.deleteFails lst.db safeHead).2 (liveRound lst lr).db := by
  refine ⟨?_, liveRound_swaps lst lr latest safeHead hphase hl hs hlt hu⟩
  obtain ⟨rows, he, hr⟩ := stableRound_swaps sst sr stableHead hsh
  exact ⟨rows, he, fun row hrow =>
    ⟨(hr row hrow).1, fun later hlater => le_trans (hr row hrow).2 hlater⟩⟩

set_option maxRecDepth 100000 in
/-- C12 as amended, for a stable pass at cursor 100 with safe head 105 and a live pass
with safe head 105 and latest head 107: the live pass stores the pending row of block
107, above 105. -/
theorem swap_rows_against_observed_safe_head_witness :
    (liveRound ⟨Sample.scanner, Sample.emptyDB, Phase.looping⟩
      ⟨Sample.envLive, some 107, some 105, false, [0, 0]⟩).db.swapEvents
      = [Sample.pending107] ∧
    105 < 107 ∧ 107 + 1 < 2 ^ 64 ∧
    SwapsAdded (fun row => row.FinalityStatus = "pending" ∧
        105 < row.BlockNumber ∧ row.BlockNumber ≤ 107)
      (DeletePendingAfter false Sample.emptyDB 105).2
      (liveRound ⟨Sample.scanner, Sample.emptyDB, Phase.looping⟩
        ⟨Sample.envLive, some 107, some 105, false, [0, 0]⟩).db :=
  ⟨by rfl, by decide, by decide,
    (swap_rows_against_observed_safe_head
      ⟨100, Sample.scanner, Sample.emptyDB, [], Phase.looping⟩
      ⟨Sample.env, some 105,
        [SchedEvent.finish 0, SchedEvent.finish 0, SchedEvent.finish 0, SchedEvent.finish 0,
          SchedEvent.finish 0], false⟩
      ⟨Sample.scanner, Sample.emptyDB, Phase.looping⟩
      ⟨Sample.envLive, some 107, some 105, false, [0, 0]⟩ 105 107 105 rfl rfl rfl rfl
      (by decide) (by decide)).2⟩

/-! ### The pending rows after a live sweep -/

set_option maxRecDepth 100000 in
/-- C13, refuted at two explicit sweeps in which every block is scanned successfully: the
first observes safe head 100 and latest head 103 and stores the pending row of the swap
of block 103; the second observes safe head 105 and latest head 107, deletes the pending
rows above 105 only, and stores the pending row of the swap of block 107.  After it the
pending row of block 103, at or below the safe head 105, is still there. -/
theorem live_sweep_keeps_pending_row_below_safe_head :
    (runLiveWorker Sample.scanner Sample.emptyDB
      [⟨Sample.envLive, some 103, some 100, false, [0, 0, 0]⟩,
        ⟨Sample.envLive, some 107, some 105, false, [0, 0]⟩]).db.swapEvents
      = [Sample.pending103, Sample.pending107] ∧
    (runLiveWorker Sample.scanner Sample.emptyDB
      [⟨Sample.envLive, some 103, some 100, false, [0, 0, 0]⟩,
        ⟨Sample.envLive, some 107, some 105, false, [0, 0]⟩]).phase = Phase.looping ∧
    (∃ rs, scanRangeLiveRun Sample.envLive Sample.scanner Sample.emptyDB 101 103 "pending"
        [0, 0, 0] = Outcome.ok rs ∧
      rs.finished = [(101, true), (102, true), (103, true)] ∧ rs.errorCount = 0) ∧
    (∃ rs, scanRangeLiveRun Sample.envLive Sample.scanner
        (DeletePendingAfter false ⟨[], [Sample.pending103], []⟩ 105).2 106 107 "pending"
        [0, 0] = Outcome.ok rs ∧
      rs.finished = [(106, true), (107, true)] ∧ rs.errorCount = 0) ∧
    Sample.pending103.FinalityStatus = "pending" ∧
    Sample.pending103.BlockNumber ≤ 105 :=
  ⟨by rfl, by rfl, ⟨_, by rfl, by rfl, by rfl⟩, ⟨_, by rfl, by rfl, by rfl⟩, by rfl,
    by decide⟩

/-- C13, amended.  A live sweep that observed `safe_head < latest_head` (below the largest
uint64), whose delete the storage engine carried out and whose range has returned, has
scanned exactly the blocks of `(safe_head, latest_head]`, each once, and leaves in
`swap_events` the rows that were there, less the pending rows above `safe_head`,
followed by the rows it stored, all pending and of blocks in `(safe_head, latest_head]`.
So the pending rows above `safe_head` are exactly the rows the sweep stored, no pending
row is above `latest_head`, and every pending row at or below `safe_head` was there before
the sweep and is kept. -/
theorem liveRound_pending_rows (st : LiveState) (r : LiveRound) (latest safeHead : Nat)
    (rs : LiveRangeState) (hphase : st.phase = Phase.looping)
    (hl : r.latest = some latest) (hs : r.safeHead = some safeHead)
    (hlt : safeHead < latest) (hu : latest + 1 < 2 ^ 64) (hdel : r.deleteFails = false)
    (hrun : scanRangeLiveRun r.env st.s (DeletePendingAfter false st.db safeHead).2
      (safeHead + 1) latest "pending" r.sched = Outcome.ok rs)
    (hret : rs.returned latest = true) :
    (liveRound st r).db = rs.db ∧ (liveRound st r).phase = Phase.looping ∧
    (rs.finished.map Prod.fst).Perm (List.range' (safeHead + 1) (latest - safeHead)) ∧
    ∃ rows : List SwapEvent,
      (liveRound st r).db.swapEvents
        = st.db.swapEvents.filter (fun row =>
            !(decide (row.BlockNumber > safeHead) && decide (row.FinalityStatus = "pending")))
          ++ rows ∧
      (∀ row ∈ rows, row.FinalityStatus = "pending" ∧
        safeHead < row.BlockNumber ∧ row.BlockNumber ≤ latest) ∧
      (liveRound st r).db.swapEvents.filter (fun row =>
          decide (row.FinalityStatus = "pending") && decide (safeHead < row.BlockNumber))
        = rows ∧
      (∀ row ∈ (liveRound st r).db.swapEvents, row.FinalityStatus = "pending" →
        row.BlockNumber ≤ latest) ∧
      (∀ row, row.FinalityStatus = "pending" → row.BlockNumber ≤ safeHead →
        (liveRound st r).db.swapEvents.count row = st.db.swapEvents.count row) := by
  have hrun' : scanRangeLiveRun r.env st.s (DeletePendingAfter r.deleteFails st.db safeHead).2
      (safeHead + 1) latest "pending" r.sched = Outcome.ok rs := by
    rw [hdel]
    exact hrun
  have hround := liveRound_ok st r latest safeHead rs hphase hl hs hlt (by omega) hrun'
  have hperm : (rs.finished.map Prod.fst).Perm
      (List.range' (safeHead + 1) (latest - safeHead)) := by
    obtain ⟨h1, h2, h3⟩ := scanRangeLiveRun_account r.env st.s _ (safeHead + 1) latest
      "pending" r.sched rs (by omega) hu hrun
    have hret' := hret
    unfold LiveRangeState.returned at hret'
    simp only [Bool.and_eq_true, List.isEmpty_iff, Bool.not_eq_true',
      decide_eq_false_iff_not, not_le] at hret'
    obtain ⟨hempty, hnext⟩ := hret'
    have hn : rs.next = latest + 1 := by omega
    have hlen : latest + 1 - (safeHead + 1) = latest - safeHead := by omega
    rw [hempty, List.append_nil, hn, hlen] at h3
    exact h3
  obtain ⟨_, rows, he, hr⟩ := scanRangeLiveRun_rows r.env st.s _ (safeHead + 1) latest
    "pending" r.sched rs (by omega) hu hrun
  have hbase : (DeletePendingAfter false st.db safeHead).2.swapEvents
      = st.db.swapEvents.filter (fun row =>
          !(decide (row.BlockNumber > safeHead) && decide (row.FinalityStatus = "pending")))
      := by
    simp only [DeletePendingAfter, Bool.false_eq_true, if_false]
  rw [hbase] at he
  have hrows : ∀ row ∈ rows, row.FinalityStatus = "pending" ∧
      safeHead < row.BlockNumber ∧ row.BlockNumber ≤ latest := by
    intro row hrow
    obtain ⟨hfs, h1, h2⟩ := hr row hrow
    exact ⟨by simpa using hfs, by omega, h2⟩
  rw [hround]
  refine ⟨rfl, by simp only [hret, if_true], hperm, rows, he, hrows, ?_, ?_, ?_⟩
  · show rs.db.swapEvents.filter _ = rows
    rw [he, List.filter_append, List.filter_filter]
    have h1 : st.db.swapEvents.filter (fun row =>
        (decide (row.FinalityStatus = "pending") && decide (safeHead < row.BlockNumber)) &&
        !(decide (row.BlockNumber > safeHead) && decide (row.FinalityStatus = "pending")))
        = [] := by
      rw [List.filter_eq_nil_iff]
      intro row _
      simp only [Bool.and_eq_true, decide_eq_true_eq, Bool.not_eq_true', Bool.and_eq_false_imp,
        decide_eq_false_iff_not, not_and, gt_iff_lt]
      intro hp hb
      exact hb hp.2 hp.1
    have h2 : rows.filter (fun row =>
        decide (row.FinalityStatus = "pending") && decide (safeHead < row.BlockNumber))
        = rows := by
      rw [List.filter_eq_self]
      intro row hrow
      obtain ⟨hfs, hb, _⟩ := hrows row hrow
      simp only [Bool.and_eq_true, decide_eq_true_eq]
      exact ⟨hfs, hb⟩
    rw [h1, h2, List.nil_append]
  · intro row hrow hpend
    show row.BlockNumber ≤ latest
    have hrow' : row ∈ rs.db.swapEvents := hrow
    rw [he] at hrow'
    rcases List.mem_append.mp hrow' with hm | hm
    · rw [List.mem_filter] at hm
      have hk := hm.2
      simp only [Bool.not_eq_true', Bool.and_eq_false_imp, decide_eq_true_eq,
        decide_eq_false_iff_not, gt_iff_lt] at hk
      by_contra hgt
      exact hk (by omega) hpend
    · exact (hrows row hm).2.2
  · intro row hpend hbelow
    show rs.db.swapEvents.count row = st.db.swapEvents.count row
    rw [he, List.count_append]
    have hnot : rows.count row = 0 := by
      rw [List.count_eq_zero]
      intro hmem
      have := (hrows row hmem).2.1
      omega
    rw [hnot, Nat.add_zero, List.count_filter]
    simp only [Bool.not_eq_true', Bool.and_eq_false_imp, decide_eq_true_eq,
      decide_eq_false_iff_not, gt_iff_lt]
    intro h
    omega

set_option maxRecDepth 100000 in
/-- C13 as amended, for the second of the two sweeps above: on a table that holds the
pending row of block 103, the sweep with safe head 105 and latest head 107 scans blocks
106 and 107 and leaves the row of block 103 followed by the pending row of block 107. -/
theorem liveRound_pending_rows_witness :
    (liveRound ⟨Sample.scanner, ⟨[], [Sample.pending103], []⟩, Phase.looping⟩
      ⟨Sample.envLive, some 107, some 105, false, [0, 0]⟩).db.swapEvents
      = [Sample.pending103, Sample.pending107] ∧
    105 < 107 ∧ 107 + 1 < 2 ^ 64 ∧
    (liveRound ⟨Sample.scanner, ⟨[], [Sample.pending103], []⟩, Phase.looping⟩
      ⟨Sample.envLive, some 107, some 105, false, [0, 0]⟩).phase = Phase.looping ∧
    ([(106, true), (107, true)].map Prod.fst).Perm (List.range' (105 + 1) (107 - 105)) :=
  ⟨by rfl, by decide, by decide,
    (liveRound_pending_rows ⟨Sample.scanner, ⟨[], [Sample.pending103], []⟩, Phase.looping⟩
      ⟨Sample.envLive, some 107, some 105, false, [0, 0]⟩ 107 105
      ⟨Sample.scanner, ⟨[], [Sample.pending103, Sample.pending107], []⟩, 108, [], 0,
        [(106, true), (107, true)]⟩
      rfl rfl rfl (by decide) (by decide) rfl (by rfl) (by rfl)).2.1,
    (liveRound_pending_rows ⟨Sample.scanner, ⟨[], [Sample.pending103], []⟩, Phase.looping⟩
      ⟨Sample.envLive, some 107, some 105, false, [0, 0]⟩ 107 105
      ⟨Sample.scanner, ⟨[], [Sample.pending103, Sample.pending107], []⟩, 108, [], 0,
        [(106, true), (107, true)]⟩
      rfl rfl rfl (by decide) (by decide) rfl (by rfl) (by rfl)).2.2.1⟩

/-! ### Loading the ABI files -/

/-- The function `loadABI` succeeds exactly on a file that can be read and parsed, and
then adds one binding. -/
theorem loadABI_eq_some (w : AbiWorld) (files : Files) (abis abis1 : List (String × ABI))
    (address abiFile : String) :
    loadABI w files abis address abiFile = some abis1 ↔
      ∃ (text : String) (contractABI : ABI), files.lookup abiFile = some (some text) ∧
        w.parse text = some contractABI ∧ abis1 = (address, contractABI) :: abis := by
  unfold loadABI
  constructor
  · intro h
    split at h
    · rename_i abiJSON hfile
      split at h
      · rename_i contractABI hparse
        simp only [Option.some.injEq] at h
        exact ⟨abiJSON, contractABI, hfile, hparse, h.symm⟩
      · simp at h
    · simp at h
  · rintro ⟨text, contractABI, hfile, hparse, rfl⟩
    simp only [hfile, hparse]

/-- With `auto_download = false` the loop of `DownloadABIs` writes no file, returns at most
the load error, returns nil exactly when every configured address whose file exists can
be loaded, and leaves alone every key of `ABIs` whose addresses have no file. -/
theorem DownloadABIsLoop_no_download (w : AbiWorld) (cfg : AbiConfig) (files : Files)
    (hauto : cfg.AutoDownload = false) :
    ∀ (addresses : List String) (abis : List (String × ABI)),
      (DownloadABIsLoop w cfg addresses files abis).files = files ∧
      ((DownloadABIsLoop w cfg addresses files abis).err = none ∨
        (DownloadABIsLoop w cfg addresses files abis).err = some AbiError.load) ∧
      ((DownloadABIsLoop w cfg addresses files abis).err = none ↔
        ∀ a ∈ addresses,
          files.lookup (w.join cfg.SaveDir (toLower a ++ ".json")) = none ∨
          Loadable w cfg files a) ∧
      (∀ key : String,
        (∀ a ∈ addresses, toLower a = key →
          files.lookup (w.join cfg.SaveDir (toLower a ++ ".json")) = none) →
        (DownloadABIsLoop w cfg addresses files abis).abis.lookup key = abis.lookup key) := by
  intro addresses
  induction addresses with
  | nil =>
    intro abis
    simp [DownloadABIsLoop]
  | cons a rest ih =>
    intro abis
    cases hfile : files.lookup (w.join cfg.SaveDir (toLower a ++ ".json")) with
    | none =>
      have hstep : DownloadABIsLoop w cfg (a :: rest) files abis
          = DownloadABIsLoop w cfg rest files abis := by
        simp only [DownloadABIsLoop, hfile, hauto, Bool.false_eq_true, if_false]
      rw [hstep]
      obtain ⟨h1, h2, h3, h4⟩ := ih abis
      refine ⟨h1, h2, ?_, ?_⟩
      · rw [h3]
        constructor
        · intro h b hb
          rcases List.mem_cons.mp hb with rfl | hb
          · exact Or.inl hfile
          · exact h b hb
        · intro h b hb
          exact h b (List.mem_cons_of_mem _ hb)
      · intro key hkey
        exact h4 key (fun b hb hbk => hkey b (List.mem_cons_of_mem _ hb) hbk)
    | some content =>
      cases hload : loadABI w files abis (toLower a)
          (w.join cfg.SaveDir (toLower a ++ ".json")) with
      | none =>
        have hstep : DownloadABIsLoop w cfg (a :: rest) files abis
            = ⟨some AbiError.load, abis, files⟩ := by
          simp only [DownloadABIsLoop, hfile, hload]
        rw [hstep]
        refine ⟨rfl, Or.inr rfl, ?_, fun _ _ => rfl⟩
        constructor
        · intro h
          simp at h
        · intro h
          exfalso
          rcases h a (List.mem_cons_self _ _) with hnone | ⟨text, contractABI, hf, hp⟩
          · rw [hfile] at hnone
            simp at hnone
          · have hsome : loadABI w files abis (toLower a)
                (w.join cfg.SaveDir (toLower a ++ ".json"))
                = some ((toLower a, contractABI) :: abis) :=
              (loadABI_eq_some _ _ _ _ _ _).mpr ⟨text, contractABI, hf, hp, rfl⟩
            rw [hload] at hsome
            simp at hsome
      | some abis1 =>
        have hstep : DownloadABIsLoop w cfg (a :: rest) files abis
            = DownloadABIsLoop w cfg rest files abis1 := by
          simp only [DownloadABIsLoop, hfile, hload]
        rw [hstep]
        obtain ⟨text, contractABI, hf, hp, habis⟩ := (loadABI_eq_some _ _ _ _ _ _).mp hload
        obtain ⟨h1, h2, h3, h4⟩ := ih abis1
        refine ⟨h1, h2, ?_, ?_⟩
        · rw [h3]
          constructor
          · intro h b hb
            rcases List.mem_cons.mp hb with rfl | hb
            · exact Or.inr ⟨text, contractABI, hf, hp⟩
            · exact h b hb
          · intro h b hb
            exact h b (List.mem_cons_of_mem _ hb)
        · intro key hkey
          rw [h4 key (fun b hb hbk => hkey b (List.mem_cons_of_mem _ hb) hbk), habis]
          have hne : key ≠ toLower a := by
            intro heq
            have := hkey a (List.mem_cons_self _ _) heq.symm
            rw [hfile] at this
            simp at this
          simp only [List.lookup_cons]
          have hbeq : (key == toLower a) = false := by
            simpa using hne
          rw [hbeq]

set_option maxRecDepth 100000 in
/-- C17, refuted at an explicit configuration: with `auto_download = false`, two
configured addresses and a directory that holds the ABI file of the second only,
`DownloadABIs` returns nil; it has loaded the ABI of the second address and none for
the first. -/
theorem DownloadABIs_nil_with_missing_file :
    Sample.abiConfig.AutoDownload = false ∧
    "0xE1" ∈ Sample.abiConfig.Addresses ∧
    Sample.abiFiles.lookup (Sample.abiWorld.join Sample.abiConfig.SaveDir
      (toLower "0xE1" ++ ".json")) = none ∧
    (DownloadABIs Sample.abiWorld Sample.abiConfig Sample.abiFiles []).err = none ∧
    (DownloadABIs Sample.abiWorld Sample.abiConfig Sample.abiFiles []).abis
      = [("0xe2", ⟨[]⟩)] ∧
    GetABI (DownloadABIs Sample.abiWorld Sample.abiConfig Sample.abiFiles []).abis "0xE1"
      = none :=
  ⟨by rfl, by decide, by rfl, by rfl, by rfl, by rfl⟩

/-- C17, amended.  With `auto_download = false` and a save directory that can be created,
`DownloadABIs` skips every configured address that has no ABI file: it writes no file,
the only error it returns is the load error, it returns nil exactly when every
configured address whose file exists has a file that can be read and parsed, and
afterwards `GetABI` answers for an address without a file what it answered before. -/
theorem DownloadABIs_skips_missing_files (w : AbiWorld) (cfg : AbiConfig) (files : Files)
    (abis : List (String × ABI)) (hauto : cfg.AutoDownload = false)
    (hmk : w.mkdirFails = false) :
    (DownloadABIs w cfg files abis).files = files ∧
    ((DownloadABIs w cfg files abis).err = none ∨
      (DownloadABIs w cfg files abis).err = some AbiError.load) ∧
    ((DownloadABIs w cfg files abis).err = none ↔
      ∀ a ∈ cfg.Addresses,
        files.lookup (w.join cfg.SaveDir (toLower a ++ ".json")) = none ∨
        Loadable w cfg files a) ∧
    (∀ a ∈ cfg.Addresses,
      files.lookup (w.join cfg.SaveDir (toLower a ++ ".json")) = none →
      GetABI (DownloadABIs w cfg files abis).abis a = GetABI abis a) := by
  have hrun : DownloadABIs w cfg files abis
      = DownloadABIsLoop w cfg cfg.Addresses files abis := by
    unfold DownloadABIs
    simp only [hmk, Bool.false_eq_true, if_false]
  rw [hrun]
  obtain ⟨h1, h2, h3, h4⟩ := DownloadABIsLoop_no_download w cfg files hauto cfg.Addresses abis
  refine ⟨h1, h2, h3, ?_⟩
  intro a _ hfile
  unfold GetABI
  apply h4
  intro b _ hb
  rw [hb]
  exact hfile

set_option maxRecDepth 100000 in
/-- C17 as amended, at the sample configuration: no file of `0xe1`, so no ABI for it and
no error. -/
theorem DownloadABIs_skips_missing_files_witness :
    Sample.abiConfig.AutoDownload = false ∧ Sample.abiWorld.mkdirFails = false ∧
    ((DownloadABIs Sample.abiWorld Sample.abiConfig Sample.abiFiles []).err = none ∨
      (DownloadABIs Sample.abiWorld Sample.abiConfig Sample.abiFiles []).err
        = some AbiError.load) ∧
    (DownloadABIs Sample.abiWorld Sample.abiConfig Sample.abiFiles []).files
      = Sample.abiFiles :=
  ⟨by rfl, by rfl,
    (DownloadABIs_skips_missing_files Sample.abiWorld Sample.abiConfig Sample.abiFiles []
      (by rfl) (by rfl)).2.1,
    (DownloadABIs_skips_missing_files Sample.abiWorld Sample.abiConfig Sample.abiFiles []
      (by rfl) (by rfl)).1⟩

/-! ### One outcome per log -/

/-- A loop whose body raises a counter by at most the weight of the item raises it by at
most the weight of the list. -/
theorem foldOutcome_count {α β : Type} (m : β → Nat) (w : α → Nat) (f : β → α → Outcome β)
    (hf : ∀ b a b', f b a = Outcome.ok b' → m b' ≤ m b + w a) :
    ∀ (l : List α) (b b' : β), foldOutcome f b l = Outcome.ok b' →
      m b' ≤ m b + (l.map w).sum := by
  intro l
  induction l with
  | nil =>
    intro b b' h
    simp only [foldOutcome, Outcome.ok.injEq] at h
    rw [← h]
    simp
  | cons a rest ih =>
    intro b b' h
    simp only [foldOutcome] at h
    split at h
    · rename_i b1 h1
      have h2 := ih b1 b' h
      have h3 := hf b a b1 h1
      simp only [List.map_cons, List.sum_cons]
      omega
    · simp at h

/-- The body of the log loop raises the sum of the two counters by at most one. -/
theorem scanLog_counts (env : Env) (blockNum : Nat) (blockTimestamp : Int)
    (finality txHash : String) (acc acc' : BlockScan) (log : Log)
    (h : scanLog env blockNum blockTimestamp finality txHash acc log = Outcome.ok acc') :
    acc'.poolCount + acc'.swapCount ≤ acc.poolCount + acc.swapCount + 1 := by
  unfold scanLog at h
  split at h
  · simp at h
  · simp only [Outcome.ok.injEq] at h
    rw [← h]
    show acc.poolCount + 1 + acc.swapCount ≤ acc.poolCount + acc.swapCount + 1
    omega
  · split at h
    · simp at h
    · simp only [Outcome.ok.injEq] at h
      rw [← h]
      show acc.poolCount + (acc.swapCount + 1) ≤ acc.poolCount + acc.swapCount + 1
      omega
    · simp only [Outcome.ok.injEq] at h
      rw [← h]
      show acc.poolCount + acc.swapCount ≤ acc.poolCount + acc.swapCount + 1
      omega

/-- C23.  In the log loop of `scanBlock` every log gets exactly one of three outcomes,
decided by what the two handlers return: when `handlePoolLog` returns true the log is
counted as a pool and the loop continues with the scanner and database `handlePoolLog`
left, whatever `handleSwapLog` would do on that log (it is not called); when it returns
false and `handleSwapLog` returns true the log is counted as a swap; when both return
false no counter moves.  So for a block whose receipts and timestamp were fetched, the
pool count plus the swap count is at most the number of logs in the block. -/
theorem scanBlock_one_outcome_per_log (env : Env) (blockNum : Nat) (finality : String) :
    (∀ (blockTimestamp : Int) (txHash : String) (acc : BlockScan) (log : Log)
        (s' : ABIScanner) (db' : DB),
      handlePoolLog env.lib env.abis acc.s acc.db (env.poolFault txHash log) blockNum txHash
          log = Outcome.ok (true, s', db') →
      scanLog env blockNum blockTimestamp finality txHash acc log
        = Outcome.ok { acc with s := s', db := db', poolCount := acc.poolCount + 1 }) ∧
    (∀ (blockTimestamp : Int) (txHash : String) (acc : BlockScan) (log : Log)
        (s' : ABIScanner) (db' db'' : DB),
      handlePoolLog env.lib env.abis acc.s acc.db (env.poolFault txHash log) blockNum txHash
          log = Outcome.ok (false, s', db') →
      handleSwapLog env.lib env.abis s' db' (env.swapFault txHash log) blockNum
          blockTimestamp txHash log finality = Outcome.ok (true, db'') →
      scanLog env blockNum blockTimestamp finality txHash acc log
        = Outcome.ok { acc with s := s', db := db'', swapCount := acc.swapCount + 1 }) ∧
    (∀ (blockTimestamp : Int) (txHash : String) (acc : BlockScan) (log : Log)
        (s' : ABIScanner) (db' db'' : DB),
      handlePoolLog env.lib env.abis acc.s acc.db (env.poolFault txHash log) blockNum txHash
          log = Outcome.ok (false, s', db') →
      handleSwapLog env.lib env.abis s' db' (env.swapFault txHash log) blockNum
          blockTimestamp txHash log finality = Outcome.ok (false, db'') →
      scanLog env blockNum blockTimestamp finality txHash acc log
        = Outcome.ok { acc with s := s', db := db'' }) ∧
    (∀ (s : ABIScanner) (db : DB) (r : BlockScan) (receipts : List Receipt),
      scanBlock env s db blockNum finality = Outcome.ok r →
      env.receipts blockNum = some receipts →
      r.poolCount + r.swapCount ≤ (receipts.map (fun receipt => receipt.Logs.length)).sum) := by
  refine ⟨?_, ?_, ?_, ?_⟩
  · intro blockTimestamp txHash acc log s' db' hp
    unfold scanLog
    simp only [hp]
  · intro blockTimestamp txHash acc log s' db' db'' hp hs
    unfold scanLog
    simp only [hp, hs]
  · intro blockTimestamp txHash acc log s' db' db'' hp hs
    unfold scanLog
    simp only [hp, hs]
  · intro s db r receipts h hrec
    unfold scanBlock at h
    simp only [hrec] at h
    split at h
    · simp only [Outcome.ok.injEq] at h
      rw [← h]
      simp
    · rename_i blockTimestamp hts
      have hcount := foldOutcome_count (fun acc : BlockScan => acc.poolCount + acc.swapCount)
        (fun receipt : Receipt => receipt.Logs.length) _ (fun acc receipt acc' hstep => by
          have hin := foldOutcome_count
            (fun a : BlockScan => a.poolCount + a.swapCount) (fun _ : Log => 1) _
            (fun a log a' hlog => scanLog_counts env blockNum blockTimestamp finality
              receipt.TxHash a a' log hlog) receipt.Logs acc acc' hstep
          simpa using hin) receipts ⟨false, s, db, 0, 0⟩ r h
      simpa using hcount

set_option maxRecDepth 100000 in
/-- C23, on block 121 of the sample chain, whose only log is a swap of the cached range
pool: the log is not handled as a pool, it is handled as a swap, and the counters of the
block are 0 and 1. -/
theorem scanBlock_one_outcome_per_log_witness :
    scanBlock Sample.env Sample.scanner Sample.emptyDB 121 "safe"
      = Outcome.ok ⟨false, Sample.scanner,
          ⟨[], [⟨121, 1700, "0xaa", 3, "0xC1", "0x51", "0x52", "0xB", "0xA", "510", "500",
            "safe"⟩], []⟩, 0, 1⟩ ∧
    Sample.env.receipts 121 = some [⟨"0xaa", [Sample.rangeLog]⟩] ∧
    0 + 1 ≤ ([(⟨"0xaa", [Sample.rangeLog]⟩ : Receipt)].map
      (fun receipt => receipt.Logs.length)).sum :=
  ⟨by rfl, by rfl,
    (scanBlock_one_outcome_per_log Sample.env 121 "safe").2.2.2 Sample.scanner
      Sample.emptyDB ⟨false, Sample.scanner,
        ⟨[], [⟨121, 1700, "0xaa", 3, "0xC1", "0x51", "0x52", "0xB", "0xA", "510", "500",
          "safe"⟩], []⟩, 0, 1⟩ [⟨"0xaa", [Sample.rangeLog]⟩] (by rfl) (by rfl)⟩

/-! ### Which PoolCreated logs are accepted -/

/-- The method `SavePool` returns an error exactly when the storage engine fails: a
duplicate key is no error. -/
theorem SavePool_err_iff (fail : Bool) (db : DB) (pool : Pool) :
    (SavePool fail db pool).1 = none ↔ fail = false := by
  unfold SavePool createRow
  cases fail with
  | true => simp
  | false =>
    simp only [Bool.false_eq_true, if_false]
    by_cases hany : (poolIndexes.any fun collide => db.pools.any (collide pool)) = true
    · simp [hany]
    · simp [hany]

set_option maxRecDepth 100000 in
/-- C22, refuted at an explicit log: the emitter is the tracked range factory, whose ABI
is loaded; topic 0 is the identifier of its PoolCreated event, which has two indexed
inputs, and the log has three topics; its payload has one word where the event has two
non-indexed inputs, so it does not decode.  The log is not accepted: nothing is
persisted and the cache is as before. -/
theorem handlePoolLog_rejects_undecodable_payload :
    Sample.scannerInit.factoryInfoMap.lookup
      (toLower (Sample.lib.addressHex Sample.poolLogShortData.Address))
      = some ⟨"range", "v3", "PoolCreated", ""⟩ ∧
    getABI Sample.abisWithFactory
      (toLower (Sample.lib.addressHex Sample.poolLogShortData.Address))
      = some ⟨[("PoolCreated", Sample.poolCreated)]⟩ ∧
    Sample.poolLogShortData.Topics.head? = some Sample.poolCreated.ID ∧
    (Sample.poolCreated.Inputs.filter (fun input => input.Indexed)).length + 1
      ≤ Sample.poolLogShortData.Topics.length ∧
    Sample.lib.unpackIntoMap ⟨[("PoolCreated", Sample.poolCreated)]⟩ "PoolCreated"
      Sample.poolLogShortData.Data = none ∧
    handlePoolLog Sample.lib Sample.abisWithFactory Sample.scannerInit Sample.emptyDB false
      120 "0x01" Sample.poolLogShortData
      = Outcome.ok (false, Sample.scannerInit, Sample.emptyDB) :=
  ⟨by rfl, by rfl, by rfl, by decide, by rfl, by rfl⟩

/-- C22, amended.  For a log with at least three topics whose emitter is a tracked
factory with a loaded ABI that has the configured event, `handlePoolLog` accepts the log
if and only if topic 0 is the identifier of the event, the number of topics is at least
the number of indexed inputs plus one, the payload decodes, and `SavePool` returns no
error (which it does unless the storage engine fails: a duplicate key is no error).  On
acceptance the pool handed to `SavePool` and put in the cache under its lowercased
address has token0 and token1 the low 20 bytes of topics 1 and 2, the address of the
emitter as factory, the type and version of the factory descriptor, and the transaction
and block of the log. -/
theorem handlePoolLog_accepts_iff (lib : EthLib) (abis : List (String × ABI))
    (s : ABIScanner) (db : DB) (fail : Bool) (blockNum : Nat) (txHash : String) (log : Log)
    (info : factoryInfo) (contracABI : ABI) (event : Event) (topic0 topic1 topic2 : Nat)
    (rest : List Nat)
    (hinfo : s.factoryInfoMap.lookup (toLower (lib.addressHex log.Address)) = some info)
    (habi : getABI abis (toLower (lib.addressHex log.Address)) = some contracABI)
    (hevent : contracABI.Events.lookup
      (if info.EventName = "" then "PoolCreated" else info.EventName) = some event)
    (htopics : log.Topics = topic0 :: topic1 :: topic2 :: rest) :
    ((∃ (s' : ABIScanner) (db' : DB),
        handlePoolLog lib abis s db fail blockNum txHash log = Outcome.ok (true, s', db')) ↔
      (topic0 = event.ID ∧
        (event.Inputs.filter (fun input => input.Indexed)).length + 1 ≤ log.Topics.length ∧
        (lib.unpackIntoMap contracABI
          (if info.EventName = "" then "PoolCreated" else info.EventName) log.Data).isSome
          = true ∧
        fail = false)) ∧
    (∀ (s' : ABIScanner) (db' : DB),
      handlePoolLog lib abis s db fail blockNum txHash log = Outcome.ok (true, s', db') →
      ∃ pool : Pool,
        pool.Token0 = lib.addressHex (topic1 % 2 ^ 160) ∧
        pool.Token1 = lib.addressHex (topic2 % 2 ^ 160) ∧
        pool.FactoryAddress = lib.addressHex log.Address ∧
        pool.PoolType = info.PoolType ∧ pool.Version = info.Version ∧
        pool.CreatedTx = txHash ∧ pool.CreatedBlock = blockNum ∧
        SavePool fail db pool = (none, db') ∧
        s' = { s with poolCache := (toLower pool.PoolAddress, pool) :: s.poolCache }) := by
  refine ⟨⟨?_, ?_⟩, ?_⟩
  · rintro ⟨s', db', hacc⟩
    obtain ⟨info1, abi1, event1, data, t1, t2, rest1, h1, h2, h3, h4, h5, h6, h7, _⟩ :=
      handlePoolLog_handled lib abis s s' db db' fail blockNum txHash log hacc
    rw [hinfo] at h1
    simp only [Option.some.injEq] at h1
    subst h1
    rw [habi] at h2
    simp only [Option.some.injEq] at h2
    subst h2
    rw [hevent] at h3
    simp only [Option.some.injEq] at h3
    subst h3
    rw [htopics] at h4
    simp only [List.cons.injEq] at h4
    refine ⟨h4.1, h5, by rw [h6]; rfl, ?_⟩
    exact (SavePool_err_iff fail db _).mp (by rw [h7])
  · rintro ⟨hid, hlen, hdata, hfail⟩
    cases hun : lib.unpackIntoMap contracABI
        (if info.EventName = "" then "PoolCreated" else info.EventName) log.Data with
    | none => simp [hun] at hdata
    | some data =>
      have hlen' : ¬ log.Topics.length
          < (event.Inputs.filter (fun input => input.Indexed)).length + 1 := by omega
      have hno : ∀ (pool : Pool) (e : DBError) (db' : DB),
          SavePool fail db pool ≠ (some e, db') := by
        intro pool e db' heq
        have h1 := (SavePool_err_iff fail db pool).mpr hfail
        rw [heq] at h1
        simp at h1
      subst hid
      unfold handlePoolLog
      simp only [hinfo, habi, hevent]
      rw [htopics] at hlen' ⊢
      simp only [ne_eq, not_true_eq_false, if_false, hlen', hun]
      split
      · rename_i e db' heq
        exact absurd heq (hno _ _ _)
      · exact ⟨_, _, rfl⟩
  · intro s' db' hacc
    obtain ⟨info1, abi1, event1, data, t1, t2, rest1, h1, h2, h3, h4, h5, h6, h7, h8⟩ :=
      handlePoolLog_handled lib abis s s' db db' fail blockNum txHash log hacc
    rw [hinfo] at h1
    simp only [Option.some.injEq] at h1
    subst h1
    rw [htopics] at h4
    simp only [List.cons.injEq] at h4
    obtain ⟨_, ht1, ht2, _⟩ := h4
    subst ht1
    subst ht2
    exact ⟨_, rfl, rfl, rfl, rfl, rfl, rfl, rfl, h7, h8⟩

set_option maxRecDepth 100000 in
/-- C22 as amended, at the sample PoolCreated log of the range factory (tokens `0xa`,
`0xb`, pool `0xc9`, three topics, a payload of two words): it is accepted. -/
theorem handlePoolLog_accepts_iff_witness :
    Sample.poolLog.Topics = [11, 0xa, 0xb] ∧
    ((∃ (s' : ABIScanner) (db' : DB),
        handlePoolLog Sample.lib Sample.abisWithFactory Sample.scannerInit Sample.emptyDB
          false 120 "0x01" Sample.poolLog = Outcome.ok (true, s', db')) ↔
      ((11 : Nat) = Sample.poolCreated.ID ∧
        (Sample.poolCreated.Inputs.filter (fun input => input.Indexed)).length + 1
          ≤ Sample.poolLog.Topics.length ∧
        (Sample.lib.unpackIntoMap ⟨[("PoolCreated", Sample.poolCreated)]⟩
          (if (⟨"range", "v3", "PoolCreated", ""⟩ : factoryInfo).EventName = ""
            then "PoolCreated"
            else (⟨"range", "v3", "PoolCreated", ""⟩ : factoryInfo).EventName)
          Sample.poolLog.Data).isSome = true ∧
        false = false)) :=
  ⟨by rfl,
    (handlePoolLog_accepts_iff Sample.lib Sample.abisWithFactory Sample.scannerInit
      Sample.emptyDB false 120 "0x01" Sample.poolLog ⟨"range", "v3", "PoolCreated", ""⟩
      ⟨[("PoolCreated", Sample.poolCreated)]⟩ Sample.poolCreated 11 0xa 0xb []
      (by rfl) (by rfl) (by rfl) (by rfl)).1⟩

/-! ### Logs with too few topics -/

set_option maxRecDepth 100000 in
/-- C25, at explicit logs.  A log of a cached pool whose topic 0 is the Swap identifier of
its master and which has one topic, or two, makes `handleSwapLog` read a topic that
does not exist: the call does not return a boolean, it dies on an index out of range.
So does `handlePoolLog` on a log of a tracked factory without topics.  The block scan,
and with it the stable worker, dies with the handler. -/
theorem handlers_panic_on_missing_topics :
    Sample.scanner.poolCache.lookup
      (toLower (Sample.lib.addressHex Sample.swapLogOneTopic.Address))
      = some Sample.rangePool ∧
    Sample.swapLogOneTopic.Topics = [Sample.rangeSwap.ID] ∧
    handleSwapLog Sample.lib Sample.abis Sample.scanner Sample.emptyDB Fault.clean 121 1700
      "0xaa" Sample.swapLogOneTopic "safe" = Outcome.panic ∧
    handleSwapLog Sample.lib Sample.abis Sample.scanner Sample.emptyDB Fault.clean 121 1700
      "0xaa" Sample.swapLogTwoTopics "safe" = Outcome.panic ∧
    Sample.scannerInit.factoryInfoMap.lookup
      (toLower (Sample.lib.addressHex Sample.factoryLogNoTopics.Address))
      = some ⟨"range", "v3", "PoolCreated", ""⟩ ∧
    handlePoolLog Sample.lib Sample.abisWithFactory Sample.scannerInit Sample.emptyDB false
      120 "0x01" Sample.factoryLogNoTopics = Outcome.panic ∧
    scanBlock Sample.envOneTopic Sample.scanner Sample.emptyDB 121 "safe" = Outcome.panic ∧
    (stableRound ⟨120, Sample.scanner, Sample.dbAt120, [], Phase.looping⟩
      ⟨Sample.envOneTopic, some 121, [SchedEvent.finish 0], false⟩).phase
      = Phase.crashed :=
  ⟨by rfl, by rfl, by rfl, by rfl, by rfl, by rfl, by rfl, by rfl⟩

/-! ### Accounting of a range -/

/-- Taking blocks off the channel leaves the consumers busy, when there is fuel for every
idle consumer or the producer has ended. -/
theorem refill_busy (workers end_ : Nat) :
    ∀ (fuel : Nat) (st : RangeState), st.inflight.length ≤ workers →
      (workers - st.inflight.length ≤ fuel ∨ end_ < st.next) →
      Busy workers end_ (refill workers end_ fuel st) := by
  intro fuel
  induction fuel with
  | zero =>
    intro st hle hfuel
    unfold refill
    refine ⟨hle, fun hnext => ?_⟩
    rcases hfuel with h | h <;> omega
  | succ n ih =>
    intro st hle hfuel
    unfold refill
    split
    · rename_i hcond
      apply ih
      · simp only [List.length_append, List.length_singleton]
        omega
      · left
        simp only [List.length_append, List.length_singleton]
        rcases hfuel with h | h <;> omega
    · rename_i hcond
      refine ⟨hle, fun hnext => ?_⟩
      by_contra hne
      exact hcond ⟨by omega, hnext⟩

/-- The end of a `scanBlock` call on a block in flight adds one entry to the record of
finished blocks. -/
theorem scanRangeStep_finish_length (env : Env) (finality : String) (end_ : Nat)
    (st st' : RangeState) (i : Nat) (hne : st.inflight ≠ [])
    (hstep : scanRangeStep env finality end_ st (SchedEvent.finish i) = Outcome.ok st') :
    st'.finished.length = st.finished.length + 1 := by
  simp only [scanRangeStep] at hstep
  split at hstep
  · rename_i hget
    rw [List.get?_eq_none] at hget
    have hpos : 0 < st.inflight.length := List.length_pos.mpr hne
    have := Nat.mod_lt i hpos
    omega
  · rename_i blockNum hget
    split at hstep
    · simp at hstep
    · rename_i r hscan
      simp only [Outcome.ok.injEq] at hstep
      rw [← hstep, (refill_frame _ _ _ _).2.1]
      by_cases herr : r.err = true
      · simp [herr]
      · simp only [herr, Bool.false_eq_true, if_false]
        by_cases hgt : blockNum > st.maxScannedBlock
        · simp [hgt]
        · simp [hgt]

/-- Every event of a range keeps the consumers busy. -/
theorem scanRangeStep_busy (env : Env) (finality : String) (cfg : ScannerConfig)
    (end_ : Nat) (st st' : RangeState) (ev : SchedEvent)
    (h : Busy (workerCount cfg).toNat end_ st ∧ st.s.cfg = cfg)
    (hstep : scanRangeStep env finality end_ st ev = Outcome.ok st') :
    Busy (workerCount cfg).toNat end_ st' ∧ st'.s.cfg = cfg := by
  obtain ⟨⟨hle, hfull⟩, hcfg⟩ := h
  cases ev with
  | finish i =>
    simp only [scanRangeStep] at hstep
    split at hstep
    · simp only [Outcome.ok.injEq] at hstep
      rw [← hstep]
      exact ⟨⟨hle, hfull⟩, hcfg⟩
    · rename_i blockNum hget
      split at hstep
      · simp at hstep
      · rename_i r hscan
        simp only [Outcome.ok.injEq] at hstep
        have hrcfg : r.s.cfg = cfg := by rw [scanBlock_cfg _ _ _ _ _ _ hscan, hcfg]
        have hlt : i % st.inflight.length < st.inflight.length := by
          obtain ⟨h1, _⟩ := List.get?_eq_some.mp hget
          exact h1
        have hlen : (st.inflight.eraseIdx (i % st.inflight.length)).length
            = st.inflight.length - 1 := by
          rw [List.length_eraseIdx, if_pos hlt]
        rw [← hstep, hcfg]
        refine ⟨?_, ?_⟩
        · apply refill_busy
          · by_cases herr : r.err = true
            · simp only [herr, if_true]
              show (st.inflight.eraseIdx (i % st.inflight.length)).length ≤ _
              omega
            · simp only [herr, Bool.false_eq_true, if_false]
              by_cases hgt : blockNum > st.maxScannedBlock
              · simp only [hgt, if_true]
                show (st.inflight.eraseIdx (i % st.inflight.length)).length ≤ _
                omega
              · simp only [hgt, if_false]
                show (st.inflight.eraseIdx (i % st.inflight.length)).length ≤ _
                omega
          · by_cases hnext : st.next ≤ end_
            · left
              have hfull' := hfull hnext
              by_cases herr : r.err = true
              · simp only [herr, if_true]
                show _ - (st.inflight.eraseIdx (i % st.inflight.length)).length ≤ 1
                omega
              · simp only [herr, Bool.false_eq_true, if_false]
                by_cases hgt : blockNum > st.maxScannedBlock
                · simp only [hgt, if_true]
                  show _ - (st.inflight.eraseIdx (i % st.inflight.length)).length ≤ 1
                  omega
                · simp only [hgt, if_false]
                  show _ - (st.inflight.eraseIdx (i % st.inflight.length)).length ≤ 1
                  omega
            · right
              by_cases herr : r.err = true
              · simp only [herr, if_true]
                show end_ < st.next
                omega
              · simp only [herr, Bool.false_eq_true, if_false]
                by_cases hgt : blockNum > st.maxScannedBlock
                · simp only [hgt, if_true]
                  show end_ < st.next
                  omega
                · simp only [hgt, if_false]
                  show end_ < st.next
                  omega
        · rw [(refill_frame _ _ _ _).2.2.2.2.2.1]
          by_cases herr : r.err = true
          · simp only [herr, if_true]
            exact hrcfg
          · simp only [herr, Bool.false_eq_true, if_false]
            by_cases hgt : blockNum > st.maxScannedBlock
            · simp only [hgt, if_true]
              exact hrcfg
            · simp only [hgt, if_false]
              exact hrcfg
  | tick fail =>
    simp only [scanRangeStep] at hstep
    split at hstep
    · split at hstep
      · split at hstep
        · simp only [Outcome.ok.injEq] at hstep
          rw [← hstep]
          exact ⟨⟨hle, hfull⟩, hcfg⟩
        · simp only [Outcome.ok.injEq] at hstep
          rw [← hstep]
          exact ⟨⟨hle, hfull⟩, hcfg⟩
      · simp only [Outcome.ok.injEq] at hstep
        rw [← hstep]
        exact ⟨⟨hle, hfull⟩, hcfg⟩
    · simp only [Outcome.ok.injEq] at hstep
      rw [← hstep]
      exact ⟨⟨hle, hfull⟩, hcfg⟩

/-- Once a range has returned, no event moves its blocks. -/
theorem scanRangeStep_returned (env : Env) (finality : String) (end_ : Nat)
    (st st' : RangeState) (ev : SchedEvent) (h : st.returned end_ = true)
    (hstep : scanRangeStep env finality end_ st ev = Outcome.ok st') :
    st'.returned end_ = true := by
  have h' := h
  unfold RangeState.returned at h'
  simp only [Bool.and_eq_true, List.isEmpty_iff, Bool.not_eq_true',
    decide_eq_false_iff_not, not_le] at h'
  cases ev with
  | finish i =>
    simp only [scanRangeStep, h'.1, List.length_nil, Nat.mod_zero, List.get?_nil] at hstep
    simp only [Outcome.ok.injEq] at hstep
    rw [← hstep]
    exact h
  | tick fail =>
    simp only [scanRangeStep] at hstep
    split at hstep
    · split at hstep
      · split at hstep
        · simp only [Outcome.ok.injEq] at hstep
          rw [← hstep]
          exact h
        · simp only [Outcome.ok.injEq] at hstep
          rw [← hstep]
          exact h
      · simp only [Outcome.ok.injEq] at hstep
        rw [← hstep]
        exact h
    · simp only [Outcome.ok.injEq] at hstep
      rw [← hstep]
      exact h

/-- The ticker leaves the record of finished blocks alone. -/
theorem scanRangeStep_tick_finished (env : Env) (finality : String) (end_ : Nat)
    (st st' : RangeState) (fail : Bool)
    (hstep : scanRangeStep env finality end_ st (SchedEvent.tick fail) = Outcome.ok st') :
    st'.finished = st.finished := by
  simp only [scanRangeStep] at hstep
  split at hstep
  · split at hstep
    · split at hstep
      · simp only [Outcome.ok.injEq] at hstep
        rw [← hstep]
      · simp only [Outcome.ok.injEq] at hstep
        rw [← hstep]
    · simp only [Outcome.ok.injEq] at hstep
      rw [← hstep]
  · simp only [Outcome.ok.injEq] at hstep
    rw [← hstep]

/-- Progress of a range with at least one consumer: after a schedule, the range has
returned or every finishing event of the schedule has finished one block. -/
theorem scanRange_progress (env : Env) (finality : String) (cfg : ScannerConfig)
    (end_ : Nat) (hw : 1 ≤ (workerCount cfg).toNat) :
    ∀ (sched : List SchedEvent) (st rs : RangeState),
      Busy (workerCount cfg).toNat end_ st ∧ st.s.cfg = cfg →
      foldOutcome (scanRangeStep env finality end_) st sched = Outcome.ok rs →
      rs.returned end_ = true ∨ st.finished.length + countFinish sched ≤ rs.finished.length := by
  intro sched
  induction sched with
  | nil =>
    intro st rs _ h
    simp only [foldOutcome, Outcome.ok.injEq] at h
    rw [← h]
    right
    simp [countFinish]
  | cons ev rest ih =>
    intro st rs hinv h
    simp only [foldOutcome] at h
    split at h
    · rename_i st1 hstep
      have hinv1 := scanRangeStep_busy env finality cfg end_ st st1 ev hinv hstep
      cases ev with
      | tick fail =>
        have hfin := scanRangeStep_tick_finished env finality end_ st st1 fail hstep
        rcases ih st1 rs hinv1 h with hr | hr
        · exact Or.inl hr
        · right
          rw [hfin] at hr
          simpa [countFinish] using hr
      | finish i =>
        by_cases hne : st.inflight = []
        · left
          have hret : st.returned end_ = true := by
            unfold RangeState.returned
            simp only [Bool.and_eq_true, List.isEmpty_iff, Bool.not_eq_true',
              decide_eq_false_iff_not, not_le]
            refine ⟨hne, ?_⟩
            by_contra hnext
            have := hinv.1.2 (by omega)
            rw [hne] at this
            simp at this
            omega
          have hret1 := scanRangeStep_returned env finality end_ st st1 _ hret hstep
          exact foldOutcome_invariant (fun x : RangeState => x.returned end_ = true) _
            (fun b a b' hb hs => scanRangeStep_returned env finality end_ b b' a hb hs)
            rest st1 rs hret1 h
        · have hlen := scanRangeStep_finish_length env finality end_ st st1 i hne hstep
          rcases ih st1 rs hinv1 h with hr | hr
          · exact Or.inl hr
          · right
            have hc : countFinish (SchedEvent.finish i :: rest) = countFinish rest + 1 := by
              simp [countFinish]
            omega
    · simp at h

/-- Every event of a range keeps the error counter equal to the number of finished
blocks whose scan returned an error. -/
theorem scanRangeStep_errors (env : Env) (finality : String) (end_ : Nat)
    (st st' : RangeState) (ev : SchedEvent)
    (h : st.errorCount = (st.finished.filter (fun p => !p.2)).length)
    (hstep : scanRangeStep env finality end_ st ev = Outcome.ok st') :
    st'.errorCount = (st'.finished.filter (fun p => !p.2)).length := by
  cases ev with
  | finish i =>
    simp only [scanRangeStep] at hstep
    split at hstep
    · simp only [Outcome.ok.injEq] at hstep
      rw [← hstep]
      exact h
    · rename_i blockNum hget
      split at hstep
      · simp at hstep
      · rename_i r hscan
        simp only [Outcome.ok.injEq] at hstep
        rw [← hstep, (refill_frame _ _ _ _).1, (refill_frame _ _ _ _).2.1]
        by_cases herr : r.err = true
        · simp [herr, h, List.filter_append]
        · simp only [herr, Bool.false_eq_true, if_false]
          by_cases hgt : blockNum > st.maxScannedBlock
          · simp [hgt, herr, h, List.filter_append]
          · simp [hgt, herr, h, List.filter_append]
  | tick fail =>
    simp only [scanRangeStep] at hstep
    split at hstep
    · split at hstep
      · split at hstep
        · simp only [Outcome.ok.injEq] at hstep
          rw [← hstep]
          exact h
        · simp only [Outcome.ok.injEq] at hstep
          rw [← hstep]
          exact h
      · simp only [Outcome.ok.injEq] at hstep
        rw [← hstep]
        exact h
    · simp only [Outcome.ok.injEq] at hstep
      rw [← hstep]
      exact h

/-- A range whose block scans do not panic does not panic. -/
theorem scanRange_total (env : Env) (finality : String) (end_ : Nat)
    (hscan : ∀ (s : ABIScanner) (db : DB) (b : Nat),
      scanBlock env s db b finality ≠ Outcome.panic) :
    ∀ (sched : List SchedEvent) (st : RangeState),
      ∃ rs, foldOutcome (scanRangeStep env finality end_) st sched = Outcome.ok rs := by
  intro sched
  induction sched with
  | nil => intro st; exact ⟨st, rfl⟩
  | cons ev rest ih =>
    intro st
    have hstep : ∃ st1, scanRangeStep env finality end_ st ev = Outcome.ok st1 := by
      cases ev with
      | finish i =>
        simp only [scanRangeStep]
        split
        · exact ⟨_, rfl⟩
        · rename_i blockNum hget
          cases hsb : scanBlock env st.s st.db blockNum finality with
          | panic => exact absurd hsb (hscan _ _ _)
          | ok r => exact ⟨_, rfl⟩
      | tick fail =>
        simp only [scanRangeStep]
        split
        · split
          · split
            · exact ⟨_, rfl⟩
            · exact ⟨_, rfl⟩
          · exact ⟨_, rfl⟩
        · exact ⟨_, rfl⟩
    obtain ⟨st1, h1⟩ := hstep
    obtain ⟨rs, hrs⟩ := ih st1
    exact ⟨rs, by simp only [foldOutcome, h1, hrs]⟩

/-- A `scanRange` call that gets past `make(chan uint64, workers*2)` has at least one
consumer. -/
theorem workerCount_pos (cfg : ScannerConfig) (h : ¬ workerCount cfg < 0) :
    1 ≤ (workerCount cfg).toNat := by
  unfold workerCount at h ⊢
  split
  · decide
  · rename_i hw
    rw [if_neg hw] at h
    omega

/-- C21.  For a range `[c + 1, end_]` with `c <= end_` and `end_` below the largest
uint64, and every schedule of its consumers and ticker: when the worker count is not
negative and no block scan panics, `scanRange` does not panic; and whenever it has not
panicked, (1) once as many blocks have finished as the range holds, the call has
returned (it returns nil), (2) when it has returned, the blocks whose scan has ended are
exactly the blocks of the range, each once, (3) the error counter is the number of
blocks whose scan returned an error, and (4) the observed maximum is at least every
block scanned without error, is one of them when there is one, and is `c`, the block
before the range, when there is none. -/
theorem scanRange_accounting (env : Env) (s : ABIScanner) (db : DB) (c end_ : Nat)
    (finality : String) (sched : List SchedEvent) (hc : c ≤ end_)
    (hend : end_ + 1 < 2 ^ 64) :
    (0 ≤ workerCount s.cfg →
      (∀ (s' : ABIScanner) (db' : DB) (b : Nat),
        scanBlock env s' db' b finality ≠ Outcome.panic) →
      ∃ rs, scanRangeRun env s db (c + 1) end_ finality sched = Outcome.ok rs) ∧
    (∀ rs : RangeState,
      scanRangeRun env s db (c + 1) end_ finality sched = Outcome.ok rs →
      (end_ - c ≤ countFinish sched → rs.returned end_ = true) ∧
      (rs.returned end_ = true →
        (rs.finished.map Prod.fst).Perm (List.range' (c + 1) (end_ - c))) ∧
      rs.errorCount = (rs.finished.filter (fun p => !p.2)).length ∧
      (∀ b, (b, true) ∈ rs.finished → b ≤ rs.maxScannedBlock) ∧
      ((∃ b, (b, true) ∈ rs.finished) → (rs.maxScannedBlock, true) ∈ rs.finished) ∧
      ((∀ b, (b, true) ∉ rs.finished) → rs.maxScannedBlock = c)) := by
  refine ⟨?_, ?_⟩
  · intro hw hscan
    unfold scanRangeRun scanRangeInit
    rw [if_neg (by omega)]
    exact scanRange_total env finality end_ hscan sched _
  · intro rs hrun
    obtain ⟨hacc, hperm⟩ := scanRangeRun_account env s db (c + 1) end_ finality sched rs
      (by omega) hend hrun
    obtain ⟨hm1, hm2, hm3, _⟩ := scanRangeRun_max env s db c end_ finality sched rs hrun
    obtain ⟨ha1, ha2, ha3⟩ := hacc
    have hsum : rs.finished.length + rs.inflight.length = rs.next - (c + 1) := by
      have := ha3.length_eq
      simpa using this
    have hlen : end_ + 1 - (c + 1) = end_ - c := by omega
    have hrun' := hrun
    unfold scanRangeRun at hrun'
    split at hrun'
    · simp at hrun'
    · rename_i st0 hinit
      unfold scanRangeInit at hinit
      split at hinit
      · simp at hinit
      · rename_i hneg
        simp only [Outcome.ok.injEq] at hinit
        have hw := workerCount_pos s.cfg hneg
        have hfin0 : st0.finished = [] := by
          rw [← hinit, (refill_frame _ _ _ _).2.1]
        have herr0 : st0.errorCount = (st0.finished.filter (fun p => !p.2)).length := by
          rw [hfin0, ← hinit, (refill_frame _ _ _ _).1]
          rfl
        have hbusy0 : Busy (workerCount s.cfg).toNat end_ st0 ∧ st0.s.cfg = s.cfg := by
          rw [← hinit]
          refine ⟨?_, by rw [(refill_frame _ _ _ _).2.2.2.2.2.1]⟩
          apply refill_busy
          · simp
          · left
            simp
        refine ⟨?_, ?_, ?_, hm2, ?_, ?_⟩
        · intro hcount
          rcases scanRange_progress env finality s.cfg end_ hw sched st0 rs hbusy0 hrun'
            with hr | hr
          · exact hr
          · rw [hfin0] at hr
            simp only [List.length_nil, Nat.zero_add] at hr
            unfold RangeState.returned
            simp only [Bool.and_eq_true, List.isEmpty_iff, Bool.not_eq_true',
              decide_eq_false_iff_not, not_le]
            refine ⟨List.length_eq_zero.mp (by omega), by omega⟩
        · intro hret
          have := hperm hret
          rw [hlen] at this
          exact this
        · exact foldOutcome_invariant
            (fun st : RangeState => st.errorCount = (st.finished.filter (fun p => !p.2)).length)
            _ (fun b a b' hb hs => scanRangeStep_errors env finality end_ b b' a hb hs)
            sched st0 rs herr0 hrun'
        · rintro ⟨b, hb⟩
          rcases hm1 with hmc | hmem
          · exfalso
            have hle := hm2 b hb
            have hin : b ∈ rs.finished.map Prod.fst ++ rs.inflight :=
              List.mem_append_left _ (List.mem_map.mpr ⟨(b, true), hb, rfl⟩)
            have hr := ha3.subset hin
            rw [List.mem_range'_1] at hr
            omega
          · exact hmem
        · intro hnone
          rcases hm1 with hmc | hmem
          · exact hmc
          · exact absurd hmem (hnone _)

set_option maxRecDepth 100000 in
/-- C21, on the range [200, 201] of a chain whose endpoint fails on the receipts of block
200, with two consumers: the call does not panic; after two blocks have finished it has
returned with error counter 1 and observed maximum 201. -/
theorem scanRange_accounting_witness :
    199 ≤ 201 ∧ 201 + 1 < 2 ^ 64 ∧
    scanRangeRun Sample.envFail200 Sample.scanner Sample.emptyDB (199 + 1) 201 "safe"
        [SchedEvent.finish 0, SchedEvent.finish 0]
      = Outcome.ok ⟨Sample.scanner, Sample.emptyDB, 202, [], 201, 1, 199, [],
          [(200, false), (201, true)]⟩ ∧
    (∃ rs, scanRangeRun Sample.envFail200 Sample.scanner Sample.emptyDB (199 + 1) 201 "safe"
        [SchedEvent.finish 0, SchedEvent.finish 0] = Outcome.ok rs) :=
  ⟨by decide, by decide, by rfl,
    (scanRange_accounting Sample.envFail200 Sample.scanner Sample.emptyDB 199 201 "safe"
      [SchedEvent.finish 0, SchedEvent.finish 0] (by decide) (by decide)).1 (by decide)
      (fun s' db' b => by
        unfold scanBlock
        by_cases hb : b = 200
        · simp [Sample.envFail200, hb]
        · simp [Sample.envFail200, Sample.env, hb, foldOutcome])⟩

/-! ### Resuming on start -/

/-- When the `stable_scan` row holds a height other than 0, `Start` hands that height to
the stable worker and leaves the database alone. -/
theorem Start_resumes_nonzero (cfg : ScannerConfig) (initFails : Bool) (db : DB)
    (row : ScanProgress)
    (hrow : db.scanProgress.find? (fun p => p.TaskName == "stable_scan") = some row)
    (hc : row.LastScannedBlock ≠ 0) :
    Start cfg false initFails db = Except.ok (row.LastScannedBlock, db) := by
  unfold Start GetScanProgress
  simp only [Bool.false_eq_true, if_false, hrow, hc]

/-- When there is no `stable_scan` row and the storage engine answers, `Start` inserts
one with the configured start block and hands that block to the stable worker. -/
theorem Start_fresh (cfg : ScannerConfig) (db : DB)
    (hrow : db.scanProgress.find? (fun p => p.TaskName == "stable_scan") = none) :
    Start cfg false false db
      = Except.ok (toUint64 cfg.StartBlock,
          { db with scanProgress := db.scanProgress
              ++ [⟨"stable_scan", toUint64 cfg.StartBlock, "running", ""⟩] }) := by
  have hany : (db.scanProgress.any
      (fun p => (⟨"stable_scan", toUint64 cfg.StartBlock, "running", ""⟩ : ScanProgress).TaskName
        == p.TaskName)) = false := by
    rw [List.find?_eq_none] at hrow
    rw [List.any_eq_false]
    intro p hp hcol
    apply hrow p hp
    simp only [beq_iff_eq] at hcol ⊢
    exact hcol.symm
  unfold Start GetScanProgress InitScanProgress createRow scanProgressIndexes
  simp only [Bool.false_eq_true, if_false, hrow, if_true, List.any_cons, List.any_nil,
    Bool.or_false, hany]

set_option maxRecDepth 100000 in
/-- C27, at an explicit state.  With `start_block = 0` the first `Start` on an empty
database inserts the `stable_scan` row with height 0.  On the next `Start`, before any
progress was written, the row exists with value 0: `GetScanProgress` returns 0, `Start`
takes that for a first run and calls `InitScanProgress`, the unique index on
`task_name` refuses the insert, and `Start` returns the error instead of resuming at
cursor 0.  The same happens with any other configured start block. -/
theorem Start_fails_on_row_at_zero :
    Start Sample.cfgStartZero false false Sample.emptyDB = Except.ok (0, Sample.dbAt0) ∧
    GetScanProgress false Sample.dbAt0 "stable_scan" = Except.ok 0 ∧
    Start Sample.cfgStartZero false false Sample.dbAt0
      = Except.error DBError.duplicateEntry ∧
    Start Sample.scanner.cfg false false Sample.dbAt0
      = Except.error DBError.duplicateEntry :=
  ⟨by rfl, by rfl, by rfl, by rfl⟩

/-! ### The pool cache and the table of pools -/

/-- When `SavePool` returns no error, either no row had the address of the pool and the
pool was appended, or a row had it and the table is as before. -/
theorem SavePool_pools (fail : Bool) (db db' : DB) (pool : Pool)
    (h : SavePool fail db pool = (none, db')) :
    (db'.pools = db.pools ++ [pool]) ∨
    (db' = db ∧ ∃ row ∈ db.pools, row.PoolAddress = pool.PoolAddress) := by
  unfold SavePool createRow at h
  cases fail with
  | true => simp at h
  | false =>
    simp only [Bool.false_eq_true, if_false] at h
    by_cases hany : (poolIndexes.any fun collide => db.pools.any (collide pool)) = true
    · right
      simp only [hany, if_true] at h
      simp only [Prod.mk.injEq, true_and] at h
      refine ⟨h.symm, ?_⟩
      simp only [poolIndexes, List.any_cons, List.any_nil, Bool.or_false, List.any_eq_true,
        beq_iff_eq] at hany
      obtain ⟨row, hrow, heq⟩ := hany
      exact ⟨row, hrow, heq.symm⟩
    · left
      simp only [hany, Bool.false_eq_true, if_false] at h
      simp only [Prod.mk.injEq, true_and] at h
      rw [← h]

/-- When `SavePool` returns an error the database is as before. -/
theorem SavePool_error (fail : Bool) (db db' : DB) (pool : Pool) (e : DBError)
    (h : SavePool fail db pool = (some e, db')) : db' = db := by
  unfold SavePool at h
  split at h
  · simp at h
  · split at h
    · simp at h
    · simp only [Prod.mk.injEq] at h
      exact h.2.symm

/-- A log `handlePoolLog` does not accept leaves the cache and the database alone. -/
theorem handlePoolLog_not_handled (lib : EthLib) (abis : List (String × ABI))
    (s s' : ABIScanner) (db db' : DB) (fail : Bool) (blockNum : Nat) (txHash : String)
    (log : Log)
    (h : handlePoolLog lib abis s db fail blockNum txHash log = Outcome.ok (false, s', db')) :
    s' = s ∧ db' = db := by
  unfold handlePoolLog at h
  simp only [] at h
  have hkeep : (Outcome.ok (false, s, db) : Outcome (Bool × ABIScanner × DB))
      = Outcome.ok (false, s', db') → s' = s ∧ db' = db := by
    intro hx
    simp only [Outcome.ok.injEq, Prod.mk.injEq, true_and] at hx
    exact ⟨hx.1.symm, hx.2.symm⟩
  split at h
  · exact hkeep h
  · split at h
    · exact hkeep h
    · split at h
      · exact hkeep h
      · split at h
        · simp at h
        · split at h
          · exact hkeep h
          · split at h
            · exact hkeep h
            · split at h
              · split at h
                · exact hkeep h
                · split at h
                  · rename_i e d hs
                    simp only [Outcome.ok.injEq, Prod.mk.injEq, true_and] at h
                    have hd := SavePool_error _ _ _ _ _ hs
                    exact ⟨h.1.symm, by rw [← h.2, hd]⟩
                  · simp at h
              · simp at h

/-- The cache `initPoolCache` builds holds rows of `pools` only. -/
theorem initPoolCache_persisted (fail : Bool) (db : DB) (k : String) (p : Pool)
    (h : (initPoolCache fail db).lookup k = some p) : p ∈ db.pools := by
  have hfold : ∀ (pools : List Pool) (cache : List (String × Pool)),
      (∀ q, cache.lookup k = some q → q ∈ db.pools) → (∀ q ∈ pools, q ∈ db.pools) →
      ∀ q, (pools.foldl (fun cache pool => (toLower pool.PoolAddress, pool) :: cache)
        cache).lookup k = some q → q ∈ db.pools := by
    intro pools
    induction pools with
    | nil => intro cache hc _ q hq; exact hc q hq
    | cons a rest ih =>
      intro cache hc hp q hq
      simp only [List.foldl_cons] at hq
      refine ih _ ?_ (fun x hx => hp x (List.mem_cons_of_mem _ hx)) q hq
      intro x hx
      simp only [List.lookup_cons] at hx
      split at hx
      · simp only [Option.some.injEq] at hx
        rw [← hx]
        exact hp a (List.mem_cons_self _ _)
      · exact hc x hx
  unfold initPoolCache GetAllPools at h
  cases fail with
  | true => simp at h
  | false =>
    simp only [Bool.false_eq_true, if_false] at h
    exact hfold db.pools [] (fun q hq => by simp at hq) (fun q hq => hq) p h

/-- The cache `initPoolCache` builds stores every pool under its lowercased address. -/
theorem initPoolCache_keys (fail : Bool) (db : DB) (k : String) (p : Pool)
    (h : (initPoolCache fail db).lookup k = some p) : k = toLower p.PoolAddress := by
  have hfold : ∀ (pools : List Pool) (cache : List (String × Pool)),
      (∀ q, cache.lookup k = some q → k = toLower q.PoolAddress) →
      ∀ q, (pools.foldl (fun cache pool => (toLower pool.PoolAddress, pool) :: cache)
        cache).lookup k = some q → k = toLower q.PoolAddress := by
    intro pools
    induction pools with
    | nil => intro cache hc q hq; exact hc q hq
    | cons a rest ih =>
      intro cache hc q hq
      simp only [List.foldl_cons] at hq
      refine ih _ ?_ q hq
      intro x hx
      simp only [List.lookup_cons] at hx
      split at hx
      · rename_i hk
        simp only [Option.some.injEq] at hx
        rw [← hx]
        simpa using hk
      · exact hc x hx
  unfold initPoolCache GetAllPools at h
  cases fail with
  | true => simp at h
  | false =>
    simp only [Bool.false_eq_true, if_false] at h
    exact hfold db.pools [] (fun q hq => by simp at hq) p h

/-- One call of `handlePoolLog` keeps every cache entry under its lowercased address with
a row of that address in `pools`, and keeps the rows of `pools`. -/
theorem handlePoolLog_cache_has_row (lib : EthLib) (abis : List (String × ABI))
    (s s' : ABIScanner) (db db' : DB) (fail : Bool) (blockNum : Nat) (txHash : String)
    (log : Log) (b : Bool) (hinv : CacheHasRow s db)
    (h : handlePoolLog lib abis s db fail blockNum txHash log = Outcome.ok (b, s', db')) :
    CacheHasRow s' db' ∧ ∀ row ∈ db.pools, row ∈ db'.pools := by
  cases b with
  | false =>
    obtain ⟨h1, h2⟩ := handlePoolLog_not_handled lib abis s s' db db' fail blockNum txHash
      log h
    rw [h1, h2]
    exact ⟨hinv, fun row hrow => hrow⟩
  | true =>
    obtain ⟨info, contracABI, event, data, topic1, topic2, rest, _, _, _, _, _, _, hsave,
      hs'⟩ := handlePoolLog_handled lib abis s s' db db' fail blockNum txHash log h
    have hsub : ∀ row ∈ db.pools, row ∈ db'.pools := by
      intro row hrow
      rcases SavePool_pools _ _ _ _ hsave with happ | ⟨hsame, _⟩
      · rw [happ]
        exact List.mem_append_left _ hrow
      · rw [hsame]
        exact hrow
    refine ⟨?_, hsub⟩
    intro k p hk
    rw [hs'] at hk
    simp only [List.lookup_cons] at hk
    split at hk
    · rename_i hkey
      simp only [Option.some.injEq] at hk
      rw [← hk]
      refine ⟨by simpa using hkey, ?_⟩
      rcases SavePool_pools _ _ _ _ hsave with happ | ⟨hsame, row, hrow, haddr⟩
      · exact ⟨_, by rw [happ]; exact List.mem_append_right _ (List.mem_singleton_self _), rfl⟩
      · exact ⟨row, by rw [hsame]; exact hrow, haddr⟩
    · obtain ⟨h1, row, hrow, haddr⟩ := hinv k p hk
      exact ⟨h1, row, hsub row hrow, haddr⟩

/-- When `SavePool` appends the pool, no row had its address. -/
theorem SavePool_fresh (fail : Bool) (db db' : DB) (pool : Pool)
    (h : SavePool fail db pool = (none, db')) :
    (db'.pools = db.pools ++ [pool] ∧
      ∀ row ∈ db.pools, row.PoolAddress ≠ pool.PoolAddress) ∨
    (db' = db ∧ ∃ row ∈ db.pools, row.PoolAddress = pool.PoolAddress) := by
  unfold SavePool createRow at h
  cases fail with
  | true => simp at h
  | false =>
    simp only [Bool.false_eq_true, if_false] at h
    by_cases hany : (poolIndexes.any fun collide => db.pools.any (collide pool)) = true
    · right
      simp only [hany, if_true] at h
      simp only [Prod.mk.injEq, true_and] at h
      refine ⟨h.symm, ?_⟩
      simp only [poolIndexes, List.any_cons, List.any_nil, Bool.or_false, List.any_eq_true,
        beq_iff_eq] at hany
      obtain ⟨row, hrow, heq⟩ := hany
      exact ⟨row, hrow, heq.symm⟩
    · left
      have hany' := hany
      simp only [hany, Bool.false_eq_true, if_false] at h
      simp only [Prod.mk.injEq, true_and] at h
      refine ⟨by rw [← h], ?_⟩
      intro row hrow heq
      apply hany'
      simp only [poolIndexes, List.any_cons, List.any_nil, Bool.or_false, List.any_eq_true,
        beq_iff_eq]
      exact ⟨row, hrow, heq.symm⟩

/-- A sequence of calls is its first call followed by the rest. -/
theorem handlePoolLogs_cons (lib : EthLib) (abis : List (String × ABI)) (s : ABIScanner)
    (db : DB) (call : PoolCall) (rest : List PoolCall) :
    handlePoolLogs lib abis s db (call :: rest)
      = match handlePoolLog lib abis s db call.fail call.blockNum call.txHash call.log with
        | Outcome.panic => Outcome.panic
        | Outcome.ok (_, s', db') => handlePoolLogs lib abis s' db' rest := by
  unfold handlePoolLogs
  simp only [foldOutcome]
  cases handlePoolLog lib abis s db call.fail call.blockNum call.txHash call.log with
  | panic => rfl
  | ok r => rfl

/-- One call of `handlePoolLog` keeps the rows of `pools`, and keeps out of `pools` every
pool that is not a row while a row has its address. -/
theorem handlePoolLog_pools (lib : EthLib) (abis : List (String × ABI))
    (s s' : ABIScanner) (db db' : DB) (fail : Bool) (blockNum : Nat) (txHash : String)
    (log : Log) (b : Bool)
    (h : handlePoolLog lib abis s db fail blockNum txHash log = Outcome.ok (b, s', db')) :
    (∀ row ∈ db.pools, row ∈ db'.pools) ∧
    (∀ p : Pool, p ∉ db.pools → (∃ row ∈ db.pools, row.PoolAddress = p.PoolAddress) →
      p ∉ db'.pools) := by
  cases b with
  | false =>
    obtain ⟨_, h2⟩ := handlePoolLog_not_handled lib abis s s' db db' fail blockNum txHash
      log h
    rw [h2]
    exact ⟨fun row hrow => hrow, fun p hp _ => hp⟩
  | true =>
    obtain ⟨info, contracABI, event, data, topic1, topic2, rest, _, _, _, _, _, _, hsave,
      _⟩ := handlePoolLog_handled lib abis s s' db db' fail blockNum txHash log h
    rcases SavePool_fresh _ _ _ _ hsave with ⟨happ, hfresh⟩ | ⟨hsame, _⟩
    · refine ⟨fun row hrow => by rw [happ]; exact List.mem_append_left _ hrow, ?_⟩
      intro p hp hrow hmem
      rw [happ] at hmem
      rcases List.mem_append.mp hmem with hm | hm
      · exact hp hm
      · simp only [List.mem_singleton] at hm
        obtain ⟨row, hr, haddr⟩ := hrow
        apply hfresh row hr
        rw [haddr, hm]
    · rw [hsame]
      exact ⟨fun row hrow => hrow, fun p hp _ => hp⟩

/-- A sequence of calls keeps the rows of `pools`, and keeps out of `pools` every pool
that is not a row while a row has its address. -/
theorem handlePoolLogs_pools (lib : EthLib) (abis : List (String × ABI)) :
    ∀ (calls : List PoolCall) (s s' : ABIScanner) (db db' : DB),
      handlePoolLogs lib abis s db calls = Outcome.ok (s', db') →
      (∀ row ∈ db.pools, row ∈ db'.pools) ∧
      (∀ p : Pool, p ∉ db.pools → (∃ row ∈ db.pools, row.PoolAddress = p.PoolAddress) →
        p ∉ db'.pools) := by
  intro calls
  induction calls with
  | nil =>
    intro s s' db db' h
    simp only [handlePoolLogs, foldOutcome, Outcome.ok.injEq, Prod.mk.injEq] at h
    rw [← h.2]
    exact ⟨fun row hrow => hrow, fun p hp _ => hp⟩
  | cons call rest ih =>
    intro s s' db db' h
    rw [handlePoolLogs_cons] at h
    cases hcall : handlePoolLog lib abis s db call.fail call.blockNum call.txHash
        call.log with
    | panic => simp [hcall] at h
    | ok r =>
      obtain ⟨b, s1, db1⟩ := r
      simp only [hcall] at h
      obtain ⟨h1, h2⟩ := handlePoolLog_pools lib abis s s1 db db1 _ _ _ _ b hcall
      obtain ⟨h3, h4⟩ := ih s1 s' db1 db' h
      refine ⟨fun row hrow => h3 row (h1 row hrow), ?_⟩
      intro p hp hrow
      obtain ⟨row, hr, haddr⟩ := hrow
      exact h4 p (h2 p hp ⟨row, hr, haddr⟩) ⟨row, h1 row hr, haddr⟩

/-- An accepted log: the pool built from it was handed to `SavePool` without error and
heads the cache under its lowercased address. -/
theorem handlePoolLog_handled_pool (lib : EthLib) (abis : List (String × ABI))
    (s s' : ABIScanner) (db db' : DB) (fail : Bool) (blockNum : Nat) (txHash : String)
    (log : Log)
    (h : handlePoolLog lib abis s db fail blockNum txHash log = Outcome.ok (true, s', db')) :
    ∃ pool : Pool, pool.CreatedTx = txHash ∧ pool.CreatedBlock = blockNum ∧
      SavePool fail db pool = (none, db') ∧
      s' = { s with poolCache := (toLower pool.PoolAddress, pool) :: s.poolCache } := by
  obtain ⟨info, contracABI, event, data, topic1, topic2, rest, _, _, _, _, _, _, hsave,
    hs'⟩ := handlePoolLog_handled lib abis s s' db db' fail blockNum txHash log h
  exact ⟨_, rfl, rfl, hsave, hs'⟩

/-- What the list `divergedAt` of a call holds: the pool the call accepted and put in the
cache, built from its log, while a different row held its address; the database is as
before the call. -/
theorem divergedAt_spec (lib : EthLib) (abis : List (String × ABI))
    (s s' : ABIScanner) (db db' : DB) (fail : Bool) (blockNum : Nat) (txHash : String)
    (log : Log) (b : Bool)
    (h : handlePoolLog lib abis s db fail blockNum txHash log = Outcome.ok (b, s', db'))
    (p : Pool) (hp : p ∈ divergedAt b s' db') :
    b = true ∧ db' = db ∧ s'.poolCache.lookup (toLower p.PoolAddress) = some p ∧
    p.CreatedTx = txHash ∧ p.CreatedBlock = blockNum ∧ p ∉ db.pools ∧
    ∃ row ∈ db.pools, row.PoolAddress = p.PoolAddress ∧ row ≠ p := by
  cases b with
  | false => simp [divergedAt] at hp
  | true =>
    obtain ⟨pool, htx, hblock, hsave, hs'⟩ :=
      handlePoolLog_handled_pool lib abis s s' db db' fail blockNum txHash log h
    rw [hs'] at hp ⊢
    simp only [divergedAt] at hp
    by_cases hmem : pool ∈ db'.pools
    · simp [hmem] at hp
    · simp only [hmem, if_false, List.mem_singleton] at hp
      subst hp
      rcases SavePool_fresh _ _ _ _ hsave with ⟨happ, _⟩ | ⟨hsame, row, hrow, haddr⟩
      · exfalso
        apply hmem
        rw [happ]
        exact List.mem_append_right _ (List.mem_singleton_self _)
      · have hnot : p ∉ db.pools := by
          rw [hsame] at hmem
          exact hmem
        refine ⟨rfl, hsame, ?_, htx, hblock, hnot, row, hrow, haddr, ?_⟩
        · simp [List.lookup_cons]
        · intro heq
          exact hnot (heq ▸ hrow)

/-- Along a sequence of calls, a cache entry that was a row of `pools` or had a property
`Q` at the start is, at the end, a row of `pools`, or has `Q`, or is one of the pools
accepted while a different row held their address. -/
theorem handlePoolLogs_entries (lib : EthLib) (abis : List (String × ABI)) :
    ∀ (calls : List PoolCall) (s s' : ABIScanner) (db db' : DB) (Q : Pool → Prop),
      (∀ k p, s.poolCache.lookup k = some p → p ∈ db.pools ∨ Q p) →
      handlePoolLogs lib abis s db calls = Outcome.ok (s', db') →
      ∀ k p, s'.poolCache.lookup k = some p →
        p ∈ db'.pools ∨ Q p ∨ p ∈ divergedPools lib abis s db calls := by
  intro calls
  induction calls with
  | nil =>
    intro s s' db db' Q hinv h k p hk
    simp only [handlePoolLogs, foldOutcome, Outcome.ok.injEq, Prod.mk.injEq] at h
    rw [← h.1] at hk
    rw [← h.2]
    rcases hinv k p hk with hp | hp
    · exact Or.inl hp
    · exact Or.inr (Or.inl hp)
  | cons call rest ih =>
    intro s s' db db' Q hinv h k p hk
    rw [handlePoolLogs_cons] at h
    cases hcall : handlePoolLog lib abis s db call.fail call.blockNum call.txHash
        call.log with
    | panic => simp [hcall] at h
    | ok r =>
      obtain ⟨b, s1, db1⟩ := r
      simp only [hcall] at h
      have hrows := (handlePoolLog_pools lib abis s s1 db db1 _ _ _ _ b hcall).1
      have hinv1 : ∀ k p, s1.poolCache.lookup k = some p →
          p ∈ db1.pools ∨ (Q p ∨ p ∈ divergedAt b s1 db1) := by
        intro k1 p1 hk1
        cases b with
        | false =>
          obtain ⟨e1, e2⟩ := handlePoolLog_not_handled lib abis s s1 db db1 _ _ _ _ hcall
          rw [e1] at hk1
          rcases hinv k1 p1 hk1 with hp | hp
          · exact Or.inl (hrows p1 hp)
          · exact Or.inr (Or.inl hp)
        | true =>
          obtain ⟨pool, _, _, hsave, hs1⟩ :=
            handlePoolLog_handled_pool lib abis s s1 db db1 _ _ _ _ hcall
          rw [hs1] at hk1 ⊢
          simp only [List.lookup_cons] at hk1
          split at hk1
          · simp only [Option.some.injEq] at hk1
            subst hk1
            by_cases hmem : pool ∈ db1.pools
            · exact Or.inl hmem
            · right
              right
              simp only [divergedAt, hmem, if_false, List.mem_singleton]
          · rcases hinv k1 p1 hk1 with hp | hp
            · exact Or.inl (hrows p1 hp)
            · exact Or.inr (Or.inl hp)
      have hfin := ih s1 s' db1 db' (fun q => Q q ∨ q ∈ divergedAt b s1 db1) hinv1 h k p hk
      have hdiv : divergedPools lib abis s db (call :: rest)
          = divergedAt b s1 db1 ++ divergedPools lib abis s1 db1 rest := by
        simp only [divergedPools, hcall]
      rw [hdiv]
      rcases hfin with hp | (hp | hp) | hp
      · exact Or.inl hp
      · exact Or.inr (Or.inl hp)
      · exact Or.inr (Or.inr (List.mem_append_left _ hp))
      · exact Or.inr (Or.inr (List.mem_append_right _ hp))

/-- A pool accepted while a different row held its address is no row of `pools` at the
end of the sequence, and a row with its address is. -/
theorem divergedPools_not_rows (lib : EthLib) (abis : List (String × ABI)) :
    ∀ (calls : List PoolCall) (s s' : ABIScanner) (db db' : DB),
      handlePoolLogs lib abis s db calls = Outcome.ok (s', db') →
      ∀ p ∈ divergedPools lib abis s db calls,
        p ∉ db'.pools ∧ ∃ row ∈ db'.pools, row.PoolAddress = p.PoolAddress ∧ row ≠ p := by
  intro calls
  induction calls with
  | nil =>
    intro s s' db db' h p hp
    simp [divergedPools] at hp
  | cons call rest ih =>
    intro s s' db db' h p hp
    rw [handlePoolLogs_cons] at h
    cases hcall : handlePoolLog lib abis s db call.fail call.blockNum call.txHash
        call.log with
    | panic => simp [hcall] at h
    | ok r =>
      obtain ⟨b, s1, db1⟩ := r
      simp only [hcall] at h
      simp only [divergedPools, hcall] at hp
      rcases List.mem_append.mp hp with hp | hp
      · obtain ⟨_, hsame, _, _, _, hnot, row, hrow, haddr, _⟩ :=
          divergedAt_spec lib abis s s1 db db1 _ _ _ _ b hcall p hp
        obtain ⟨h3, h4⟩ := handlePoolLogs_pools lib abis rest s1 s' db1 db' h
        rw [hsame] at h3 h4
        have hout := h4 p hnot ⟨row, hrow, haddr⟩
        refine ⟨hout, row, h3 row hrow, haddr, ?_⟩
        intro heq
        exact hnot (heq ▸ hrow)
      · exact ih s1 s' db1 db' h p hp

set_option maxRecDepth 100000 in
/-- C28, refuted at an explicit state: `pools` holds the pool `0xc9` with tokens `0xa`,
`0xb`, created by transaction `0x01` in block 120, and the cache is seeded from it.  A
PoolCreated log of the tracked factory in transaction `0x02` of block 130 names the same
pool address with tokens `0xd`, `0xe`.  `SavePool` is a duplicate-key no-op, the log is
accepted, and afterwards the cache entry of `0xc9` has tokens `0xd`, `0xe`, transaction
`0x02` and block 130, while the persisted row is as it was. -/
theorem poolCache_differs_from_row_after_duplicate :
    initPoolCache false Sample.dbPool9 = [("0xc9", Sample.pool9)] ∧
    handlePoolLog Sample.lib Sample.abisWithFactory
        { Sample.scannerInit with poolCache := initPoolCache false Sample.dbPool9 }
        Sample.dbPool9 false 130 "0x02" Sample.poolLogAgain
      = Outcome.ok (true,
          { Sample.scannerInit with poolCache :=
              [("0xc9", ⟨"0xc9", "0xf1", "range", "v3", "0xd", "0xe", none, "0x02", 130⟩),
                ("0xc9", Sample.pool9)] },
          Sample.dbPool9) ∧
    (∃ s db, handlePoolLogs Sample.lib Sample.abisWithFactory
        { Sample.scannerInit with poolCache := initPoolCache false Sample.dbPool9 }
        Sample.dbPool9 [⟨false, 130, "0x02", Sample.poolLogAgain⟩] = Outcome.ok (s, db) ∧
      s.poolCache.lookup "0xc9"
        = some ⟨"0xc9", "0xf1", "range", "v3", "0xd", "0xe", none, "0x02", 130⟩ ∧
      db.pools = [⟨"0xc9", "0xf1", "range", "v3", "0xa", "0xb", none, "0x01", 120⟩]) :=
  ⟨by rfl, by rfl, ⟨_, _, by rfl, by rfl, by rfl⟩⟩

/-- C28, amended.  The cache seeded by `initPoolCache` holds rows of `pools` only.  After
any sequence of `handlePoolLog` calls from there, every cache entry is stored under its
lowercased address, `pools` holds a row with that address, and the rows `pools` held at
the start are still there.  After one call from a state in which every cache entry is a
row of `pools`, every entry is still such a row, with one exception: the entry of the
pool just accepted when a row with its address was already persisted and differs from
it; `SavePool` was then a no-op, the row is as it was, and the cache holds the pool
built from the new log.  And after any sequence of calls from the seeded cache, a cache
entry is a row of `pools` if and only if it is not one of the pools of `divergedPools`,
the pools accepted while a different row held their address: every entry whose pool was
new when its log was accepted, or whose log carried the content of the persisted row,
equals its row, whatever happened to other entries; a pool of `divergedPools` is no row
at the end, while a different row with its address is; and a call adds a pool to that
list only when it accepts the pool, built from its log, on a duplicate key with the
database left as it was. -/
theorem poolCache_against_pools (lib : EthLib) (abis : List (String × ABI))
    (s0 : ABIScanner) (db0 : DB) (seedFails : Bool) :
    CacheIsPersisted { s0 with poolCache := initPoolCache seedFails db0 } db0 ∧
    (∀ (calls : List PoolCall) (s : ABIScanner) (db : DB),
      handlePoolLogs lib abis { s0 with poolCache := initPoolCache seedFails db0 } db0 calls
        = Outcome.ok (s, db) →
      CacheHasRow s db ∧ ∀ row ∈ db0.pools, row ∈ db.pools) ∧
    (∀ (s s' : ABIScanner) (db db' : DB) (fail : Bool) (blockNum : Nat) (txHash : String)
        (log : Log) (b : Bool),
      CacheIsPersisted s db →
      handlePoolLog lib abis s db fail blockNum txHash log = Outcome.ok (b, s', db') →
      ∀ (k : String) (p : Pool), s'.poolCache.lookup k = some p →
        p ∈ db'.pools ∨
        (b = true ∧ db' = db ∧ k = toLower p.PoolAddress ∧ p.CreatedTx = txHash ∧
          p.CreatedBlock = blockNum ∧
          ∃ row ∈ db.pools, row.PoolAddress = p.PoolAddress ∧ row ≠ p)) ∧
    (∀ (calls : List PoolCall) (s : ABIScanner) (db : DB),
      handlePoolLogs lib abis { s0 with poolCache := initPoolCache seedFails db0 } db0 calls
        = Outcome.ok (s, db) →
      ∀ (k : String) (p : Pool), s.poolCache.lookup k = some p →
        (p ∈ db.pools ↔
          p ∉ divergedPools lib abis { s0 with poolCache := initPoolCache seedFails db0 }
            db0 calls)) ∧
    (∀ (calls : List PoolCall) (s : ABIScanner) (db : DB),
      handlePoolLogs lib abis { s0 with poolCache := initPoolCache seedFails db0 } db0 calls
        = Outcome.ok (s, db) →
      ∀ p ∈ divergedPools lib abis { s0 with poolCache := initPoolCache seedFails db0 }
          db0 calls,
        p ∉ db.pools ∧ ∃ row ∈ db.pools, row.PoolAddress = p.PoolAddress ∧ row ≠ p) ∧
    (∀ (s s' : ABIScanner) (db db' : DB) (fail : Bool) (blockNum : Nat) (txHash : String)
        (log : Log) (b : Bool),
      handlePoolLog lib abis s db fail blockNum txHash log = Outcome.ok (b, s', db') →
      ∀ p ∈ divergedAt b s' db',
        b = true ∧ db' = db ∧ s'.poolCache.lookup (toLower p.PoolAddress) = some p ∧
        p.CreatedTx = txHash ∧ p.CreatedBlock = blockNum ∧ p ∉ db.pools ∧
        ∃ row ∈ db.pools, row.PoolAddress = p.PoolAddress ∧ row ≠ p) := by
  refine ⟨?_, ?_, ?_, ?_, ?_, ?_⟩
  · intro k p hk
    exact initPoolCache_persisted seedFails db0 k p hk
  · intro calls s db hrun
    have hinv0 : CacheHasRow { s0 with poolCache := initPoolCache seedFails db0 } db0 := by
      intro k p hk
      have hp := initPoolCache_persisted seedFails db0 k p hk
      exact ⟨initPoolCache_keys seedFails db0 k p hk, p, hp, rfl⟩
    unfold handlePoolLogs at hrun
    exact foldOutcome_invariant
      (fun acc : ABIScanner × DB => CacheHasRow acc.1 acc.2 ∧ ∀ row ∈ db0.pools, row ∈ acc.2.pools)
      _ (fun acc call acc' hacc hstep => by
        cases hcall : handlePoolLog lib abis acc.1 acc.2 call.fail call.blockNum call.txHash
            call.log with
        | panic => simp [hcall] at hstep
        | ok r =>
          obtain ⟨b, s1, db1⟩ := r
          simp only [hcall, Outcome.ok.injEq] at hstep
          rw [← hstep]
          obtain ⟨h1, h2⟩ := handlePoolLog_cache_has_row lib abis acc.1 s1 acc.2 db1 call.fail
            call.blockNum call.txHash call.log b hacc.1 hcall
          exact ⟨h1, fun row hrow => h2 row (hacc.2 row hrow)⟩)
      calls _ (s, db) ⟨hinv0, fun row hrow => hrow⟩ hrun
  · intro s s' db db' fail blockNum txHash log b hinv h k p hk
    cases b with
    | false =>
      obtain ⟨h1, h2⟩ := handlePoolLog_not_handled lib abis s s' db db' fail blockNum txHash
        log h
      rw [h1] at hk
      rw [h2]
      exact Or.inl (hinv k p hk)
    | true =>
      obtain ⟨info, contracABI, event, data, topic1, topic2, rest, _, _, _, _, _, _, hsave,
        hs'⟩ := handlePoolLog_handled lib abis s s' db db' fail blockNum txHash log h
      rw [hs'] at hk
      simp only [List.lookup_cons] at hk
      split at hk
      · rename_i hkey
        simp only [Option.some.injEq] at hk
        rcases SavePool_pools _ _ _ _ hsave with happ | ⟨hsame, row, hrow, haddr⟩
        · left
          rw [happ, ← hk]
          exact List.mem_append_right _ (List.mem_singleton_self _)
        · by_cases hmem : p ∈ db.pools
          · left
            rw [hsame]
            exact hmem
          · right
            refine ⟨rfl, hsame, ?_, ?_, ?_, row, hrow, ?_, ?_⟩
            · rw [← hk]
              simpa using hkey
            · rw [← hk]
            · rw [← hk]
            · rw [← hk]
              exact haddr
            · intro heq
              exact hmem (heq ▸ hrow)
      · left
        have hp := hinv k p hk
        rcases SavePool_pools _ _ _ _ hsave with happ | ⟨hsame, _⟩
        · rw [happ]
          exact List.mem_append_left _ hp
        · rw [hsame]
          exact hp
  · intro calls s db hrun k p hk
    constructor
    · intro hmem hdiv
      exact (divergedPools_not_rows lib abis calls _ s db0 db hrun p hdiv).1 hmem
    · intro hnot
      rcases handlePoolLogs_entries lib abis calls _ s db0 db (fun _ => False)
          (fun k1 p1 hk1 => Or.inl (initPoolCache_persisted seedFails db0 k1 p1 hk1))
          hrun k p hk with hp | hp | hp
      · exact hp
      · exact absurd hp id
      · exact absurd hp hnot
  · intro calls s db hrun p hp
    exact divergedPools_not_rows lib abis calls _ s db0 db hrun p hp
  · intro s s' db db' fail blockNum txHash log b h p hp
    exact divergedAt_spec lib abis s s' db db' fail blockNum txHash log b h p hp

set_option maxRecDepth 100000 in
/-- C28 as amended, from the cache seeded with the persisted pool `0xc9` (tokens `0xa`,
`0xb`), after two calls: a log that names `0xc9` again with tokens `0xd`, `0xe`, then the
log of the new pool `0xca`.  The entry of `0xca` is a row of `pools`; the entry of `0xc9`
is the pool of the second log, which is the one pool of `divergedPools` and no row,
while the row of `0xc9` is as it was. -/
theorem poolCache_against_pools_witness :
    handlePoolLogs Sample.lib Sample.abisWithFactory Sample.scannerSeeded Sample.dbPool9
        Sample.poolCalls
      = Outcome.ok
          ({ Sample.scannerInit with poolCache :=
              [("0xca", Sample.poolCA), ("0xc9", Sample.pool9Again),
                ("0xc9", Sample.pool9)] },
            ⟨[Sample.pool9, Sample.poolCA], [], []⟩) ∧
    divergedPools Sample.lib Sample.abisWithFactory Sample.scannerSeeded Sample.dbPool9
        Sample.poolCalls = [Sample.pool9Again] ∧
    CacheIsPersisted Sample.scannerSeeded Sample.dbPool9 ∧
    (CacheHasRow
        { Sample.scannerInit with poolCache :=
            [("0xca", Sample.poolCA), ("0xc9", Sample.pool9Again), ("0xc9", Sample.pool9)] }
        ⟨[Sample.pool9, Sample.poolCA], [], []⟩ ∧
      ∀ row ∈ Sample.dbPool9.pools,
        row ∈ (⟨[Sample.pool9, Sample.poolCA], [], []⟩ : DB).pools) ∧
    (Sample.pool9Again ∈ Sample.dbPool9.pools ∨
      (true = true ∧ Sample.dbPool9 = Sample.dbPool9 ∧
        "0xc9" = toLower Sample.pool9Again.PoolAddress ∧
        Sample.pool9Again.CreatedTx = "0x02" ∧ Sample.pool9Again.CreatedBlock = 130 ∧
        ∃ row ∈ Sample.dbPool9.pools,
          row.PoolAddress = Sample.pool9Again.PoolAddress ∧ row ≠ Sample.pool9Again)) ∧
    (Sample.poolCA ∈ (⟨[Sample.pool9, Sample.poolCA], [], []⟩ : DB).pools ↔
      Sample.poolCA ∉ divergedPools Sample.lib Sample.abisWithFactory Sample.scannerSeeded
        Sample.dbPool9 Sample.poolCalls) ∧
    (Sample.pool9Again ∈ (⟨[Sample.pool9, Sample.poolCA], [], []⟩ : DB).pools ↔
      Sample.pool9Again ∉ divergedPools Sample.lib Sample.abisWithFactory
        Sample.scannerSeeded Sample.dbPool9 Sample.poolCalls) ∧
    (Sample.pool9Again ∉ (⟨[Sample.pool9, Sample.poolCA], [], []⟩ : DB).pools ∧
      ∃ row ∈ (⟨[Sample.pool9, Sample.poolCA], [], []⟩ : DB).pools,
        row.PoolAddress = Sample.pool9Again.PoolAddress ∧ row ≠ Sample.pool9Again) :=
  ⟨by rfl, by rfl,
    (poolCache_against_pools Sample.lib Sample.abisWithFactory Sample.scannerInit
      Sample.dbPool9 false).1,
    (poolCache_against_pools Sample.lib Sample.abisWithFactory Sample.scannerInit
      Sample.dbPool9 false).2.1 Sample.poolCalls _ _ (by rfl),
    (poolCache_against_pools Sample.lib Sample.abisWithFactory Sample.scannerInit
      Sample.dbPool9 false).2.2.1 Sample.scannerSeeded
      { Sample.scannerInit with poolCache :=
          [("0xc9", Sample.pool9Again), ("0xc9", Sample.pool9)] }
      Sample.dbPool9 Sample.dbPool9 false 130 "0x02" Sample.poolLogAgain true
      ((poolCache_against_pools Sample.lib Sample.abisWithFactory Sample.scannerInit
        Sample.dbPool9 false).1) (by rfl) "0xc9" Sample.pool9Again (by rfl),
    (poolCache_against_pools Sample.lib Sample.abisWithFactory Sample.scannerInit
      Sample.dbPool9 false).2.2.2.1 Sample.poolCalls _ _ (by rfl) "0xca" Sample.poolCA
      (by rfl),
    (poolCache_against_pools Sample.lib Sample.abisWithFactory Sample.scannerInit
      Sample.dbPool9 false).2.2.2.1 Sample.poolCalls _ _ (by rfl) "0xc9" Sample.pool9Again
      (by rfl),
    (poolCache_against_pools Sample.lib Sample.abisWithFactory Sample.scannerInit
      Sample.dbPool9 false).2.2.2.2.1 Sample.poolCalls _ _ (by rfl) Sample.pool9Again
      (by decide)⟩

/-! ### Retries of the receipt fetch -/

/-- The retry loop for one receipt makes one, two or three fetches, sleeps 1s, 2s, 3s
after the first, second and third failed fetch, and ends with an error exactly when the
third fetch fails. -/
theorem fetchReceipt_shape (rpc : Rpc) (txHash : String) (trace : List RpcEvent) :
    (∃ receipt, fetchReceipt rpc txHash 0 3 trace
      = (some receipt, trace ++ [RpcEvent.getReceipt txHash])) ∨
    (∃ receipt, fetchReceipt rpc txHash 0 3 trace
      = (some receipt, trace ++ [RpcEvent.getReceipt txHash, RpcEvent.sleep 1,
          RpcEvent.getReceipt txHash])) ∨
    (∃ receipt, fetchReceipt rpc txHash 0 3 trace
      = (some receipt, trace ++ [RpcEvent.getReceipt txHash, RpcEvent.sleep 1,
          RpcEvent.getReceipt txHash, RpcEvent.sleep 2, RpcEvent.getReceipt txHash])) ∨
    fetchReceipt rpc txHash 0 3 trace
      = (none, trace ++ [RpcEvent.getReceipt txHash, RpcEvent.sleep 1,
          RpcEvent.getReceipt txHash, RpcEvent.sleep 2, RpcEvent.getReceipt txHash,
          RpcEvent.sleep 3]) := by
  cases h1 : rpc.receipt trace.length txHash with
  | some r1 =>
    left
    exact ⟨r1, by simp only [fetchReceipt, h1]⟩
  | none =>
    right
    cases h2 : rpc.receipt (trace.length + 2) txHash with
    | some r2 =>
      left
      exact ⟨r2, by simp [fetchReceipt, h1, h2]⟩
    | none =>
      right
      cases h3 : rpc.receipt (trace.length + 4) txHash with
      | some r3 =>
        left
        exact ⟨r3, by simp [fetchReceipt, h1, h2, h3]⟩
      | none =>
        right
        simp [fetchReceipt, h1, h2, h3]

/-- The events of the retry loop for one receipt. -/
theorem fetchReceipt_events (rpc : Rpc) (txHash : String) (blockNumber : Nat)
    (trace : List RpcEvent) :
    ∃ added, (fetchReceipt rpc txHash 0 3 trace).2 = trace ++ added ∧
      (∀ h, added.count (RpcEvent.getReceipt h) ≤ 3 * [txHash].count h) ∧
      added.count (RpcEvent.getBlock blockNumber) = 0 ∧
      ∀ sec ∈ sleeps added, 1 ≤ sec ∧ sec ≤ 3 := by
  rcases fetchReceipt_shape rpc txHash trace with ⟨r, hr⟩ | ⟨r, hr⟩ | ⟨r, hr⟩ | hr
  all_goals
    rw [hr]
    refine ⟨_, rfl, ?_, ?_, ?_⟩
    · intro h
      by_cases hh : txHash = h <;> simp [List.count_cons, hh]
    · simp [List.count_cons]
    · simp [sleeps]

/-- The events of the loop over the transactions of a block: at most three fetches for
each occurrence of a transaction, no block fetch, sleeps of 1s, 2s or 3s. -/
theorem fetchReceipts_events (rpc : Rpc) (blockNumber : Nat) :
    ∀ (txs : List String) (receipts : List Receipt) (trace : List RpcEvent),
      ∃ added, (fetchReceipts rpc txs receipts trace).2 = trace ++ added ∧
        (∀ h, added.count (RpcEvent.getReceipt h) ≤ 3 * txs.count h) ∧
        added.count (RpcEvent.getBlock blockNumber) = 0 ∧
        ∀ sec ∈ sleeps added, 1 ≤ sec ∧ sec ≤ 3 := by
  intro txs
  induction txs with
  | nil =>
    intro receipts trace
    exact ⟨[], by simp [fetchReceipts], by simp, by simp, by simp [sleeps]⟩
  | cons tx rest ih =>
    intro receipts trace
    obtain ⟨a1, h1, hc1, hb1, hs1⟩ := fetchReceipt_events rpc tx blockNumber trace
    cases hf : fetchReceipt rpc tx 0 3 trace with
    | mk res trace1 =>
      rw [hf] at h1
      simp only at h1
      subst h1
      cases res with
      | none =>
        refine ⟨a1, by simp only [fetchReceipts, hf], ?_, hb1, hs1⟩
        intro h
        have hc := hc1 h
        rw [List.count_cons]
        simp only [List.count_cons, List.count_nil, Nat.zero_add] at hc
        omega
      | some receipt =>
        obtain ⟨a2, h2, hc2, hb2, hs2⟩ := ih (receipts ++ [receipt]) (trace ++ a1)
        refine ⟨a1 ++ a2, ?_, ?_, ?_, ?_⟩
        · simp only [fetchReceipts, hf, h2, List.append_assoc]
        · intro h
          have hc := hc1 h
          have hc' := hc2 h
          rw [List.count_append, List.count_cons]
          simp only [List.count_cons, List.count_nil, Nat.zero_add] at hc
          omega
        · rw [List.count_append, hb1, hb2]
        · intro sec hsec
          simp only [sleeps, List.filterMap_append, List.mem_append] at hsec
          rcases hsec with hsec | hsec
          · exact hs1 sec hsec
          · exact hs2 sec hsec

/-- The events of one `getBlockReceiptsOnce`: one block fetch, then the loop over the
transactions listed. -/
theorem getBlockReceiptsOnce_events (rpc : Rpc) (blockNumber : Nat)
    (trace : List RpcEvent) :
    ∃ added, (getBlockReceiptsOnce rpc blockNumber trace).2 = trace ++ added ∧
      (∀ h m, (∀ k txs, rpc.block k blockNumber = some txs → txs.count h ≤ m) →
        added.count (RpcEvent.getReceipt h) ≤ 3 * m) ∧
      added.count (RpcEvent.getBlock blockNumber) = 1 ∧
      ∀ sec ∈ sleeps added, 1 ≤ sec ∧ sec ≤ 3 := by
  unfold getBlockReceiptsOnce
  cases hb : rpc.block trace.length blockNumber with
  | none =>
    exact ⟨[RpcEvent.getBlock blockNumber], rfl, by simp [List.count_cons],
      by simp [List.count_cons], by simp [sleeps]⟩
  | some txs =>
    obtain ⟨a, h1, hc, hbk, hs⟩ := fetchReceipts_events rpc blockNumber txs []
      (trace ++ [RpcEvent.getBlock blockNumber])
    refine ⟨RpcEvent.getBlock blockNumber :: a, ?_, ?_, ?_, ?_⟩
    · simp only [h1, List.append_assoc, List.cons_append, List.nil_append]
    · intro h m hm
      have hmm := hm _ _ hb
      have hch := hc h
      simp only [List.count_cons, reduceCtorEq, beq_iff_eq, if_false, Nat.add_zero]
      omega
    · simp only [List.count_cons, hbk, beq_self_eq_true, if_true]
    · intro sec hsec
      simp only [sleeps, List.filterMap_cons] at hsec
      exact hs sec hsec

/-- The loop of `GetBlockReceipts`, unrolled: up to three attempts, with sleeps of 1s and
2s between them, the first success returned. -/
theorem GetBlockReceipts_unrolled (rpc : Rpc) (blockNumber : Nat) (trace : List RpcEvent)
    (a1 a2 a3 : Option (List Receipt) × List RpcEvent)
    (h1 : getBlockReceiptsOnce rpc blockNumber trace = a1)
    (h2 : getBlockReceiptsOnce rpc blockNumber (a1.2 ++ [RpcEvent.sleep 1]) = a2)
    (h3 : getBlockReceiptsOnce rpc blockNumber (a2.2 ++ [RpcEvent.sleep 2]) = a3) :
    GetBlockReceipts rpc blockNumber trace
      = if a1.1.isSome then a1 else if a2.1.isSome then a2 else a3 := by
  obtain ⟨r1, t1⟩ := a1
  obtain ⟨r2, t2⟩ := a2
  obtain ⟨r3, t3⟩ := a3
  simp only at h2 h3
  unfold GetBlockReceipts
  cases r1 with
  | some x => simp [GetBlockReceiptsLoop, h1]
  | none =>
    cases r2 with
    | some x => simp [GetBlockReceiptsLoop, h1, h2]
    | none =>
      cases r3 with
      | some x => simp [GetBlockReceiptsLoop, h1, h2, h3]
      | none => simp [GetBlockReceiptsLoop, h1, h2, h3]

/-- The events of one `GetBlockReceipts` call. -/
theorem GetBlockReceipts_events (rpc : Rpc) (blockNumber : Nat) (trace : List RpcEvent) :
    ∃ added, (GetBlockReceipts rpc blockNumber trace).2 = trace ++ added ∧
      (∀ h m, (∀ k txs, rpc.block k blockNumber = some txs → txs.count h ≤ m) →
        added.count (RpcEvent.getReceipt h) ≤ 9 * m) ∧
      1 ≤ added.count (RpcEvent.getBlock blockNumber) ∧
      added.count (RpcEvent.getBlock blockNumber) ≤ 3 ∧
      ∀ sec ∈ sleeps added, 1 ≤ sec ∧ sec ≤ 3 := by
  obtain ⟨e1, h1, hc1, hb1, hs1⟩ := getBlockReceiptsOnce_events rpc blockNumber trace
  obtain ⟨e2, h2, hc2, hb2, hs2⟩ := getBlockReceiptsOnce_events rpc blockNumber
    ((getBlockReceiptsOnce rpc blockNumber trace).2 ++ [RpcEvent.sleep 1])
  obtain ⟨e3, h3, hc3, hb3, hs3⟩ := getBlockReceiptsOnce_events rpc blockNumber
    ((getBlockReceiptsOnce rpc blockNumber
      ((getBlockReceiptsOnce rpc blockNumber trace).2 ++ [RpcEvent.sleep 1])).2
      ++ [RpcEvent.sleep 2])
  rw [GetBlockReceipts_unrolled rpc blockNumber trace _ _ _ rfl rfl rfl]
  split
  · refine ⟨e1, h1, ?_, by omega, by omega, hs1⟩
    intro h m hm
    have := hc1 h m hm
    omega
  · split
    · refine ⟨e1 ++ RpcEvent.sleep 1 :: e2, ?_, ?_, ?_, ?_, ?_⟩
      · rw [h2, h1]
        simp
      · intro h m hm
        have ha := hc1 h m hm
        have hb := hc2 h m hm
        simp only [List.count_append, List.count_cons, reduceCtorEq, beq_iff_eq, if_false,
          Nat.add_zero]
        omega
      · simp only [List.count_append, List.count_cons, reduceCtorEq, beq_iff_eq, if_false,
          Nat.add_zero]
        omega
      · simp only [List.count_append, List.count_cons, reduceCtorEq, beq_iff_eq, if_false,
          Nat.add_zero]
        omega
      · intro sec hsec
        simp only [sleeps, List.filterMap_append, List.filterMap_cons, List.mem_append,
          List.mem_cons] at hsec
        rcases hsec with hsec | hsec | hsec
        · exact hs1 sec hsec
        · omega
        · exact hs2 sec hsec
    · refine ⟨e1 ++ RpcEvent.sleep 1 :: (e2 ++ RpcEvent.sleep 2 :: e3), ?_, ?_, ?_, ?_, ?_⟩
      · rw [h3, h2, h1]
        simp
      · intro h m hm
        have ha := hc1 h m hm
        have hb := hc2 h m hm
        have hc := hc3 h m hm
        simp only [List.count_append, List.count_cons, reduceCtorEq, beq_iff_eq, if_false,
          Nat.add_zero]
        omega
      · simp only [List.count_append, List.count_cons, reduceCtorEq, beq_iff_eq, if_false,
          Nat.add_zero]
        omega
      · simp only [List.count_append, List.count_cons, reduceCtorEq, beq_iff_eq, if_false,
          Nat.add_zero]
        omega
      · intro sec hsec
        simp only [sleeps, List.filterMap_append, List.filterMap_cons, List.mem_append,
          List.mem_cons] at hsec
        rcases hsec with hsec | hsec | hsec | hsec | hsec
        · exact hs1 sec hsec
        · omega
        · exact hs2 sec hsec
        · omega
        · exact hs3 sec hsec

set_option maxRecDepth 100000 in
/-- C24, refuted at an explicit endpoint: the block lists one transaction and every fetch
of its receipt fails.  One call of `GetBlockReceipts` fetches the block three times and
the receipt of that one transaction nine times, three in each of its three attempts,
before it returns the error. -/
theorem GetBlockReceipts_fetches_receipt_nine_times :
    GetBlockReceipts Sample.rpcNoReceipt 200 []
      = (none,
        [RpcEvent.getBlock 200,
          RpcEvent.getReceipt "0xaa", RpcEvent.sleep 1,
          RpcEvent.getReceipt "0xaa", RpcEvent.sleep 2,
          RpcEvent.getReceipt "0xaa", RpcEvent.sleep 3,
          RpcEvent.sleep 1,
          RpcEvent.getBlock 200,
          RpcEvent.getReceipt "0xaa", RpcEvent.sleep 1,
          RpcEvent.getReceipt "0xaa", RpcEvent.sleep 2,
          RpcEvent.getReceipt "0xaa", RpcEvent.sleep 3,
          RpcEvent.sleep 2,
          RpcEvent.getBlock 200,
          RpcEvent.getReceipt "0xaa", RpcEvent.sleep 1,
          RpcEvent.getReceipt "0xaa", RpcEvent.sleep 2,
          RpcEvent.getReceipt "0xaa", RpcEvent.sleep 3]) ∧
    (GetBlockReceipts Sample.rpcNoReceipt 200 []).2.count (RpcEvent.getReceipt "0xaa") = 9 ∧
    ¬ (GetBlockReceipts Sample.rpcNoReceipt 200 []).2.count (RpcEvent.getReceipt "0xaa") ≤ 3 ∧
    (GetBlockReceipts Sample.rpcNoReceipt 200 []).2.count (RpcEvent.getBlock 200) = 3 :=
  ⟨by rfl, by rfl, by decide, by rfl⟩

/-- C24, amended.  One call of `GetBlockReceipts` makes up to three attempts
(`getBlockReceiptsOnce`), sleeps 1s after a failed first and 2s after a failed second
attempt, returns the result of the first attempt that succeeds, and returns the error of
the third when all three fail.  It fetches the block at least once and at most three
times, once per attempt.  Within one attempt the receipt of a transaction is fetched up
to three times, with sleeps of 1s, 2s and 3s after the first, second and third failed
fetch, and the attempt fails when the third fetch fails; over the whole call the receipt
of a transaction that every block answer lists at most `m` times is therefore fetched
at most `9 * m` times.  Every sleep is of 1, 2 or 3 seconds. -/
theorem GetBlockReceipts_retry_policy (rpc : Rpc) (blockNumber : Nat)
    (trace : List RpcEvent) :
    (∀ a1 a2 a3 : Option (List Receipt) × List RpcEvent,
      getBlockReceiptsOnce rpc blockNumber trace = a1 →
      getBlockReceiptsOnce rpc blockNumber (a1.2 ++ [RpcEvent.sleep 1]) = a2 →
      getBlockReceiptsOnce rpc blockNumber (a2.2 ++ [RpcEvent.sleep 2]) = a3 →
      GetBlockReceipts rpc blockNumber trace
        = if a1.1.isSome then a1 else if a2.1.isSome then a2 else a3) ∧
    (∃ added, (GetBlockReceipts rpc blockNumber trace).2 = trace ++ added ∧
      1 ≤ added.count (RpcEvent.getBlock blockNumber) ∧
      added.count (RpcEvent.getBlock blockNumber) ≤ 3 ∧
      (∀ sec ∈ sleeps added, 1 ≤ sec ∧ sec ≤ 3) ∧
      (∀ (txHash : String) (m : Nat),
        (∀ k txs, rpc.block k blockNumber = some txs → txs.count txHash ≤ m) →
        added.count (RpcEvent.getReceipt txHash) ≤ 9 * m)) ∧
    (∀ (txHash : String) (tr : List RpcEvent),
      (∃ receipt, fetchReceipt rpc txHash 0 3 tr
        = (some receipt, tr ++ [RpcEvent.getReceipt txHash])) ∨
      (∃ receipt, fetchReceipt rpc txHash 0 3 tr
        = (some receipt, tr ++ [RpcEvent.getReceipt txHash, RpcEvent.sleep 1,
            RpcEvent.getReceipt txHash])) ∨
      (∃ receipt, fetchReceipt rpc txHash 0 3 tr
        = (some receipt, tr ++ [RpcEvent.getReceipt txHash, RpcEvent.sleep 1,
            RpcEvent.getReceipt txHash, RpcEvent.sleep 2, RpcEvent.getReceipt txHash])) ∨
      fetchReceipt rpc txHash 0 3 tr
        = (none, tr ++ [RpcEvent.getReceipt txHash, RpcEvent.sleep 1,
            RpcEvent.getReceipt txHash, RpcEvent.sleep 2, RpcEvent.getReceipt txHash,
            RpcEvent.sleep 3])) := by
  refine ⟨fun a1 a2 a3 h1 h2 h3 =>
    GetBlockReceipts_unrolled rpc blockNumber trace a1 a2 a3 h1 h2 h3, ?_,
    fun txHash tr => fetchReceipt_shape rpc txHash tr⟩
  obtain ⟨added, h1, hc, hb1, hb2, hs⟩ := GetBlockReceipts_events rpc blockNumber trace
  exact ⟨added, h1, hb1, hb2, hs, hc⟩

set_option maxRecDepth 100000 in
/-- C24 as amended, at an endpoint that lists one transaction and returns its receipt at
the third fetch: one block fetch, three receipt fetches with sleeps of 1s and 2s between
them, and the receipts are returned. -/
theorem GetBlockReceipts_retry_policy_witness :
    GetBlockReceipts Sample.rpcLateReceipt 200 []
      = (some [⟨"0xaa", []⟩],
        [RpcEvent.getBlock 200, RpcEvent.getReceipt "0xaa", RpcEvent.sleep 1,
          RpcEvent.getReceipt "0xaa", RpcEvent.sleep 2, RpcEvent.getReceipt "0xaa"]) ∧
    (∃ added, (GetBlockReceipts Sample.rpcLateReceipt 200 []).2 = [] ++ added ∧
      1 ≤ added.count (RpcEvent.getBlock 200) ∧
      added.count (RpcEvent.getBlock 200) ≤ 3 ∧
      (∀ sec ∈ sleeps added, 1 ≤ sec ∧ sec ≤ 3) ∧
      (∀ (txHash : String) (m : Nat),
        (∀ k txs, Sample.rpcLateReceipt.block k 200 = some txs → txs.count txHash ≤ m) →
        added.count (RpcEvent.getReceipt txHash) ≤ 9 * m)) :=
  ⟨by rfl, (GetBlockReceipts_retry_policy Sample.rpcLateReceipt 200 []).2.1⟩

/-! ### Parsing the safe head -/

/-- On digits of the base the digit loop reads everything. -/
theorem scanDigits_valid (base : Nat) :
    ∀ (digits : List Nat) (acc count : Nat), (∀ d ∈ digits, digitValue d < base) →
      scanDigits base digits acc count
        = (digits.foldl (fun a ch => a * base + digitValue ch) acc, count + digits.length,
            []) := by
  intro digits
  induction digits with
  | nil => intro acc count _; simp [scanDigits]
  | cons d rest ih =>
    intro acc count h
    have hd : ¬ digitValue d ≥ base := by
      have := h d (List.mem_cons_self _ _)
      omega
    simp only [scanDigits, hd, if_false, List.foldl_cons, List.length_cons]
    rw [ih _ _ (fun x hx => h x (List.mem_cons_of_mem _ hx))]
    simp only [Prod.mk.injEq, true_and, and_true]
    omega

/-- What the digit loop has read are digits of the base, and it counted them. -/
theorem scanDigits_split (base : Nat) :
    ∀ (body : List Nat) (acc count v c : Nat) (remaining : List Nat),
      scanDigits base body acc count = (v, c, remaining) →
      ∃ digits, body = digits ++ remaining ∧ (∀ d ∈ digits, digitValue d < base) ∧
        c = count + digits.length ∧
        v = digits.foldl (fun a ch => a * base + digitValue ch) acc := by
  intro body
  induction body with
  | nil =>
    intro acc count v c remaining h
    simp only [scanDigits, Prod.mk.injEq] at h
    exact ⟨[], by simp [h.2.2], by simp, by simp [h.2.1], by simp [h.1]⟩
  | cons ch rest ih =>
    intro acc count v c remaining h
    simp only [scanDigits] at h
    split at h
    · simp only [Prod.mk.injEq] at h
      exact ⟨[], by simp [h.2.2], by simp, by simp [h.2.1], by simp [h.1]⟩
    · rename_i hd
      obtain ⟨digits, h1, h2, h3, h4⟩ := ih _ _ _ _ _ h
      refine ⟨ch :: digits, by simp [h1], ?_, ?_, ?_⟩
      · intro d hdm
        rcases List.mem_cons.mp hdm with rfl | hdm
        · omega
        · exact h2 d hdm
      · simp only [List.length_cons]
        omega
      · simp only [List.foldl_cons]
        exact h4

/-- The strings `SetString` accepts in base 16: an optional sign and at least one
hexadecimal digit, nothing else. -/
theorem SetString_hex (t : List Nat) (v : Int) :
    SetString t 16 = some v ↔
      ∃ digits, digits ≠ [] ∧ (∀ d ∈ digits, digitValue d < 16) ∧
        ((t = digits ∧ v = (hexValue digits : Int)) ∨
          (t = 43 :: digits ∧ v = (hexValue digits : Int)) ∨
          (t = 45 :: digits ∧ v = -(hexValue digits : Int))) := by
  constructor
  · intro h
    unfold SetString at h
    cases t with
    | nil => simp at h
    | cons ch rest =>
      simp only at h
      cases hs : scanDigits 16 (if ch = 45 ∨ ch = 43 then rest else ch :: rest) 0 0 with
      | mk abs cr =>
        obtain ⟨count, remaining⟩ := cr
        rw [hs] at h
        simp only at h
        split at h
        · simp at h
        · rename_i hcount
          split at h
          · simp at h
          · rename_i hrem
            simp only [ne_eq, not_not] at hrem
            subst hrem
            obtain ⟨digits, h1, h2, h3, h4⟩ := scanDigits_split 16 _ _ _ _ _ _ hs
            simp only [List.append_nil] at h1
            have hne : digits ≠ [] := by
              intro he
              rw [he] at h3
              simp at h3
              exact hcount h3
            simp only [Option.some.injEq] at h
            refine ⟨digits, hne, h2, ?_⟩
            by_cases h45 : ch = 45
            · right; right
              simp only [h45, true_or, if_true] at h1 h
              exact ⟨by rw [h45, h1], by rw [← h, h4]; rfl⟩
            · by_cases h43 : ch = 43
              · right; left
                simp only [h43, or_true, if_true] at h1
                simp only [h45, if_false] at h
                exact ⟨by rw [h43, h1], by rw [← h, h4]; rfl⟩
              · left
                simp only [h45, h43, or_self, if_false] at h1 h
                exact ⟨h1, by rw [← h, h4]; rfl⟩
  · rintro ⟨digits, hne, hd, h | h | h⟩
    · obtain ⟨ht, hv⟩ := h
      cases digits with
      | nil => exact absurd rfl hne
      | cons d0 ds =>
        have hd0 := hd d0 (List.mem_cons_self _ _)
        have h45 : d0 ≠ 45 := by
          intro he
          rw [he] at hd0
          simp [digitValue] at hd0
        have h43 : d0 ≠ 43 := by
          intro he
          rw [he] at hd0
          simp [digitValue] at hd0
        rw [ht]
        unfold SetString
        simp only [h45, h43, or_self, if_false]
        rw [scanDigits_valid 16 _ _ _ hd]
        simp [hv, hexValue]
    · obtain ⟨ht, hv⟩ := h
      rw [ht]
      unfold SetString
      simp only [or_true, if_true]
      rw [scanDigits_valid 16 _ _ _ hd]
      have hlen : digits.length ≠ 0 := by
        intro h0
        exact hne (List.length_eq_zero.mp h0)
      simp [hv, hexValue, hlen]
    · obtain ⟨ht, hv⟩ := h
      rw [ht]
      unfold SetString
      simp only [true_or, if_true]
      rw [scanDigits_valid 16 _ _ _ hd]
      have hlen : digits.length ≠ 0 := by
        intro h0
        exact hne (List.length_eq_zero.mp h0)
      simp [hv, hexValue, hlen]

/-- The bytes of a string of ASCII characters are its characters. -/
theorem goBytes_ascii (cs : List Char) (h : ∀ c ∈ cs, c.toNat < 128) :
    cs.flatMap utf8Bytes = cs.map Char.toNat := by
  induction cs with
  | nil => rfl
  | cons c rest ih =>
    have hc := h c (List.mem_cons_self _ _)
    simp only [List.flatMap_cons, List.map_cons]
    rw [ih (fun x hx => h x (List.mem_cons_of_mem _ hx))]
    simp [utf8Bytes, hc]

/-- C26, at explicit answers of the endpoint.  On the empty string and on a string of one
byte the slice `block.Number[2:]` is out of range: `GetSafeBlockNumber` does not return
an error, it panics.  The first two bytes are dropped unread, so `zz1f` yields 31; a sign
after them is accepted, so `0x-5` and `0x+5` yield 5; and a value of `2 ^ 64` or more is
cut to its low 64 bits, so `0x10000000000000000` yields 0.  The well-formed `0x1F`
yields 31. -/
theorem GetSafeBlockNumber_panics_on_short_number :
    GetSafeBlockNumber (some "") = Outcome.panic ∧
    GetSafeBlockNumber (some "0") = Outcome.panic ∧
    GetSafeBlockNumber (some "zz1f") = Outcome.ok (some 31) ∧
    GetSafeBlockNumber (some "0x-5") = Outcome.ok (some 5) ∧
    GetSafeBlockNumber (some "0x+5") = Outcome.ok (some 5) ∧
    GetSafeBlockNumber (some "0x10000000000000000") = Outcome.ok (some 0) ∧
    GetSafeBlockNumber (some "0x1F") = Outcome.ok (some 31) :=
  ⟨by rfl, by rfl, by rfl, by rfl, by rfl, by rfl, by rfl⟩

/-- What `GetSafeBlockNumber` computes from the field `number`.  With fewer than two bytes
it panics.  Otherwise the first two bytes are dropped, whatever they are; when the rest
is an optional sign followed by at least one hexadecimal digit (either case) and nothing
else, the result is the value of the digits modulo `2 ^ 64`, and in every other case an
error is returned.  In particular `0x` followed by at least one hexadecimal digit, of
value `n < 2 ^ 64`, yields `n`. -/
theorem GetSafeBlockNumber_parse (number : String) :
    ((goBytes number).length < 2 → GetSafeBlockNumber (some number) = Outcome.panic) ∧
    (∀ (b0 b1 : Nat) (rest : List Nat), goBytes number = b0 :: b1 :: rest →
      (∀ digits : List Nat, digits ≠ [] → (∀ d ∈ digits, digitValue d < 16) →
        (rest = digits ∨ rest = 43 :: digits ∨ rest = 45 :: digits) →
        GetSafeBlockNumber (some number) = Outcome.ok (some (hexValue digits % 2 ^ 64))) ∧
      ((∀ digits : List Nat, digits ≠ [] → (∀ d ∈ digits, digitValue d < 16) →
          ¬ (rest = digits ∨ rest = 43 :: digits ∨ rest = 45 :: digits)) →
        GetSafeBlockNumber (some number) = Outcome.ok none)) ∧
    (∀ cs : List Char, number.data = '0' :: 'x' :: cs → cs ≠ [] →
      (∀ c ∈ cs, digitValue c.toNat < 16) → hexValue (cs.map Char.toNat) < 2 ^ 64 →
      GetSafeBlockNumber (some number) = Outcome.ok (some (hexValue (cs.map Char.toNat)))) := by
  have hbytes : ∀ (b0 b1 : Nat) (rest : List Nat), goBytes number = b0 :: b1 :: rest →
      (∀ digits : List Nat, digits ≠ [] → (∀ d ∈ digits, digitValue d < 16) →
        (rest = digits ∨ rest = 43 :: digits ∨ rest = 45 :: digits) →
        GetSafeBlockNumber (some number) = Outcome.ok (some (hexValue digits % 2 ^ 64))) ∧
      ((∀ digits : List Nat, digits ≠ [] → (∀ d ∈ digits, digitValue d < 16) →
          ¬ (rest = digits ∨ rest = 43 :: digits ∨ rest = 45 :: digits)) →
        GetSafeBlockNumber (some number) = Outcome.ok none) := by
    intro b0 b1 rest hb
    have hlen : ¬ (b0 :: b1 :: rest).length < 2 := by simp
    refine ⟨?_, ?_⟩
    · intro digits hne hd hrest
      have hset : ∃ v : Int, SetString rest 16 = some v ∧ v.natAbs = hexValue digits := by
        rcases hrest with h | h | h
        · exact ⟨(hexValue digits : Int),
            (SetString_hex rest _).mpr ⟨digits, hne, hd, Or.inl ⟨h, rfl⟩⟩, by simp⟩
        · exact ⟨(hexValue digits : Int),
            (SetString_hex rest _).mpr ⟨digits, hne, hd, Or.inr (Or.inl ⟨h, rfl⟩)⟩, by simp⟩
        · exact ⟨-(hexValue digits : Int),
            (SetString_hex rest _).mpr ⟨digits, hne, hd, Or.inr (Or.inr ⟨h, rfl⟩)⟩, by simp⟩
      obtain ⟨v, hv, habs⟩ := hset
      unfold GetSafeBlockNumber
      simp only [hlen, if_false, hb, List.drop_succ_cons, List.drop_zero, hv, habs]
    · intro hnone
      unfold GetSafeBlockNumber
      simp only [hlen, if_false, hb, List.drop_succ_cons, List.drop_zero]
      cases hs : SetString rest 16 with
      | none => rfl
      | some v =>
        exfalso
        obtain ⟨digits, hne, hd, h⟩ := (SetString_hex rest v).mp hs
        apply hnone digits hne hd
        rcases h with h | h | h
        · exact Or.inl h.1
        · exact Or.inr (Or.inl h.1)
        · exact Or.inr (Or.inr h.1)
  refine ⟨?_, hbytes, ?_⟩
  · intro h
    unfold GetSafeBlockNumber
    simp only [h, if_true]
  · intro cs hdata hne hd hv
    have hascii : ∀ c ∈ number.data, c.toNat < 128 := by
      intro c hc
      rw [hdata] at hc
      rcases List.mem_cons.mp hc with rfl | hc
      · decide
      · rcases List.mem_cons.mp hc with rfl | hc
        · decide
        · have := hd c hc
          unfold digitValue at this
          split at this
          · omega
          · split at this
            · omega
            · split at this
              · omega
              · omega
    have hb : goBytes number = 48 :: 120 :: cs.map Char.toNat := by
      unfold goBytes
      rw [goBytes_ascii _ hascii, hdata]
      rfl
    have hmain := (hbytes 48 120 (cs.map Char.toNat) hb).1 (cs.map Char.toNat)
      (by simpa using hne)
      (by
        intro d hdm
        obtain ⟨c, hc, rfl⟩ := List.mem_map.mp hdm
        exact hd c hc)
      (Or.inl rfl)
    rw [hmain, Nat.mod_eq_of_lt hv]

/-- The number `0x1f` yields 31. -/
theorem GetSafeBlockNumber_parse_witness :
    GetSafeBlockNumber (some "0x1f") = Outcome.ok (some 31) ∧
    hexValue (['1', 'f'].map Char.toNat) = 31 ∧
    GetSafeBlockNumber (some "0x1f")
      = Outcome.ok (some (hexValue (['1', 'f'].map Char.toNat))) :=
  ⟨by rfl, by rfl,
    (GetSafeBlockNumber_parse "0x1f").2.2 ['1', 'f'] (by rfl) (by decide) (by decide)
      (by decide)⟩

end ZkIndexer
